import Mathlib

/-!
# luamerge: table model and merge engine

A shallow embedding of `internal/parser/table.go` and `internal/merger/merger.go`.

The Go code works on pointers: a `*Table` is mutated by `AddOrReplace`, and a
`*Value` stored in one table can also be stored in another one.  The embedding
therefore keeps an explicit heap of `Value` objects and `Table` objects; a
pointer is the position of its object in the heap.  `NamedValue` objects are
never written after their creation and are kept as plain pairs.
-/

namespace Luamerge

/-! ## Library functions used by the source -/

/-- Go `strings.TrimSuffix`: removes one trailing occurrence of `suffix`. -/
def TrimSuffix (s suffix : String) : String :=
  if suffix.data.isSuffixOf s.data then
    String.mk (s.data.take (s.data.length - suffix.data.length))
  else s

/-- Go `strings.TrimPrefix`: removes one leading occurrence of `pre`. -/
def TrimPrefix (s pre : String) : String :=
  if pre.data.isPrefixOf s.data then String.mk (s.data.drop pre.data.length) else s

/-- Value of a run of decimal digits, most significant first. -/
def digitsValue (ds : List Char) : Nat :=
  ds.foldl (fun acc c => acc * 10 + (c.toNat - 48)) 0

/-- Go `strconv.Atoi` on a 64-bit platform: an optional sign followed by one or
more decimal digits, in the range of `int`; `none` stands for a non-nil error. -/
def Atoi (s : String) : Option Int :=
  let neg : Bool := s.data.head? == some '-'
  let ds : List Char :=
    match s.data with
    | '-' :: r => r
    | '+' :: r => r
    | r => r
  if ds.isEmpty then none
  else if ds.all Char.isDigit then
    if neg then
      (if digitsValue ds ≤ 2 ^ 63 then some (-(digitsValue ds : Int)) else none)
    else
      (if digitsValue ds < 2 ^ 63 then some (digitsValue ds : Int) else none)
  else none

/-- Go `fmt.Sprintf("[%d]", n)`. -/
def formatIndex (n : Int) : String := "[" ++ toString n ++ "]"

/-- Scanner behind `ReplaceAll`; `skip` counts the characters of a matched
occurrence of `old` that are still to be passed over. -/
def replaceAux (old new : List Char) : Nat → List Char → List Char
  | _, [] => []
  | skip + 1, _ :: cs => replaceAux old new skip cs
  | 0, c :: cs =>
    if old.isPrefixOf (c :: cs) then new ++ replaceAux old new (old.length - 1) cs
    else c :: replaceAux old new 0 cs

/-- Go `strings.ReplaceAll` for a non-empty `old`: the non-overlapping
occurrences of `old`, leftmost first, are replaced by `new`. -/
def ReplaceAll (s old new : String) : String :=
  String.mk (replaceAux old.data new.data 0 s.data)

/-- Go `strings.Trim`: drops the leading and trailing characters of `cutset`. -/
def Trim (s cutset : String) : String :=
  String.mk
    (((s.data.dropWhile (fun c => cutset.data.contains c)).reverse.dropWhile
      (fun c => cutset.data.contains c)).reverse)

/-- Go map read `m[k]` with the comma-ok form. -/
def mapGet (m : List (String × Nat)) (k : String) : Option Nat := m.lookup k

/-- Go map write `m[k] = v`. -/
def mapSet (m : List (String × Nat)) (k : String) (v : Nat) : List (String × Nat) :=
  (k, v) :: m.filter (fun p => p.1 != k)

/-! ## Data model (`table.go`) -/

/-- The `Type` enumeration of `table.go`. -/
inductive LuaType where
  | TypeNil
  | TypeBoolean
  | TypeNumber
  | TypeString
  | TypeTable
  | TypeFunction
  | TypeVariable
  deriving DecidableEq, Repr

/-- Address of a `Value` object (`*Value`). -/
abbrev VRef := Nat

/-- Address of a `Table` object (`*Table`). -/
abbrev TRef := Nat

/-- A `float64`, identified by its IEEE-754 bit pattern.  The code under study
stores and returns numbers and performs no arithmetic on them. -/
structure Float64 where
  bits : Nat
  deriving DecidableEq, Repr

/-- The dynamic content of the field `value any` of a `Value`. -/
inductive Payload where
  | nil
  | bool (b : Bool)
  | float64 (x : Float64)
  | string (s : String)
  | table (t : TRef)
  | value (v : VRef)
  deriving DecidableEq, Repr

/-- The struct `Value`: a type tag and an untyped payload. -/
structure Value where
  Typ : LuaType
  value : Payload
  deriving DecidableEq, Repr

/-- The struct `NamedValue`. -/
structure NamedValue where
  Name : String
  Value : VRef
  deriving DecidableEq, Repr

/-- The struct `Table`. -/
structure Table where
  values : List NamedValue
  index : List (String × Nat)
  currentIndex : Nat
  deriving DecidableEq, Repr

/-- The objects reachable through pointers. -/
structure Heap where
  vals : List Value
  tabs : List Table
  deriving DecidableEq, Repr

/-- Outcome of a call that returns `(T, error)`: a result with a nil error, a
non-nil error, or no return at all (unbounded recursion, nil dereference). -/
inductive Res (α : Type) where
  | ok (a : α)
  | error
  | diverge
  deriving DecidableEq, Repr

/-- The function `NewTable`. -/
def NewTable : Table := { values := [], index := [], currentIndex := 0 }

namespace Table

/-- The test `index, ok := t.index[key]; ok && index < len(t.values)` of `Get`
together with the read `t.values[index].Value`. -/
def lookupIndex (t : Table) (key : String) : Option VRef :=
  match mapGet t.index key with
  | some index =>
    if index < t.values.length then t.values[index]?.map NamedValue.Value else none
  | none => none

/-- The method `Table.Get`; `none` stands for `(nil, false)`. -/
def Get (t : Table) (key : String) : Option VRef :=
  match t.lookupIndex key with
  | some v => some v
  | none =>
    let trimmedKey := TrimPrefix (TrimSuffix key "]") "["
    match Atoi trimmedKey with
    | none => none
    | some numIndex => t.lookupIndex (formatIndex numIndex)

/-- The method `Table.Range`: the entries in slice order. -/
def Range (t : Table) : List NamedValue := t.values

/-- The append branch of `AddOrReplace`. -/
def append (t : Table) (name : String) (value : VRef) : Table :=
  let currentIndex := if name = "" then t.currentIndex + 1 else t.currentIndex
  let name := if name = "" then formatIndex (currentIndex : Nat) else name
  let values := t.values ++ [{ Name := name, Value := value }]
  { values := values, index := mapSet t.index name (values.length - 1),
    currentIndex := currentIndex }

/-- The method `Table.AddOrReplace` on the table at address `t`.  When `name`
resolves, the field `value` of the `Value` object found is overwritten with the
pointer `value`; otherwise an entry is appended. -/
def AddOrReplace (h : Heap) (t : TRef) (name : String) (value : VRef) : Option Heap :=
  match h.tabs[t]? with
  | none => none
  | some tab =>
    match tab.Get name with
    | some current =>
      match h.vals[current]? with
      | none => none
      | some cv =>
        some { h with vals := h.vals.set current { cv with value := Payload.value value } }
    | none => some { h with tabs := h.tabs.set t (tab.append name value) }

end Table

/-! ## Typed accessors of `Value` -/

/-- The method `Value.Variable`, with a bound on the depth of wrapped values. -/
def Value.VariableAux (h : Heap) : Nat → VRef → Res String
  | 0, _ => Res.diverge
  | fuel + 1, v =>
    match h.vals[v]? with
    | none => Res.diverge
    | some val =>
      if val.Typ ≠ LuaType.TypeVariable then Res.error
      else
        match val.value with
        | Payload.value inner => Value.VariableAux h fuel inner
        | Payload.string value => Res.ok value
        | _ => Res.error

/-- The method `Value.Variable`.  A chain of wrapped values that visits more
objects than the heap holds repeats one of them and never ends. -/
def Value.Variable (h : Heap) (v : VRef) : Res String :=
  Value.VariableAux h (h.vals.length + 1) v

/-- The method `Value.Number`, with a bound on the depth of wrapped values. -/
def Value.NumberAux (h : Heap) : Nat → VRef → Res Float64
  | 0, _ => Res.diverge
  | fuel + 1, v =>
    match h.vals[v]? with
    | none => Res.diverge
    | some val =>
      if val.Typ ≠ LuaType.TypeNumber then Res.error
      else
        match val.value with
        | Payload.value inner => Value.NumberAux h fuel inner
        | Payload.float64 value => Res.ok value
        | _ => Res.error

/-- The method `Value.Number`. -/
def Value.Number (h : Heap) (v : VRef) : Res Float64 :=
  Value.NumberAux h (h.vals.length + 1) v

/-- The method `Value.Boolean`, with a bound on the depth of wrapped values. -/
def Value.BooleanAux (h : Heap) : Nat → VRef → Res Bool
  | 0, _ => Res.diverge
  | fuel + 1, v =>
    match h.vals[v]? with
    | none => Res.diverge
    | some val =>
      if val.Typ ≠ LuaType.TypeBoolean then Res.error
      else
        match val.value with
        | Payload.value inner => Value.BooleanAux h fuel inner
        | Payload.bool value => Res.ok value
        | _ => Res.error

/-- The method `Value.Boolean`. -/
def Value.Boolean (h : Heap) (v : VRef) : Res Bool :=
  Value.BooleanAux h (h.vals.length + 1) v

/-- The method `Value.Table`, with a bound on the depth of wrapped values. -/
def Value.TableAux (h : Heap) : Nat → VRef → Res TRef
  | 0, _ => Res.diverge
  | fuel + 1, v =>
    match h.vals[v]? with
    | none => Res.diverge
    | some val =>
      if val.Typ ≠ LuaType.TypeTable then Res.error
      else
        match val.value with
        | Payload.value inner => Value.TableAux h fuel inner
        | Payload.table value => Res.ok value
        | _ => Res.error

/-- The method `Value.Table`. -/
def Value.Table (h : Heap) (v : VRef) : Res TRef :=
  Value.TableAux h (h.vals.length + 1) v

/-- The escape normalisation at the end of `Value.String`. -/
def normalizeString (value : String) : String :=
  let value := ReplaceAll value "\n" "\\n"
  let value := ReplaceAll value "\t" "\\t"
  let value := Trim value "\""
  let value := ReplaceAll value "\\\"" "\""
  let value := ReplaceAll value "\"" "\\\""
  value

/-- The method `Value.String`, with a bound on the depth of wrapped values. -/
def Value.StringAux (h : Heap) : Nat → VRef → Res String
  | 0, _ => Res.diverge
  | fuel + 1, v =>
    match h.vals[v]? with
    | none => Res.diverge
    | some val =>
      if val.Typ ≠ LuaType.TypeString then Res.error
      else
        match val.value with
        | Payload.value inner => Value.StringAux h fuel inner
        | Payload.string value => Res.ok (normalizeString value)
        | _ => Res.error

/-- The method `Value.String`. -/
def Value.String (h : Heap) (v : VRef) : Res String :=
  Value.StringAux h (h.vals.length + 1) v

/-! ## Merge rules and the merge engine (`merger.go`) -/

/-- A rule value, the `any` of a `map[string]any` decoded from JSON: a boolean,
a nested rule map, or anything else (number, string, null, array). -/
inductive Rule where
  | bool (b : Bool)
  | map (m : List (String × Rule))
  | other

/-- A rule map `map[string]any`, listed in the order in which `range` visits
its entries. -/
abbrev Rules := List (String × Rule)

mutual
/-- The body of the loop of `applyRules` on one rule entry. -/
def applyRule (h : Heap) (base source : TRef) (ruleKey : String) (ruleValue : Rule) :
    Option Heap :=
  match h.tabs[base]?, h.tabs[source]? with
  | some b, some s =>
    match b.Get ruleKey, s.Get ruleKey with
    | some baseValue, some sourceValue =>
      match ruleValue with
      | Rule.bool ruleBool =>
        if ruleBool then Table.AddOrReplace h base ruleKey sourceValue else some h
      | Rule.map nestedRules =>
        match Value.Table h baseValue, Value.Table h sourceValue with
        | Res.diverge, _ => none
        | _, Res.diverge => none
        | Res.ok baseTable, Res.ok sourceTable =>
          applyRules h baseTable sourceTable nestedRules
        | _, _ => some h
      | Rule.other => some h
    | _, _ => some h
  | _, _ => none
termination_by structural ruleValue
/-- The function `applyRules`; `none` when the Go call does not return. -/
def applyRules (h : Heap) (base source : TRef) (rules : List (String × Rule)) : Option Heap :=
  match rules with
  | [] => some h
  | entry :: rest =>
    match applyEntry h base source entry with
    | none => none
    | some h1 => applyRules h1 base source rest
termination_by structural rules
/-- One iteration of `for ruleKey, ruleValue := range rules`. -/
def applyEntry (h : Heap) (base source : TRef) (entry : String × Rule) : Option Heap :=
  match entry with
  | (ruleKey, ruleValue) => applyRule h base source ruleKey ruleValue
termination_by structural entry
end

/-- The loop `for sourceEntry := range sourceTable.Range()` of `mergeInternal`,
which calls `baseTable.AddOrReplace(sourceEntry.Name, sourceEntry.Value)`. -/
def copyEntries (h : Heap) (baseTable : TRef) (entries : List NamedValue) : Option Heap :=
  match entries with
  | [] => some h
  | sourceEntry :: rest =>
    match Table.AddOrReplace h baseTable sourceEntry.Name sourceEntry.Value with
    | none => none
    | some h1 => copyEntries h1 baseTable rest

/-- The complete replacement of `mergeInternal`: every entry of the source table
is handed to `AddOrReplace` on the base table. -/
def copyAll (h : Heap) (baseTable sourceTable : TRef) : Option Heap :=
  match h.tabs[sourceTable]? with
  | none => none
  | some s => copyEntries h baseTable s.Range

/-- The loop `for baseEntry := range baseTable.Range()` of `mergeInternal` for
one nested rule map. -/
def mergeEntries (h : Heap) (sourceTable : TRef) (nestedRules : Rules)
    (entries : List NamedValue) : Option Heap :=
  match entries with
  | [] => some h
  | baseEntry :: rest =>
    match h.tabs[sourceTable]? with
    | none => none
    | some s =>
      match s.Get baseEntry.Name with
      | none => mergeEntries h sourceTable nestedRules rest
      | some sourceEntry =>
        match Value.Table h baseEntry.Value, Value.Table h sourceEntry with
        | Res.diverge, _ => none
        | _, Res.diverge => none
        | Res.ok baseSubTable, Res.ok sourceSubTable =>
          match applyRules h baseSubTable sourceSubTable nestedRules with
          | none => none
          | some h1 => mergeEntries h1 sourceTable nestedRules rest
        | _, _ => mergeEntries h sourceTable nestedRules rest

/-- The loop `for key, ruleValue := range rules` of `mergeInternal`. -/
def mergeRules (h : Heap) (baseTable sourceTable : TRef) (rules : Rules) : Option Heap :=
  match rules with
  | [] => some h
  | (_, ruleValue) :: rest =>
    match ruleValue with
    | Rule.bool ruleBool =>
      if ruleBool then copyAll h baseTable sourceTable
      else mergeRules h baseTable sourceTable rest
    | Rule.map nestedRules =>
      match h.tabs[baseTable]? with
      | none => none
      | some b =>
        match mergeEntries h sourceTable nestedRules b.Range with
        | none => none
        | some h1 => mergeRules h1 baseTable sourceTable rest
    | Rule.other => mergeRules h baseTable sourceTable rest

/-- The function `mergeInternal`; `none` when the Go call does not return. -/
def mergeInternal (h : Heap) (baseTable sourceTable : TRef) (rules : Rules) : Option Heap :=
  if rules.length = 0 then copyAll h baseTable sourceTable
  else mergeRules h baseTable sourceTable rules

/-! ## Regions of the heap

The merge follows pointers: from a table to the `Value` objects of its entries,
from a `Value` object to the `Value` it wraps or to the table it holds.  A
region is a set `C` of `Value` objects and a set `S` of tables that these
pointers do not leave. -/

/-- The object at `c` points inside the region: a table payload is in `S`, a
wrapped value is in `C`. -/
def pointsInto (h : Heap) (C : List VRef) (S : List TRef) (c : VRef) : Bool :=
  match h.vals[c]? with
  | some cv =>
    match cv.value with
    | Payload.table t => S.contains t
    | Payload.value x => C.contains x
    | _ => true
  | none => true

/-- Every entry of the table at `t` holds a `Value` object of `C`. -/
def ownsEntries (h : Heap) (C : List VRef) (t : TRef) : Bool :=
  match h.tabs[t]? with
  | some tb => tb.values.all (fun e => C.contains e.Value)
  | none => true

/-- The region `(C, S)` is closed: the objects of `C` point inside the region
and the tables of `S` hold objects of `C` only. -/
def Closed (h : Heap) (C : List VRef) (S : List TRef) : Prop :=
  (∀ c ∈ C, pointsInto h C S c = true) ∧ (∀ t ∈ S, ownsEntries h C t = true)

instance instDecidableClosed (h : Heap) (C : List VRef) (S : List TRef) :
    Decidable (Closed h C S) := by
  unfold Closed; infer_instance

/-- Effect of a call on a closed region `(C, S)`: the region stays closed, no
table object is touched and no `Value` object outside `C` is touched. -/
def Frame (C : List VRef) (S : List TRef) (h h' : Heap) : Prop :=
  Closed h' C S ∧ h'.tabs = h.tabs ∧ ∀ r : VRef, r ∉ C → h'.vals[r]? = h.vals[r]?

/-- Every key of `keys` that resolves in the table at `t` resolves to an object
of `C`. -/
def ResolvesInto (h : Heap) (t : TRef) (keys : List String) (C : List VRef) : Prop :=
  ∀ k ∈ keys, ∀ tb c, h.tabs[t]? = some tb → tb.Get k = some c → c ∈ C

/-- What every call of the merge engine preserves: the table objects, the
number of `Value` objects and the type tag of every `Value` object. -/
def Ext (h h' : Heap) : Prop :=
  h'.tabs = h.tabs ∧ h'.vals.length = h.vals.length ∧
    ∀ r : VRef, (h'.vals[r]?).map Value.Typ = (h.vals[r]?).map Value.Typ

/-! ## The uniform pass of the specification -/

/-- One step of the pass described by the specification: an entry of base whose
name resolves in source and whose base and source values are both tables gets
`applyRules` on the two sub-tables; any other entry is passed over. -/
def passStep (source : TRef) (m : Rules) (h : Heap) (e : NamedValue) : Option Heap :=
  match h.tabs[source]? with
  | none => none
  | some s =>
    match s.Get e.Name with
    | none => some h
    | some sv =>
      match Value.Table h e.Value, Value.Table h sv with
      | Res.diverge, _ => none
      | _, Res.diverge => none
      | Res.ok baseSub, Res.ok sourceSub => applyRules h baseSub sourceSub m
      | _, _ => some h

/-- The pass described by the specification for a nested rule map `m`: the
entries of base are visited in order, each with `passStep`. -/
def uniformPass (h : Heap) (base source : TRef) (m : Rules) : Option Heap :=
  match h.tabs[base]? with
  | none => none
  | some b => b.values.foldlM (passStep source m) h

/-! ## Example inputs -/

/-- A `Value` of type string. -/
def strValue (s : String) : Value := { Typ := LuaType.TypeString, value := Payload.string s }

/-- A `Value` of type boolean. -/
def boolValue (b : Bool) : Value := { Typ := LuaType.TypeBoolean, value := Payload.bool b }

/-- A `Value` of type table holding the table at `t`. -/
def tableValue (t : TRef) : Value := { Typ := LuaType.TypeTable, value := Payload.table t }

/-- The table `{a = "old"}` (object 0) and a boolean `true` (object 1) that is
not yet stored anywhere. -/
def exReplaceHeap : Heap :=
  { vals := [strValue "old", boolValue true],
    tabs := [NewTable.append "a" 0] }

/-- Base `{a = "one", b = "two"}` (table 0, objects 0 and 1) and source
`{b = true, c = "four"}` (table 1, objects 2 and 3). -/
def exUnionHeap : Heap :=
  { vals := [strValue "one", strValue "two", boolValue true, strValue "four"],
    tabs := [(NewTable.append "a" 0).append "b" 1, (NewTable.append "b" 2).append "c" 3] }

/-- Base `{x = "one", y = "two"}` (table 0, objects 0 and 1) and source
`{x = true, y = "eight"}` (table 1, objects 2 and 3). -/
def exFieldHeap : Heap :=
  { vals := [strValue "one", strValue "two", boolValue true, strValue "eight"],
    tabs := [(NewTable.append "x" 0).append "y" 1, (NewTable.append "x" 2).append "y" 3] }

/-- Base `{x = {n = "n-old", m = "m-old"}, y = "keep"}` (tables 0 and 1) and
source `{x = {n = "n-new", m = "m-new"}, y = "other"}` (tables 2 and 3). -/
def exNestedHeap : Heap :=
  { vals := [tableValue 1, strValue "keep", strValue "n-old", strValue "m-old",
             tableValue 3, strValue "other", strValue "n-new", strValue "m-new"],
    tabs := [(NewTable.append "x" 0).append "y" 1, (NewTable.append "n" 2).append "m" 3,
             (NewTable.append "x" 4).append "y" 5, (NewTable.append "n" 6).append "m" 7] }

/-- Base `{"old"}` and source `{"new"}`: one positional entry each, named
`[1]` (tables 0 and 1, objects 0 and 1). -/
def exPositionalHeap : Heap :=
  { vals := [strValue "old", strValue "new"],
    tabs := [NewTable.append "" 0, NewTable.append "" 1] }

/-- Base `{["1"] = {n = "old"}}` (tables 0 and 1) and source `{{n = "new"}}`
(tables 2 and 3): the base entry is named `1`, the source entry `[1]`. -/
def exAliasHeap : Heap :=
  { vals := [tableValue 1, strValue "old", tableValue 3, strValue "new"],
    tabs := [NewTable.append "1" 0, NewTable.append "n" 1,
             NewTable.append "" 2, NewTable.append "n" 3] }

/-- Base `{x = {n = {p = "base"}}}` (tables 0, 1, 2, objects 0, 1, 2) and source
`{x = {n = {p = "source"}}}` (tables 3, 4, 5, objects 3, 4, 5). -/
def exDeepHeap : Heap :=
  { vals := [tableValue 1, tableValue 2, strValue "base",
             tableValue 4, tableValue 5, strValue "source"],
    tabs := [NewTable.append "x" 0, NewTable.append "n" 1, NewTable.append "p" 2,
             NewTable.append "x" 3, NewTable.append "n" 4, NewTable.append "p" 5] }

/-! ## Sequences of `AddOrReplace` calls -/

/-- The calls `t.AddOrReplace(name, value)` for the pairs of `calls`, in order. -/
def addAll (h : Heap) (t : TRef) (calls : List (String × VRef)) : Option Heap :=
  match calls with
  | [] => some h
  | (name, value) :: rest =>
    match Table.AddOrReplace h t name value with
    | none => none
    | some h1 => addAll h1 t rest

/-- The number of calls of `calls` made with the empty name. -/
def unnamedCalls (calls : List (String × VRef)) : Nat :=
  (calls.filter (fun c => c.1 == "")).length

/-- A heap with one empty table (table 0) and three values that are not yet
stored anywhere. -/
def exEmptyHeap : Heap :=
  { vals := [strValue "a", strValue "b", strValue "c"], tabs := [NewTable] }

/-- What `AddOrReplace` calls keep true of the table at `t`, started from
`NewTable`: no index key is empty, every entry points to a `Value` object of
the heap, and the positional counter is `n`. -/
def Built (h : Heap) (t : TRef) (n : Nat) : Prop :=
  ∃ tab, h.tabs[t]? = some tab ∧ tab.currentIndex = n ∧
    (∀ p ∈ tab.index, p.1 ≠ "") ∧ (∀ e ∈ tab.values, e.Value < h.vals.length)

/-- A run of decimal digits: no character of it is a sign or a bracket. -/
def IsDigits (l : List Char) : Prop :=
  ∀ c ∈ l, c.isDigit = true ∧ c ≠ '-' ∧ c ≠ '+' ∧ c ≠ ']' ∧ c ≠ '['

/-! ## Reading an escaped string -/

/-- The number of backslashes at the end of `l`. -/
def trailingBackslashes (l : List Char) : Nat :=
  (l.reverse.takeWhile (fun c => c == '\\')).length

/-- The number of consecutive backslashes right before position `i` of `l`. -/
def backslashesBefore (l : List Char) (i : Nat) : Nat :=
  trailingBackslashes (l.take i)


/-! ## Syntax trees and the converter (`parser.go`)

The syntax tree comes from `github.com/yuin/gopher-lua/ast`; only the node kinds
the converter tells apart are kept, every other kind is `OtherExpr` or
`OtherStmt`. -/

mutual
/-- An expression node `ast.Expr`. -/
inductive Expr where
  | NilExpr
  | TrueExpr
  | FalseExpr
  | StringExpr (Value : String)
  | NumberExpr (Value : String)
  | TableExpr (Fields : List Field)
  | FunctionExpr
  | AttrGetExpr (Object Key : Expr)
  | IdentExpr (Value : String)
  | OtherExpr
/-- A field `ast.Field` of a table literal; `Key` is `none` for a nil key. -/
inductive Field where
  | mk (Key : Option Expr) (Value : Expr)
end

/-- A statement node `ast.Stmt`. -/
inductive Stmt where
  | AssignStmt (Lhs Rhs : List Expr)
  | OtherStmt

/-- The field `Key` of a `Field`. -/
def Field.Key (f : Field) : Option Expr :=
  match f with
  | Field.mk key _ => key

/-- The field `Value` of a `Field`. -/
def Field.Value (f : Field) : Expr :=
  match f with
  | Field.mk _ value => value

/-- Go `strings.Contains`. -/
def Contains (s substr : String) : Bool :=
  (List.range (s.data.length + 1)).any (fun i => substr.data.isPrefixOf (s.data.drop i))

/-- The function `findTable`; `Res.diverge` stands for the panic of an index
out of range on an empty `Lhs` or `Rhs`. -/
def findTable (chunk : List Stmt) (tableName : String) : Res (List Field) :=
  match chunk with
  | [] => Res.error
  | stmt :: rest =>
    match stmt with
    | Stmt.AssignStmt lhs rhs =>
      match lhs with
      | [] => Res.diverge
      | lhs0 :: _ =>
        match lhs0 with
        | Expr.IdentExpr value =>
          if value = tableName then
            match rhs with
            | [] => Res.diverge
            | rhs0 :: _ =>
              match rhs0 with
              | Expr.TableExpr fields => Res.ok fields
              | _ => findTable rest tableName
          else findTable rest tableName
        | _ => findTable rest tableName
    | Stmt.OtherStmt => findTable rest tableName

/-- The function `valueOf`; `none` stands for a non-nil error. -/
def valueOf (exp : Expr) : Option String :=
  match exp with
  | Expr.IdentExpr v => some v
  | Expr.StringExpr v => some v
  | Expr.NumberExpr v => some v
  | _ => none

/-- The function `parseKey`; `none` stands for a non-nil error. -/
def parseKey (exp : Expr) : Option String :=
  match exp with
  | Expr.IdentExpr v => some v
  | Expr.StringExpr v => if Contains v "." then some ("[\"" ++ v ++ "\"]") else some v
  | Expr.NumberExpr v => some ("[" ++ v ++ "]")
  | Expr.AttrGetExpr object key =>
    match valueOf object with
    | none => none
    | some obj =>
      match valueOf key with
      | none => none
      | some k => some ("[" ++ obj ++ "." ++ k ++ "]")
  | _ => none

/-- The allocation `&Value{...}`: the new object is put at the end of the heap. -/
def newValue (h : Heap) (v : Value) : Heap × VRef :=
  ({ h with vals := h.vals ++ [v] }, h.vals.length)

/-- A call of `AddOrReplace` inside the converter. -/
def addField (h : Heap) (table : TRef) (name : String) (value : VRef) : Res Heap :=
  match Table.AddOrReplace h table name value with
  | some h1 => Res.ok h1
  | none => Res.diverge

mutual
/-- The function `parseValue`.  `ParseFloat` stands for `strconv.ParseFloat(_, 64)`,
`none` for its errors.  The case of a table literal is the body of
`parseTable`. -/
def parseValue (ParseFloat : String → Option Float64) (h : Heap) (exp : Expr) :
    Res (Heap × VRef) :=
  match exp with
  | Expr.NilExpr => Res.ok (newValue h { Typ := LuaType.TypeNil, value := Payload.nil })
  | Expr.TrueExpr =>
    Res.ok (newValue h { Typ := LuaType.TypeBoolean, value := Payload.bool true })
  | Expr.FalseExpr =>
    Res.ok (newValue h { Typ := LuaType.TypeBoolean, value := Payload.bool false })
  | Expr.StringExpr v =>
    Res.ok (newValue h { Typ := LuaType.TypeString, value := Payload.string v })
  | Expr.NumberExpr v =>
    match ParseFloat v with
    | none => Res.error
    | some num => Res.ok (newValue h { Typ := LuaType.TypeNumber, value := Payload.float64 num })
  | Expr.TableExpr fields =>
    match parseFields ParseFloat { h with tabs := h.tabs ++ [NewTable] } h.tabs.length fields with
    | Res.ok h1 =>
      Res.ok (newValue h1 { Typ := LuaType.TypeTable, value := Payload.table h.tabs.length })
    | Res.error => Res.error
    | Res.diverge => Res.diverge
  | Expr.FunctionExpr =>
    Res.ok (newValue h { Typ := LuaType.TypeFunction, value := Payload.string "<function>" })
  | Expr.AttrGetExpr object key =>
    match valueOf object with
    | none => Res.error
    | some obj =>
      match valueOf key with
      | none => Res.error
      | some k =>
        Res.ok (newValue h { Typ := LuaType.TypeVariable,
                             value := Payload.string (obj ++ "." ++ k) })
  | Expr.IdentExpr v =>
    Res.ok (newValue h { Typ := LuaType.TypeVariable, value := Payload.string v })
  | Expr.OtherExpr => Res.error
termination_by structural exp
/-- The loop `for _, field := range node.Fields` of `parseTable` on the table
at `table`. -/
def parseFields (ParseFloat : String → Option Float64) (h : Heap) (table : TRef)
    (fields : List Field) : Res Heap :=
  match fields with
  | [] => Res.ok h
  | field :: rest =>
    match parseField ParseFloat h table field with
    | Res.ok h1 => parseFields ParseFloat h1 table rest
    | Res.error => Res.error
    | Res.diverge => Res.diverge
termination_by structural fields
/-- The body of the loop of `parseTable` for one field. -/
def parseField (ParseFloat : String → Option Float64) (h : Heap) (table : TRef)
    (field : Field) : Res Heap :=
  match field with
  | Field.mk fieldKey fieldValue =>
    match parseValue ParseFloat h fieldValue with
    | Res.error => Res.error
    | Res.diverge => Res.diverge
    | Res.ok (h1, value) =>
      match fieldKey with
      | none => addField h1 table "" value
      | some keyExp =>
        match parseKey keyExp with
        | none => Res.error
        | some key => addField h1 table key value
termination_by structural field
end

/-- The function `parseTable`: a new empty table is allocated at the end of
the heap and filled field by field. -/
def parseTable (ParseFloat : String → Option Float64) (h : Heap) (fields : List Field) :
    Res (Heap × TRef) :=
  match parseFields ParseFloat { h with tabs := h.tabs ++ [NewTable] } h.tabs.length fields with
  | Res.ok h1 => Res.ok (h1, h.tabs.length)
  | Res.error => Res.error
  | Res.diverge => Res.diverge

/-! ## What the converter is specified to accept and to produce -/

/-- A part of an attribute path: an identifier, a string or a number. -/
def partOk (e : Expr) : Bool :=
  match e with
  | Expr.IdentExpr _ => true
  | Expr.StringExpr _ => true
  | Expr.NumberExpr _ => true
  | _ => false

/-- A key of a supported kind: an identifier, a string, a number, or an
attribute path over such parts. -/
def keyKindOk (e : Expr) : Bool :=
  match e with
  | Expr.IdentExpr _ => true
  | Expr.StringExpr _ => true
  | Expr.NumberExpr _ => true
  | Expr.AttrGetExpr object key => partOk object && partOk key
  | _ => false

mutual
/-- A value of a supported kind, with fields of supported kinds at every
depth of its table-valued fields. -/
def kindsOk (e : Expr) : Bool :=
  match e with
  | Expr.NilExpr => true
  | Expr.TrueExpr => true
  | Expr.FalseExpr => true
  | Expr.StringExpr _ => true
  | Expr.NumberExpr _ => true
  | Expr.TableExpr fields => fieldsKindsOk fields
  | Expr.FunctionExpr => true
  | Expr.AttrGetExpr object key => partOk object && partOk key
  | Expr.IdentExpr _ => true
  | Expr.OtherExpr => false
termination_by structural e
/-- Every field of the list has a value and a key of a supported kind, at
every depth. -/
def fieldsKindsOk (fields : List Field) : Bool :=
  match fields with
  | [] => true
  | field :: rest => fieldKindsOk field && fieldsKindsOk rest
termination_by structural fields
/-- The field has a value of a supported kind and no key or a key of a
supported kind. -/
def fieldKindsOk (field : Field) : Bool :=
  match field with
  | Field.mk key value =>
    kindsOk value &&
      (match key with
       | none => true
       | some k => keyKindOk k)
termination_by structural field
end

mutual
/-- Every number that is a field value, at every depth, has a text that
`ParseFloat` accepts. -/
def numbersOk (ParseFloat : String → Option Float64) (e : Expr) : Bool :=
  match e with
  | Expr.NumberExpr v => (ParseFloat v).isSome
  | Expr.TableExpr fields => fieldsNumbersOk ParseFloat fields
  | _ => true
termination_by structural e
/-- The numbers of every field of the list are accepted by `ParseFloat`. -/
def fieldsNumbersOk (ParseFloat : String → Option Float64) (fields : List Field) : Bool :=
  match fields with
  | [] => true
  | field :: rest => fieldNumbersOk ParseFloat field && fieldsNumbersOk ParseFloat rest
termination_by structural fields
/-- The numbers of the value of the field are accepted by `ParseFloat`. -/
def fieldNumbersOk (ParseFloat : String → Option Float64) (field : Field) : Bool :=
  match field with
  | Field.mk _ value => numbersOk ParseFloat value
termination_by structural field
end

/-- The heap `h'` extends `h` above the `Value` objects below `nv` and the
tables below `nt`: these are unchanged, and no object is removed. -/
def GrowAt (nv nt : Nat) (h h' : Heap) : Prop :=
  (∀ i : Nat, i < nv → h'.vals[i]? = h.vals[i]?) ∧
  (∀ i : Nat, i < nt → h'.tabs[i]? = h.tabs[i]?) ∧
  h.vals.length ≤ h'.vals.length ∧ h.tabs.length ≤ h'.tabs.length

/-- The table at `t` exists and its entries are `Value` objects of the heap
allocated at or after `nv`. -/
def TableInv (h : Heap) (t : TRef) (nv : Nat) : Prop :=
  nv ≤ h.vals.length ∧
  ∃ tab, h.tabs[t]? = some tab ∧ ∀ e ∈ tab.values, nv ≤ e.Value ∧ e.Value < h.vals.length

/-- The name `key` resolves, as `Get` resolves it, in a table whose entries
have the names `names`: by exact name, or for a bare or bracketed integer to
the entry named `[k]`. -/
def resolvesIn (names : List String) (key : String) : Bool :=
  names.contains key ||
    (match Atoi (TrimPrefix (TrimSuffix key "]") "[") with
     | some numIndex => names.contains (formatIndex numIndex)
     | none => false)

/-- The entry names the specification gives to the fields of a table literal:
the string form of the key for a keyed field, `[i]` for the `i`-th unkeyed
field; `counter` unkeyed fields came before. -/
def expectedNames (counter : Nat) (fields : List Field) : List String :=
  match fields with
  | [] => []
  | Field.mk none _ :: rest =>
    formatIndex ((counter + 1 : Nat) : Int) :: expectedNames (counter + 1) rest
  | Field.mk (some k) _ :: rest => (parseKey k).getD "" :: expectedNames counter rest

/-- No keyed field has an empty key string or a key string that resolves, when
the field is inserted, to an entry inserted before it; `names` are the names
of the entries inserted so far. -/
def NoClash (names : List String) (counter : Nat) (fields : List Field) : Bool :=
  match fields with
  | [] => true
  | Field.mk none _ :: rest =>
    NoClash (names ++ [formatIndex ((counter + 1 : Nat) : Int)]) (counter + 1) rest
  | Field.mk (some k) _ :: rest =>
    match parseKey k with
    | none => false
    | some key => key != "" && !resolvesIn names key && NoClash (names ++ [key]) counter rest

/-- The number of fields without a key. -/
def unkeyedFields (fields : List Field) : Nat :=
  (fields.filter (fun f => f.Key.isNone)).length

/-- The index of the table agrees with its entries: it holds the names of the
entries, each with a position inside the slice. -/
def IndexOK (tab : Table) : Prop :=
  (∀ key i, mapGet tab.index key = some i → i < tab.values.length) ∧
  (∀ key, (mapGet tab.index key).isSome = true ↔ key ∈ tab.values.map NamedValue.Name)

/-- The statement is an assignment whose first left-hand side is the
identifier `n` and whose first right-hand side is the table literal with the
fields `fields`. -/
def IsTableAssign (n : String) (stmt : Stmt) (fields : List Field) : Prop :=
  ∃ lhs rhs, stmt = Stmt.AssignStmt (Expr.IdentExpr n :: lhs) (Expr.TableExpr fields :: rhs)

/-- Every assignment of the chunk has at least one left-hand side and one
right-hand side, as the front-end parser delivers it. -/
def WellFormedChunk (chunk : List Stmt) : Prop :=
  ∀ lhs rhs, Stmt.AssignStmt lhs rhs ∈ chunk → lhs ≠ [] ∧ rhs ≠ []

/-- The chunk `local x = 1; T = "no"; U = {}; T = {nil}; T = {}`. -/
def exChunk : List Stmt :=
  [Stmt.OtherStmt,
   Stmt.AssignStmt [Expr.IdentExpr "T"] [Expr.StringExpr "no"],
   Stmt.AssignStmt [Expr.IdentExpr "U"] [Expr.TableExpr []],
   Stmt.AssignStmt [Expr.IdentExpr "T"] [Expr.TableExpr [Field.mk none Expr.NilExpr]],
   Stmt.AssignStmt [Expr.IdentExpr "T"] [Expr.TableExpr []]]

/-- A heap without any object. -/
def exNoHeap : Heap := { vals := [], tabs := [] }

/-- A `ParseFloat` that accepts the text `1` only. -/
def exParseFloat (s : String) : Option Float64 :=
  if s = "1" then some { bits := 4607182418800017408 } else none

/-- The literal `{ "a", [1] = "b" }`. -/
def exLiteralClash : List Field :=
  [Field.mk none (Expr.StringExpr "a"),
   Field.mk (some (Expr.NumberExpr "1")) (Expr.StringExpr "b")]

/-- The literal `{ name = "x", true, [7] = { 1 }, ["a.b"] = y, z }`. -/
def exLiteral : List Field :=
  [Field.mk (some (Expr.IdentExpr "name")) (Expr.StringExpr "x"),
   Field.mk none Expr.TrueExpr,
   Field.mk (some (Expr.NumberExpr "7")) (Expr.TableExpr [Field.mk none (Expr.NumberExpr "1")]),
   Field.mk (some (Expr.StringExpr "a.b")) (Expr.IdentExpr "y"),
   Field.mk none (Expr.IdentExpr "z")]

/-- The literal `{ a = { f() } }`: the inner field is a function call. -/
def exLiteralCall : List Field :=
  [Field.mk (some (Expr.IdentExpr "a")) (Expr.TableExpr [Field.mk none Expr.OtherExpr])]

/-- The literal `{ a = 2 }`, whose number is not accepted by `exParseFloat`. -/
def exLiteralNumber : List Field :=
  [Field.mk (some (Expr.IdentExpr "a")) (Expr.NumberExpr "2")]

/-- The literal `{ [""] = "e", "p" }`: a field keyed by the empty string, then
an unkeyed field. -/
def exLiteralEmptyKey : List Field :=
  [Field.mk (some (Expr.StringExpr "")) (Expr.StringExpr "e"),
   Field.mk none (Expr.StringExpr "p")]

/-- The literal `{ "a", ["1"] = "b" }`: an unkeyed field, then a field keyed by
the string `1`. -/
def exLiteralStringKey : List Field :=
  [Field.mk none (Expr.StringExpr "a"),
   Field.mk (some (Expr.StringExpr "1")) (Expr.StringExpr "b")]

/-- The literal `{ ["1"] = "b", "a" }`: the fields of `exLiteralStringKey` in
the other order. -/
def exLiteralStringKeyFirst : List Field :=
  [Field.mk (some (Expr.StringExpr "1")) (Expr.StringExpr "b"),
   Field.mk none (Expr.StringExpr "a")]


/-! ## The text splicer (`textmerge.go`) -/

/-- A text: the sequence of the bytes of a Go `string`, each written as a
character.  Offsets count bytes. -/
abbrev Text := List Char

/-- The struct `TablePosition`. -/
structure TablePosition where
  Name : String
  StartLine : Nat
  EndLine : Nat
  StartPos : Nat
  EndPos : Nat
  deriving DecidableEq, Repr

/-- The struct `merger.Result`. -/
structure Result where
  TableName : String
  Table : TRef
  deriving DecidableEq, Repr

/-- Go map read `m[k]`, for a map with string keys. -/
def assocGet {α : Type} (m : List (String × α)) (k : String) : Option α := m.lookup k

/-- Go map write `m[k] = v`, for a map with string keys. -/
def assocSet {α : Type} (m : List (String × α)) (k : String) (v : α) : List (String × α) :=
  (k, v) :: m.filter (fun p => p.1 != k)

/-- The class `\s` of the regular expressions of Go: tab, newline, form feed,
carriage return, space. -/
def isSpace (c : Char) : Bool :=
  c == Char.ofNat 9 || c == Char.ofNat 10 || c == Char.ofNat 12 || c == Char.ofNat 13 ||
    c == Char.ofNat 32

/-- The number of characters the greedy `\s*` takes at the head of `s`. -/
def spaces (s : Text) : Nat := (s.takeWhile isSpace).length

/-- A match of `NAME\s*=\s*\{` at the head of `s`, where NAME is the quoted
table name and matches the name literally: the length of the match.  After a
greedy `\s*` the next character of the pattern is not a space, so no shorter
run of spaces can lead to a match. -/
def matchHere (name : Text) (s : Text) : Option Nat :=
  if name.isPrefixOf s then
    let a := name.length + spaces (s.drop name.length)
    if s[a]? = some (Char.ofNat 61) then
      let b := a + 1 + spaces (s.drop (a + 1))
      if s[b]? = some (Char.ofNat 123) then some (b + 1) else none
    else none
  else none

/-- The call `re.FindStringIndex(content)` for the pattern
`(?m)^NAME\s*=\s*\{`: the leftmost match, as its start and end offsets.  The
search stands at offset `pos` with `s` the rest of the text; `lineStart` tells
whether `^` matches here (at the start of the text or after a newline). -/
def FindStringIndex (name : Text) : Bool → Nat → Text → Option (Nat × Nat)
  | lineStart, pos, [] =>
    match (if lineStart then matchHere name [] else none) with
    | some k => some (pos, pos + k)
    | none => none
  | lineStart, pos, c :: rest =>
    match (if lineStart then matchHere name (c :: rest) else none) with
    | some k => some (pos, pos + k)
    | none => FindStringIndex name (c == Char.ofNat 10) (pos + 1) rest

/-- The inner loop of `findTableEndInContent`, entered after the closing brace
at offset `i`: the offset after the first newline at or after `j`, and `i + 1`
when there is none. -/
def lineEnd (i : Nat) : Nat → Text → Nat
  | _, [] => i + 1
  | j, c :: rest => if c = Char.ofNat 10 then j + 1 else lineEnd i (j + 1) rest

/-- The loop of `findTableEndInContent` at offset `i`, with `s` the text from
`i` on; `none` stands for the result `-1`. -/
def scanEnd : Int → Bool → Bool → Nat → Text → Option Nat
  | _, _, _, _, [] => none
  | depth, inString, escapeNext, i, char :: rest =>
    if escapeNext then scanEnd depth inString false (i + 1) rest
    else if char = Char.ofNat 92 then scanEnd depth inString true (i + 1) rest
    else if char = Char.ofNat 34 then scanEnd depth (!inString) escapeNext (i + 1) rest
    else if inString then scanEnd depth inString escapeNext (i + 1) rest
    else if char = Char.ofNat 123 then scanEnd (depth + 1) inString escapeNext (i + 1) rest
    else if char = Char.ofNat 125 then
      if depth - 1 = 0 then some (lineEnd i (i + 1) rest)
      else scanEnd (depth - 1) inString escapeNext (i + 1) rest
    else scanEnd depth inString escapeNext (i + 1) rest

/-- The function `findTableEndInContent`; `none` stands for the result `-1`. -/
def findTableEndInContent (content : Text) (startPos : Nat) : Option Nat :=
  scanEnd 0 false false startPos (content.drop startPos)

/-- The body of the loop of `FindTablePositions` for one table name: the
position entered into the map, `none` when the loop continues without an
entry. -/
def locate (content : Text) (tableName : String) : Option TablePosition :=
  match FindStringIndex tableName.data true 0 content with
  | none => none
  | some found =>
    match findTableEndInContent content (found.2 - 1) with
    | none => none
    | some endPos =>
      some { Name := tableName, StartLine := 0, EndLine := 0,
             StartPos := found.1, EndPos := endPos }

/-- The function `FindTablePositions`.  The pattern is built from a quoted
name, which compiles for every name that is valid UTF-8; names are valid here,
so the error result does not occur. -/
def FindTablePositions (content : Text) (tableNames : List String) :
    List (String × TablePosition) :=
  tableNames.foldl
    (fun positions tableName =>
      match locate content tableName with
      | none => positions
      | some p => assocSet positions tableName p)
    []

/-- The inner loop of the sort of `ReplaceTablesInText`: `k` comparisons of
neighbours from the front, exchanging the two when the left one starts
earlier. -/
def bubblePass : Nat → List TablePosition → List TablePosition
  | k + 1, a :: b :: rest =>
    if a.StartPos < b.StartPos then b :: bubblePass k (a :: rest)
    else a :: bubblePass k (b :: rest)
  | _, l => l

/-- The sort of `ReplaceTablesInText`: pass `i` makes `len - i - 1`
comparisons, for `i` from `0` while `i < len - 1`. -/
def bubbleSort (sortedPositions : List TablePosition) : List TablePosition :=
  (List.range (sortedPositions.length - 1)).foldl
    (fun s i => bubblePass (sortedPositions.length - i - 1) s) sortedPositions

/-- The map `resultMap` of `ReplaceTablesInText`. -/
def resultMap (mergedResults : List Result) : List (String × Result) :=
  mergedResults.foldl (fun m result => assocSet m result.TableName result) []

/-- The body of the last loop of `ReplaceTablesInText`.  `render` is the
execution of the template on a result, `none` when it fails; a slice bound
beyond the length of the text is a run-time panic. -/
def spliceStep (render : Result → Option Text) (results : List (String × Result))
    (result : Text) (pos : TablePosition) : Res Text :=
  match assocGet results pos.Name with
  | none => Res.ok result
  | some mergedResult =>
    match render mergedResult with
    | none => Res.error
    | some rendered =>
      if pos.StartPos ≤ result.length ∧ pos.EndPos ≤ result.length then
        Res.ok (result.take pos.StartPos ++ rendered ++ result.drop pos.EndPos)
      else Res.diverge

/-- The last loop of `ReplaceTablesInText`. -/
def spliceLoop (render : Result → Option Text) (results : List (String × Result)) :
    Text → List TablePosition → Res Text
  | result, [] => Res.ok result
  | result, pos :: rest =>
    match spliceStep render results result pos with
    | Res.ok next => spliceLoop render results next rest
    | Res.error => Res.error
    | Res.diverge => Res.diverge

/-- The function `ReplaceTablesInText`.  `range` is the order in which the
`range` loop delivers the values of the map `positions`, which Go leaves
open. -/
def ReplaceTablesInText (range : List TablePosition → List TablePosition)
    (render : Result → Option Text) (originalContent : Text) (mergedResults : List Result) :
    Res Text :=
  let tableNames := mergedResults.map (fun result => result.TableName)
  let positions := FindTablePositions originalContent tableNames
  let sortedPositions := bubbleSort (range (positions.map Prod.snd))
  spliceLoop render (resultMap mergedResults) originalContent sortedPositions

/-- The table of the result list is located in the text. -/
def located (content : Text) (tableName : String) : Bool := (locate content tableName).isSome

/-- The spans of `spans` follow one another from offset `o` on inside a text of
length `len`: each starts at or after the end of the one before and ends at or
after its own start. -/
def SpansFrom (len : Nat) : Nat → List TablePosition → Prop
  | o, [] => o ≤ len
  | o, p :: rest => o ≤ p.StartPos ∧ p.StartPos ≤ p.EndPos ∧ SpansFrom len p.EndPos rest

instance instDecidableSpansFrom (len : Nat) :
    ∀ (o : Nat) (spans : List TablePosition), Decidable (SpansFrom len o spans)
  | o, [] => inferInstanceAs (Decidable (o ≤ len))
  | o, p :: rest =>
    have := instDecidableSpansFrom len p.EndPos rest
    inferInstanceAs (Decidable (o ≤ p.StartPos ∧ p.StartPos ≤ p.EndPos ∧ SpansFrom len p.EndPos rest))

/-- Two spans do not overlap: one ends at or before the start of the other. -/
@[reducible] def Disjoint2 (p q : TablePosition) : Prop :=
  p.EndPos ≤ q.StartPos ∨ q.EndPos ≤ p.StartPos

/-- Written from the specification: the text `content` from offset `o` on with
each span of `spans`, taken in ascending order, replaced by its rendered text
`out` and everything outside the spans kept:
`text[o:start_1] + r_1 + text[end_1:start_2] + r_2 + ... + text[end_k:]`. -/
def replaceSpans (out : TablePosition → Text) (content : Text) : Nat → List TablePosition → Text
  | o, [] => content.drop o
  | o, p :: rest =>
    (content.drop o).take (p.StartPos - o) ++ out p ++ replaceSpans out content p.EndPos rest

/-- The rendered text that replaces the span `p`: the template run on the
result recorded under the name of `p`. -/
def renderedFor (rend : Result → Text) (mergedResults : List Result) (p : TablePosition) : Text :=
  match assocGet (resultMap mergedResults) p.Name with
  | some r => rend r
  | none => []

/-- The text `A = { 1 }` on one line, a line `x = 1`, `B = {` to `}` over
three lines with a brace inside a string, and a last line `y = 2` without a
newline. -/
def exText : Text :=
  "A = \x7b 1 \x7d\nx = 1\nB = \x7b\n  n = \"\x7d\",\n\x7d\ny = 2".data

/-- Results for the tables `B`, `A` and `C`, in this order. -/
def exResults : List Result :=
  [{ TableName := "B", Table := 1 }, { TableName := "A", Table := 0 },
   { TableName := "C", Table := 2 }]

/-- A renderer: `A = {}` and a newline for table 0, a longer text for the
others. -/
def exRend (r : Result) : Text :=
  if r.Table = 0 then "A = \x7b\x7d\n".data else "B = \x7b n = 1, m = 2, k = 3 \x7d\n".data

/-- A text in which the table `A` has a field `B` written at the start of a
line, before the table `B` itself. -/
def exNestedText : Text :=
  "A = \x7b\nB = \x7b\n1, 2, 3, 4, 5, 6, 7,\n\x7d,\n\x7d\nB = \x7b\x7d\n".data

/-- Results for the tables `A` and `B`. -/
def exNestedResults : List Result :=
  [{ TableName := "A", Table := 0 }, { TableName := "B", Table := 1 }]

/-- A renderer: `A = {}` for table 0 and `B = {}` for the others, each with a
newline. -/
def exNestedRend (r : Result) : Text :=
  if r.Table = 0 then "A = \x7b\x7d\n".data else "B = \x7b\x7d\n".data

/-- A renderer that fails on the table `C` and is `exRend` elsewhere. -/
def exRendFailing (r : Result) : Option Text :=
  if r.TableName = "C" then none else some (exRend r)

/-- Base `{ {a = "x"} }` (tables 0 and 1, objects 0 and 1) and source
`{ {a = "p"} }` (tables 2 and 3, objects 2 and 3): one positional entry each,
named `[1]`, holding a table. -/
def exOrderHeap : Heap :=
  { vals := [tableValue 1, strValue "x", tableValue 3, strValue "p"],
    tabs := [NewTable.append "" 0, NewTable.append "a" 1,
             NewTable.append "" 2, NewTable.append "a" 3] }
/-! ## The end of a table in a text: braces, strings and line ends -/

/-- The loop of `findTableEndInContent` up to the point where it finds the
closing brace that returns the depth to zero: the offset `i` of that brace,
`none` when the loop runs to the end of the text. -/
def scanClose : Int → Bool → Bool → Nat → Text → Option Nat
  | _, _, _, _, [] => none
  | depth, inString, escapeNext, i, char :: rest =>
    if escapeNext then scanClose depth inString false (i + 1) rest
    else if char = Char.ofNat 92 then scanClose depth inString true (i + 1) rest
    else if char = Char.ofNat 34 then scanClose depth (!inString) escapeNext (i + 1) rest
    else if inString then scanClose depth inString escapeNext (i + 1) rest
    else if char = Char.ofNat 123 then scanClose (depth + 1) inString escapeNext (i + 1) rest
    else if char = Char.ofNat 125 then
      if depth - 1 = 0 then some i
      else scanClose (depth - 1) inString escapeNext (i + 1) rest
    else scanClose depth inString escapeNext (i + 1) rest

/-- The offset of the closing brace that `findTableEndInContent` finds when it
starts at `startPos`. -/
def closingBrace (content : Text) (startPos : Nat) : Option Nat :=
  scanClose 0 false false startPos (content.drop startPos)

/-- Written from the specification: reading `s` from a place that is inside a
double-quoted string or not (`inString`), with the next character escaped by a
backslash or not (`escapeNext`), the place after `s` is inside a double-quoted
string.  An unescaped double quote opens or closes a string; a backslash
escapes the character after it. -/
def quoteState : Bool → Bool → Text → Bool
  | inString, _, [] => inString
  | inString, escapeNext, char :: rest =>
    if escapeNext then quoteState inString false rest
    else if char = Char.ofNat 92 then quoteState inString true rest
    else if char = Char.ofNat 34 then quoteState (!inString) false rest
    else quoteState inString false rest

/-- Written from the specification: the offset `k` of `content` lies inside a
double-quoted string, for a reader that starts outside of strings at
`startPos`. -/
def InsideString (content : Text) (startPos k : Nat) : Bool :=
  quoteState false false ((content.take k).drop startPos)

/-- The text `A = {} x` without a newline. -/
def exNoNewline : Text := "A = \x7b\x7d x".data

/-- The text `T = { note = "a ` before the brace inside the string. -/
def exNoteBefore : Text := "T = \x7b note = \"a ".data

/-- The text ` b" }`, a newline and `x = 1` after the brace inside the
string. -/
def exNoteAfter : Text := " b\" \x7d\nx = 1".data

/-! ## Basic facts on the index map and on `Get` -/

theorem mapGet_mapSet_self (m : List (String × Nat)) (k : String) (v : Nat) :
    mapGet (mapSet m k v) k = some v := by
  simp [mapGet, mapSet, List.lookup]

theorem lookupIndex_mem (t : Table) (key : String) (r : VRef)
    (hr : t.lookupIndex key = some r) : ∃ e ∈ t.values, e.Value = r := by
  unfold Table.lookupIndex at hr
  split at hr
  · rename_i index _
    split at hr
    · rename_i hlt
      rw [List.getElem?_eq_getElem hlt] at hr
      simp at hr
      exact ⟨t.values[index], List.getElem_mem _, hr⟩
    · cases hr
  · cases hr

theorem Get_mem (t : Table) (key : String) (r : VRef)
    (hr : t.Get key = some r) : ∃ e ∈ t.values, e.Value = r := by
  unfold Table.Get at hr
  split at hr
  · rename_i v hv
    cases hr
    exact lookupIndex_mem t key _ hv
  · simp only at hr
    split at hr
    · cases hr
    · exact lookupIndex_mem t _ _ hr

theorem Get_append_new (tab : Table) (n : String) (v : VRef) (hn : n ≠ "") :
    (tab.append n v).Get n = some v := by
  have h1 : (tab.append n v).lookupIndex n = some v := by
    simp [Table.lookupIndex, Table.append, hn, mapGet_mapSet_self]
  simp [Table.Get, h1]

theorem AddOrReplace_replace_eq (h : Heap) (t : TRef) (tab : Table) (n : String)
    (v cur : VRef) (ht : h.tabs[t]? = some tab) (hget : tab.Get n = some cur) (h' : Heap)
    (hrun : Table.AddOrReplace h t n v = some h') :
    ∃ cv, h.vals[cur]? = some cv ∧
      h' = { h with vals := h.vals.set cur { cv with value := Payload.value v } } := by
  simp only [Table.AddOrReplace, ht, hget] at hrun
  cases hc : h.vals[cur]? with
  | none => simp [hc] at hrun
  | some cv =>
    simp only [hc, Option.some.injEq] at hrun
    exact ⟨cv, rfl, hrun.symm⟩

/-! ## Closed regions -/

theorem TableAux_pointsInto (h : Heap) (C : List VRef) (S : List TRef) (hcl : Closed h C S) :
    ∀ (n : Nat) (c : VRef) (t : TRef), pointsInto h C S c = true →
      Value.TableAux h n c = Res.ok t → t ∈ S := by
  intro n
  induction n with
  | zero => intro c t _ hr; simp [Value.TableAux] at hr
  | succ n ih =>
    intro c t hp hr
    unfold Value.TableAux at hr
    unfold pointsInto at hp
    cases hv : h.vals[c]? with
    | none => simp [hv] at hr
    | some cv =>
      simp only [hv] at hr hp
      split at hr
      · cases hr
      · cases hpay : cv.value with
        | value x =>
          simp only [hpay] at hr hp
          exact ih x t (hcl.1 x (by simpa using hp)) hr
        | table t' =>
          simp only [hpay] at hr hp
          cases hr
          simpa using hp
        | nil => simp [hpay] at hr
        | bool b => simp [hpay] at hr
        | float64 x => simp [hpay] at hr
        | string s => simp [hpay] at hr

theorem closed_write (h : Heap) (C : List VRef) (S : List TRef) (hcl : Closed h C S)
    (cur sv : VRef) (cv : Value) (hsv : sv ∈ C) :
    Closed { h with vals := h.vals.set cur { cv with value := Payload.value sv } } C S := by
  constructor
  · intro c hc
    have h0 := hcl.1 c hc
    unfold pointsInto at h0 ⊢
    simp only [List.getElem?_set]
    by_cases hcc : cur = c
    · subst hcc
      by_cases hlt : cur < h.vals.length
      · simp [hlt, hsv]
      · simp [hlt]
    · simpa [hcc] using h0
  · intro t ht
    exact hcl.2 t ht

theorem frame_refl {C : List VRef} {S : List TRef} {h : Heap} (hcl : Closed h C S) :
    Frame C S h h := ⟨hcl, rfl, fun _ _ => rfl⟩

theorem frame_trans {C : List VRef} {S : List TRef} {h h1 h2 : Heap}
    (h01 : Frame C S h h1) (h12 : Frame C S h1 h2) : Frame C S h h2 :=
  ⟨h12.1, h12.2.1.trans h01.2.1, fun r hr => (h12.2.2 r hr).trans (h01.2.2 r hr)⟩

theorem resolvesInto_of_owns (h : Heap) (C : List VRef) (S : List TRef) (hcl : Closed h C S)
    (t : TRef) (ht : t ∈ S) (keys : List String) : ResolvesInto h t keys C := by
  intro k _ tb c htb hget
  have ho := hcl.2 t ht
  unfold ownsEntries at ho
  simp only [htb, List.all_eq_true] at ho
  obtain ⟨e, he, hev⟩ := Get_mem tb k c hget
  have := ho e he
  rw [hev] at this
  simpa using this

mutual
theorem applyRule_frame (C : List VRef) (S : List TRef) :
    ∀ (rv : Rule) (h : Heap) (b s : TRef) (k : String) (h' : Heap),
      Closed h C S → ResolvesInto h b [k] C → ResolvesInto h s [k] C →
      applyRule h b s k rv = some h' → Frame C S h h'
  | rv, h, b, s, k, h', hcl, hb, hs, hrun => by
    unfold applyRule at hrun
    cases htb : h.tabs[b]? with
    | none => simp [htb] at hrun
    | some tb =>
      cases hts : h.tabs[s]? with
      | none => simp [htb, hts] at hrun
      | some ts =>
        simp only [htb, hts] at hrun
        cases hgb : tb.Get k with
        | none =>
          simp only [hgb] at hrun
          cases hrun; exact frame_refl hcl
        | some bv =>
          cases hgs : ts.Get k with
          | none =>
            simp only [hgb, hgs] at hrun
            cases hrun; exact frame_refl hcl
          | some sv =>
            simp only [hgb, hgs] at hrun
            have hbv : bv ∈ C := hb k (by simp) tb bv htb hgb
            have hsv : sv ∈ C := hs k (by simp) ts sv hts hgs
            match rv, hrun with
            | Rule.bool true, hrun =>
              simp only [if_true] at hrun
              obtain ⟨cv, _, heq⟩ := AddOrReplace_replace_eq h b tb k sv bv htb hgb h' hrun
              subst heq
              refine ⟨closed_write h C S hcl bv sv cv hsv, rfl, ?_⟩
              intro r hr
              have : bv ≠ r := fun e => hr (e ▸ hbv)
              simp [List.getElem?_set, this]
            | Rule.bool false, hrun =>
              simp only [Bool.false_eq_true, if_false] at hrun
              cases hrun; exact frame_refl hcl
            | Rule.other, hrun =>
              simp only at hrun
              cases hrun; exact frame_refl hcl
            | Rule.map m, hrun =>
              simp only at hrun
              cases hbt : Value.Table h bv with
              | diverge => simp [hbt] at hrun
              | error =>
                cases hst : Value.Table h sv with
                | diverge => simp [hbt, hst] at hrun
                | error => simp only [hbt, hst] at hrun; cases hrun; exact frame_refl hcl
                | ok st => simp only [hbt, hst] at hrun; cases hrun; exact frame_refl hcl
              | ok bt =>
                cases hst : Value.Table h sv with
                | diverge => simp [hbt, hst] at hrun
                | error => simp only [hbt, hst] at hrun; cases hrun; exact frame_refl hcl
                | ok st =>
                  simp only [hbt, hst] at hrun
                  have hbtS : bt ∈ S :=
                    TableAux_pointsInto h C S hcl _ bv bt (hcl.1 bv hbv) hbt
                  have hstS : st ∈ S :=
                    TableAux_pointsInto h C S hcl _ sv st (hcl.1 sv hsv) hst
                  exact applyRules_frame C S m h bt st h' hcl
                    (resolvesInto_of_owns h C S hcl bt hbtS _)
                    (resolvesInto_of_owns h C S hcl st hstS _) hrun
theorem applyRules_frame (C : List VRef) (S : List TRef) :
    ∀ (rules : List (String × Rule)) (h : Heap) (b s : TRef) (h' : Heap),
      Closed h C S → ResolvesInto h b (rules.map Prod.fst) C →
      ResolvesInto h s (rules.map Prod.fst) C →
      applyRules h b s rules = some h' → Frame C S h h'
  | [], h, b, s, h', hcl, _, _, hrun => by
    simp only [applyRules] at hrun
    cases hrun; exact frame_refl hcl
  | entry :: rest, h, b, s, h', hcl, hb, hs, hrun => by
    simp only [applyRules] at hrun
    cases h1e : applyEntry h b s entry with
    | none => simp [h1e] at hrun
    | some h1 =>
      simp only [h1e] at hrun
      have hb1 : ResolvesInto h b [entry.1] C := fun k hk => hb k (by simp_all)
      have hs1 : ResolvesInto h s [entry.1] C := fun k hk => hs k (by simp_all)
      have f1 := applyEntry_frame C S entry h b s h1 hcl hb1 hs1 h1e
      have hb2 : ResolvesInto h1 b (rest.map Prod.fst) C := by
        intro k hk tb c htb; rw [f1.2.1] at htb
        exact hb k (by simp_all) tb c htb
      have hs2 : ResolvesInto h1 s (rest.map Prod.fst) C := by
        intro k hk tb c htb; rw [f1.2.1] at htb
        exact hs k (by simp_all) tb c htb
      exact frame_trans f1 (applyRules_frame C S rest h1 b s h' f1.1 hb2 hs2 hrun)
theorem applyEntry_frame (C : List VRef) (S : List TRef) :
    ∀ (entry : String × Rule) (h : Heap) (b s : TRef) (h' : Heap),
      Closed h C S → ResolvesInto h b [entry.1] C → ResolvesInto h s [entry.1] C →
      applyEntry h b s entry = some h' → Frame C S h h'
  | (k, rv), h, b, s, h', hcl, hb, hs, hrun => by
    simp only [applyEntry] at hrun
    exact applyRule_frame C S rv h b s k h' hcl hb hs hrun
end

/-! ## Invariants of every run -/

theorem ext_refl (h : Heap) : Ext h h := ⟨rfl, rfl, fun _ => rfl⟩

theorem ext_trans {h h1 h2 : Heap} (h01 : Ext h h1) (h12 : Ext h1 h2) : Ext h h2 :=
  ⟨h12.1.trans h01.1, h12.2.1.trans h01.2.1, fun r => (h12.2.2 r).trans (h01.2.2 r)⟩

theorem ext_write (h : Heap) (cur v : VRef) (cv : Value) (hc : h.vals[cur]? = some cv) :
    Ext h { h with vals := h.vals.set cur { cv with value := Payload.value v } } := by
  refine ⟨rfl, by simp, ?_⟩
  intro r
  simp only [List.getElem?_set]
  by_cases hcr : cur = r
  · subst hcr
    have hlt : cur < h.vals.length := by
      rcases Nat.lt_or_ge cur h.vals.length with hlt | hge
      · exact hlt
      · rw [List.getElem?_eq_none hge] at hc
        cases hc
    simp [hlt, hc]
  · simp [hcr]

theorem AddOrReplace_replace_ext (h : Heap) (t : TRef) (tab : Table) (n : String)
    (v cur : VRef) (ht : h.tabs[t]? = some tab) (hget : tab.Get n = some cur) (h' : Heap)
    (hrun : Table.AddOrReplace h t n v = some h') : Ext h h' := by
  obtain ⟨cv, hc, heq⟩ := AddOrReplace_replace_eq h t tab n v cur ht hget h' hrun
  subst heq
  exact ext_write h cur v cv hc

mutual
theorem applyRule_ext :
    ∀ (rv : Rule) (h : Heap) (b s : TRef) (k : String) (h' : Heap),
      applyRule h b s k rv = some h' → Ext h h'
  | rv, h, b, s, k, h', hrun => by
    unfold applyRule at hrun
    cases htb : h.tabs[b]? with
    | none => simp [htb] at hrun
    | some tb =>
      cases hts : h.tabs[s]? with
      | none => simp [htb, hts] at hrun
      | some ts =>
        simp only [htb, hts] at hrun
        cases hgb : tb.Get k with
        | none =>
          simp only [hgb] at hrun
          cases hrun; exact ext_refl h
        | some bv =>
          cases hgs : ts.Get k with
          | none =>
            simp only [hgb, hgs] at hrun
            cases hrun; exact ext_refl h
          | some sv =>
            simp only [hgb, hgs] at hrun
            match rv, hrun with
            | Rule.bool true, hrun =>
              simp only [if_true] at hrun
              exact AddOrReplace_replace_ext h b tb k sv bv htb hgb h' hrun
            | Rule.bool false, hrun =>
              simp only [Bool.false_eq_true, if_false] at hrun
              cases hrun; exact ext_refl h
            | Rule.other, hrun =>
              simp only at hrun
              cases hrun; exact ext_refl h
            | Rule.map m, hrun =>
              simp only at hrun
              cases hbt : Value.Table h bv with
              | diverge => simp [hbt] at hrun
              | error =>
                cases hst : Value.Table h sv with
                | diverge => simp [hbt, hst] at hrun
                | error => simp only [hbt, hst] at hrun; cases hrun; exact ext_refl h
                | ok st => simp only [hbt, hst] at hrun; cases hrun; exact ext_refl h
              | ok bt =>
                cases hst : Value.Table h sv with
                | diverge => simp [hbt, hst] at hrun
                | error => simp only [hbt, hst] at hrun; cases hrun; exact ext_refl h
                | ok st =>
                  simp only [hbt, hst] at hrun
                  exact applyRules_ext m h bt st h' hrun
theorem applyRules_ext :
    ∀ (rules : List (String × Rule)) (h : Heap) (b s : TRef) (h' : Heap),
      applyRules h b s rules = some h' → Ext h h'
  | [], h, b, s, h', hrun => by
    simp only [applyRules] at hrun
    cases hrun; exact ext_refl h
  | entry :: rest, h, b, s, h', hrun => by
    simp only [applyRules] at hrun
    cases h1e : applyEntry h b s entry with
    | none => simp [h1e] at hrun
    | some h1 =>
      simp only [h1e] at hrun
      exact ext_trans (applyEntry_ext entry h b s h1 h1e) (applyRules_ext rest h1 b s h' hrun)
theorem applyEntry_ext :
    ∀ (entry : String × Rule) (h : Heap) (b s : TRef) (h' : Heap),
      applyEntry h b s entry = some h' → Ext h h'
  | (k, rv), h, b, s, h', hrun => by
    simp only [applyEntry] at hrun
    exact applyRule_ext rv h b s k h' hrun
end

/-! ## The loops of `mergeInternal` -/

theorem pointsInto_frame {C : List VRef} {S : List TRef} {h h1 : Heap} (f : Frame C S h h1)
    (c : VRef) (hp : pointsInto h C S c = true) : pointsInto h1 C S c = true := by
  by_cases hc : c ∈ C
  · exact f.1.1 c hc
  · unfold pointsInto at hp ⊢
    rw [f.2.2 c hc]
    exact hp

theorem mergeEntries_ext (s : TRef) (m : Rules) :
    ∀ (entries : List NamedValue) (h h' : Heap),
      mergeEntries h s m entries = some h' → Ext h h' := by
  intro entries
  induction entries with
  | nil => intro h h' hrun; simp only [mergeEntries] at hrun; cases hrun; exact ext_refl h
  | cons e rest ih =>
    intro h h' hrun
    simp only [mergeEntries] at hrun
    cases hts : h.tabs[s]? with
    | none => simp [hts] at hrun
    | some ts =>
      simp only [hts] at hrun
      cases hgs : ts.Get e.Name with
      | none => simp only [hgs] at hrun; exact ih h h' hrun
      | some sc =>
        simp only [hgs] at hrun
        cases hbt : Value.Table h e.Value with
        | diverge => simp [hbt] at hrun
        | error =>
          cases hst : Value.Table h sc with
          | diverge => simp [hbt, hst] at hrun
          | error => simp only [hbt, hst] at hrun; exact ih h h' hrun
          | ok st => simp only [hbt, hst] at hrun; exact ih h h' hrun
        | ok bt =>
          cases hst : Value.Table h sc with
          | diverge => simp [hbt, hst] at hrun
          | error => simp only [hbt, hst] at hrun; exact ih h h' hrun
          | ok st =>
            simp only [hbt, hst] at hrun
            cases hap : applyRules h bt st m with
            | none => simp [hap] at hrun
            | some h1 =>
              simp only [hap] at hrun
              exact ext_trans (applyRules_ext m h bt st h1 hap) (ih h1 h' hrun)

theorem mergeEntries_frame (C : List VRef) (S : List TRef) (s : TRef) (m : Rules) :
    ∀ (entries : List NamedValue) (h h' : Heap), Closed h C S →
      (∀ e ∈ entries, pointsInto h C S e.Value = true ∧
        ∀ ts sc, h.tabs[s]? = some ts → ts.Get e.Name = some sc →
          pointsInto h C S sc = true) →
      mergeEntries h s m entries = some h' → Frame C S h h' := by
  intro entries
  induction entries with
  | nil =>
    intro h h' hcl _ hrun
    simp only [mergeEntries] at hrun; cases hrun; exact frame_refl hcl
  | cons e rest ih =>
    intro h h' hcl hpt hrun
    have hrest : ∀ e' ∈ rest, pointsInto h C S e'.Value = true ∧
        ∀ ts sc, h.tabs[s]? = some ts → ts.Get e'.Name = some sc →
          pointsInto h C S sc = true := fun e' he' => hpt e' (List.mem_cons_of_mem _ he')
    simp only [mergeEntries] at hrun
    cases hts : h.tabs[s]? with
    | none => simp [hts] at hrun
    | some ts =>
      simp only [hts] at hrun
      cases hgs : ts.Get e.Name with
      | none => simp only [hgs] at hrun; exact ih h h' hcl hrest hrun
      | some sc =>
        simp only [hgs] at hrun
        cases hbt : Value.Table h e.Value with
        | diverge => simp [hbt] at hrun
        | error =>
          cases hst : Value.Table h sc with
          | diverge => simp [hbt, hst] at hrun
          | error => simp only [hbt, hst] at hrun; exact ih h h' hcl hrest hrun
          | ok st => simp only [hbt, hst] at hrun; exact ih h h' hcl hrest hrun
        | ok bt =>
          cases hst : Value.Table h sc with
          | diverge => simp [hbt, hst] at hrun
          | error => simp only [hbt, hst] at hrun; exact ih h h' hcl hrest hrun
          | ok st =>
            simp only [hbt, hst] at hrun
            cases hap : applyRules h bt st m with
            | none => simp [hap] at hrun
            | some h1 =>
              simp only [hap] at hrun
              have he := hpt e (List.mem_cons_self _ _)
              have hbtS : bt ∈ S := TableAux_pointsInto h C S hcl _ e.Value bt he.1 hbt
              have hstS : st ∈ S :=
                TableAux_pointsInto h C S hcl _ sc st (he.2 ts sc hts hgs) hst
              have f1 : Frame C S h h1 := applyRules_frame C S m h bt st h1 hcl
                (resolvesInto_of_owns h C S hcl bt hbtS _)
                (resolvesInto_of_owns h C S hcl st hstS _) hap
              have hrest1 : ∀ e' ∈ rest, pointsInto h1 C S e'.Value = true ∧
                  ∀ ts sc, h1.tabs[s]? = some ts → ts.Get e'.Name = some sc →
                    pointsInto h1 C S sc = true := by
                intro e' he'
                refine ⟨pointsInto_frame f1 _ (hrest e' he').1, ?_⟩
                intro ts' sc' hts' hg'
                rw [f1.2.1] at hts'
                exact pointsInto_frame f1 _ ((hrest e' he').2 ts' sc' hts' hg')
              exact frame_trans f1 (ih h1 h' f1.1 hrest1 hrun)

theorem mergeEntries_eq_foldlM (s : TRef) (m : Rules) :
    ∀ (entries : List NamedValue) (h : Heap),
      mergeEntries h s m entries = entries.foldlM (passStep s m) h := by
  intro entries
  induction entries with
  | nil => intro h; simp [mergeEntries]
  | cons e rest ih =>
    intro h
    simp only [mergeEntries, List.foldlM_cons, passStep]
    cases hts : h.tabs[s]? with
    | none => simp
    | some ts =>
      simp only
      cases hgs : ts.Get e.Name with
      | none => simp [ih]
      | some sc =>
        simp only
        cases hbt : Value.Table h e.Value <;> cases hst : Value.Table h sc <;>
          simp [ih]
        cases hap : applyRules h _ _ m <;> simp [ih]

/-! ## `AddOrReplace` on a single table -/

/-- Claim C8. For a table `tab` at address `t`, a non-empty name `n` that `Get`
does not resolve and a value pointer `v`, `AddOrReplace` returns, changes no
`Value` object and no other table, and the table becomes `tab'` with exactly
one more entry: the earlier entries keep name, value and position, the new
entry is last, is named `n` and holds `v`, and `Get n` returns `v`. -/
theorem AddOrReplace_new_name (h : Heap) (t : TRef) (tab : Table) (n : String) (v : VRef)
    (ht : h.tabs[t]? = some tab) (hn : n ≠ "") (hget : tab.Get n = none) :
    ∃ tab', Table.AddOrReplace h t n v = some { vals := h.vals, tabs := h.tabs.set t tab' } ∧
      (h.tabs.set t tab')[t]? = some tab' ∧
      tab'.values = tab.values ++ [{ Name := n, Value := v }] ∧
      tab'.values.length = tab.values.length + 1 ∧
      tab'.values.getLast? = some { Name := n, Value := v } ∧
      (∀ i, i < tab.values.length → tab'.values[i]? = tab.values[i]?) ∧
      tab'.Get n = some v := by
  refine ⟨tab.append n v, ?_, ?_, ?_, ?_, ?_, ?_, Get_append_new tab n v hn⟩
  · simp [Table.AddOrReplace, ht, hget]
  · have hlt : t < h.tabs.length := by
      rcases Nat.lt_or_ge t h.tabs.length with hlt | hge
      · exact hlt
      · rw [List.getElem?_eq_none hge] at ht
        cases ht
    simp [List.getElem?_set, hlt]
  · simp [Table.append, hn]
  · simp [Table.append, hn]
  · simp [Table.append, hn]
  · intro i hi
    simp [Table.append, hn, List.getElem?_append_left hi]

/-- Witness for claim C8: the name `b` is new in the one-entry table `a`. -/
theorem AddOrReplace_new_name_witness :
    ∃ tab', Table.AddOrReplace
        { vals := [{ Typ := LuaType.TypeBoolean, value := Payload.bool true },
                   { Typ := LuaType.TypeString, value := Payload.string "s" }],
          tabs := [NewTable.append "a" 0] } 0 "b" 1
        = some { vals := [{ Typ := LuaType.TypeBoolean, value := Payload.bool true },
                          { Typ := LuaType.TypeString, value := Payload.string "s" }],
                 tabs := [NewTable.append "a" 0].set 0 tab' } ∧
      ([NewTable.append "a" 0].set 0 tab')[0]? = some tab' ∧
      tab'.values = (NewTable.append "a" 0).values ++ [{ Name := "b", Value := 1 }] ∧
      tab'.values.length = (NewTable.append "a" 0).values.length + 1 ∧
      tab'.values.getLast? = some { Name := "b", Value := 1 } ∧
      (∀ i, i < (NewTable.append "a" 0).values.length →
        tab'.values[i]? = (NewTable.append "a" 0).values[i]?) ∧
      tab'.Get "b" = some 1 :=
  AddOrReplace_new_name _ 0 (NewTable.append "a" 0) "b" 1 rfl (by decide) (by decide)

/-- Claim C9. For a table `tab` at address `t` and a name `n` that `Get`
resolves to the `Value` object `cur`, `AddOrReplace` returns and leaves every
table object as it was (so the number of entries, the sequence of entry names
and the positional counter of `tab` are unchanged), and every `Value` object
other than `cur`, in particular the value of every other entry, is unchanged. -/
theorem AddOrReplace_existing_name (h : Heap) (t : TRef) (tab : Table) (n : String)
    (v cur : VRef) (cv : Value)
    (ht : h.tabs[t]? = some tab) (hget : tab.Get n = some cur) (hc : h.vals[cur]? = some cv) :
    ∃ h', Table.AddOrReplace h t n v = some h' ∧
      h'.tabs = h.tabs ∧
      (∃ tab', h'.tabs[t]? = some tab' ∧
        tab'.values.length = tab.values.length ∧
        tab'.values.map NamedValue.Name = tab.values.map NamedValue.Name ∧
        tab'.currentIndex = tab.currentIndex ∧
        tab'.values = tab.values) ∧
      (∀ r, r ≠ cur → h'.vals[r]? = h.vals[r]?) ∧
      (∀ e ∈ tab.values, e.Value ≠ cur → h'.vals[e.Value]? = h.vals[e.Value]?) := by
  refine ⟨{ h with vals := h.vals.set cur { cv with value := Payload.value v } }, ?_, rfl,
    ⟨tab, ht, rfl, rfl, rfl, rfl⟩, ?_, ?_⟩
  · simp [Table.AddOrReplace, ht, hget, hc]
  · intro r hr
    simp [List.getElem?_set, Ne.symm hr]
  · intro e _ hr
    simp [List.getElem?_set, Ne.symm hr]


/-- Witness for claim C9: the name `a` of the table `{a = "old"}` resolves to
object 0, which is the only object written. -/
theorem AddOrReplace_existing_name_witness :
    ∃ h', Table.AddOrReplace exReplaceHeap 0 "a" 1 = some h' ∧
      h'.tabs = exReplaceHeap.tabs ∧
      (∃ tab', h'.tabs[0]? = some tab' ∧
        tab'.values.length = (NewTable.append "a" 0).values.length ∧
        tab'.values.map NamedValue.Name = (NewTable.append "a" 0).values.map NamedValue.Name ∧
        tab'.currentIndex = (NewTable.append "a" 0).currentIndex ∧
        tab'.values = (NewTable.append "a" 0).values) ∧
      (∀ r, r ≠ 0 → h'.vals[r]? = exReplaceHeap.vals[r]?) ∧
      (∀ e ∈ (NewTable.append "a" 0).values, e.Value ≠ 0 →
        h'.vals[e.Value]? = exReplaceHeap.vals[e.Value]?) :=
  AddOrReplace_existing_name exReplaceHeap 0 (NewTable.append "a" 0) "a" 1 0 (strValue "old")
    (by decide) (by decide) (by decide)

/-! ## The bound on the depth of wrapped values

`Value.Table` follows wrapped values for at most `h.vals.length + 1` steps.  The
bound loses nothing: a call that returns with any bound returns the same with
this one, so `Res.diverge` stands for a chain of wrapped values that comes back
to an object already visited, or for a pointer to no object. -/

theorem TableAux_step (h : Heap) (n : Nat) (v : VRef) :
    Value.TableAux h (n + 1) v =
      match h.vals[v]? with
      | none => Res.diverge
      | some val =>
        if val.Typ ≠ LuaType.TypeTable then Res.error
        else
          match val.value with
          | Payload.value inner => Value.TableAux h n inner
          | Payload.table value => Res.ok value
          | _ => Res.error := by
  rw [Value.TableAux]

theorem TableAux_succ (h : Heap) :
    ∀ (n : Nat) (v : VRef), Value.TableAux h n v ≠ Res.diverge →
      Value.TableAux h (n + 1) v = Value.TableAux h n v := by
  intro n
  induction n with
  | zero => intro v hv; exact absurd rfl hv
  | succ n ih =>
    intro v hv
    rw [TableAux_step h n v] at hv
    rw [TableAux_step h (n + 1) v, TableAux_step h n v]
    cases hc : h.vals[v]? with
    | none => rfl
    | some cv =>
      simp only [hc] at hv ⊢
      by_cases hty : cv.Typ ≠ LuaType.TypeTable
      · rw [if_pos hty, if_pos hty]
      · rw [if_neg hty] at hv
        rw [if_neg hty, if_neg hty]
        cases hp : cv.value with
        | value inner =>
          simp only [hp] at hv ⊢
          exact ih inner hv
        | table t => rfl
        | nil => rfl
        | bool b => rfl
        | float64 x => rfl
        | string s => rfl

theorem TableAux_le (h : Heap) (v : VRef) (n : Nat) (hv : Value.TableAux h n v ≠ Res.diverge) :
    ∀ m, n ≤ m → Value.TableAux h m v = Value.TableAux h n v := by
  intro m hm
  induction m, hm using Nat.le_induction with
  | base => rfl
  | succ m _ ih =>
    rw [TableAux_succ h m v (by rw [ih]; exact hv), ih]

theorem TableAux_exact_inner (h : Heap) (n : Nat) (v : VRef)
    (h1 : Value.TableAux h (n + 2) v ≠ Res.diverge)
    (h2 : Value.TableAux h (n + 1) v = Res.diverge) :
    v < h.vals.length ∧ ∃ inner, Value.TableAux h (n + 1) inner ≠ Res.diverge ∧
      Value.TableAux h n inner = Res.diverge := by
  rw [TableAux_step h (n + 1) v] at h1
  rw [TableAux_step h n v] at h2
  cases hc : h.vals[v]? with
  | none => simp [hc] at h1
  | some cv =>
    have hlt : v < h.vals.length := by
      rcases Nat.lt_or_ge v h.vals.length with hlt | hge
      · exact hlt
      · rw [List.getElem?_eq_none hge] at hc
        cases hc
    refine ⟨hlt, ?_⟩
    simp only [hc] at h1 h2
    by_cases hty : cv.Typ ≠ LuaType.TypeTable
    · simp [hty] at h2
    · simp only [hty, if_false] at h1 h2
      cases hp : cv.value with
      | value inner =>
        simp only [hp] at h1 h2
        exact ⟨inner, h1, h2⟩
      | table t => simp [hp] at h2
      | nil => simp [hp] at h2
      | bool b => simp [hp] at h2
      | float64 x => simp [hp] at h2
      | string s => simp [hp] at h2

theorem TableAux_valid (h : Heap) (n : Nat) (v : VRef)
    (h1 : Value.TableAux h (n + 1) v ≠ Res.diverge) : v < h.vals.length := by
  rw [TableAux_step h n v] at h1
  rcases Nat.lt_or_ge v h.vals.length with hlt | hge
  · exact hlt
  · rw [List.getElem?_eq_none hge] at h1
    exact absurd rfl h1

theorem TableAux_exact_chain (h : Heap) :
    ∀ (n : Nat) (v : VRef), Value.TableAux h (n + 1) v ≠ Res.diverge →
      Value.TableAux h n v = Res.diverge →
      ∀ k, k ≤ n → ∃ c, c < h.vals.length ∧ Value.TableAux h (k + 1) c ≠ Res.diverge ∧
        Value.TableAux h k c = Res.diverge := by
  intro n
  induction n with
  | zero =>
    intro v h1 h2 k hk
    have : k = 0 := Nat.le_zero.mp hk
    subst this
    exact ⟨v, TableAux_valid h 0 v h1, h1, h2⟩
  | succ n ih =>
    intro v h1 h2 k hk
    rcases Nat.lt_or_ge k (n + 1) with hlt | hge
    · obtain ⟨_, inner, hi1, hi2⟩ := TableAux_exact_inner h n v h1 h2
      exact ih inner hi1 hi2 k (Nat.lt_succ_iff.mp hlt)
    · have : k = n + 1 := Nat.le_antisymm hk hge
      subst this
      exact ⟨v, TableAux_valid h (n + 1) v h1, h1, h2⟩

theorem TableAux_exact_bound (h : Heap) (n : Nat) (v : VRef)
    (h1 : Value.TableAux h (n + 1) v ≠ Res.diverge)
    (h2 : Value.TableAux h n v = Res.diverge) : n + 1 ≤ h.vals.length := by
  have hch := TableAux_exact_chain h n v h1 h2
  choose f hf using fun (k : Fin (n + 1)) => hch k.1 (Nat.lt_succ_iff.mp k.2)
  let g : Fin (n + 1) → Fin h.vals.length := fun k => ⟨f k, (hf k).1⟩
  have hinj : Function.Injective g := by
    intro a b hab
    have hfab : f a = f b := congrArg Fin.val hab
    by_contra hne
    rcases Nat.lt_or_gt_of_ne (fun e => hne (Fin.ext e)) with hlt | hlt
    · have := TableAux_le h (f a) (a.1 + 1) (hf a).2.1 b.1 hlt
      rw [hfab, (hf b).2.2] at this
      exact (hf a).2.1 (by rw [hfab]; exact this.symm)
    · have := TableAux_le h (f b) (b.1 + 1) (hf b).2.1 a.1 hlt
      rw [← hfab, (hf a).2.2] at this
      exact (hf b).2.1 (by rw [← hfab]; exact this.symm)
  simpa using Fintype.card_le_of_injective g hinj

theorem Table_fuel_enough (h : Heap) (v : VRef) (n : Nat)
    (hv : Value.TableAux h n v ≠ Res.diverge) :
    Value.Table h v = Value.TableAux h n v := by
  classical
  have hex : ∃ m, Value.TableAux h m v ≠ Res.diverge := ⟨n, hv⟩
  have hmin := Nat.find_spec hex
  have hle : Nat.find hex ≤ n := Nat.find_min' hex hv
  cases hm : Nat.find hex with
  | zero =>
    rw [hm] at hmin
    exact absurd rfl hmin
  | succ m =>
    rw [hm] at hmin hle
    have hprev : Value.TableAux h m v = Res.diverge := by
      by_contra hne
      have := Nat.find_min' hex hne
      omega
    have hb := TableAux_exact_bound h m v hmin hprev
    unfold Value.Table
    rw [TableAux_le h v (m + 1) hmin (h.vals.length + 1) (by omega),
      TableAux_le h v (m + 1) hmin n hle]

/-! ## Field-level merge: `applyRules` -/

theorem applyRules_singleton (h : Heap) (b s : TRef) (entry : String × Rule) :
    applyRules h b s [entry] = applyEntry h b s entry := by
  simp only [applyRules]
  cases applyEntry h b s entry <;> rfl

theorem applyEntry_absent (h : Heap) (b s : TRef) (tb ts : Table) (k : String) (rv : Rule)
    (htb : h.tabs[b]? = some tb) (hts : h.tabs[s]? = some ts)
    (habs : tb.Get k = none ∨ ts.Get k = none) : applyEntry h b s (k, rv) = some h := by
  simp only [applyEntry]
  unfold applyRule
  simp only [htb, hts]
  rcases habs with hb | hs
  · simp [hb]
  · cases hgb : tb.Get k <;> simp [hs]

theorem applyRules_skip_absent (b s : TRef) (tb ts : Table) (k : String) (rv : Rule)
    (post : Rules) (habs : tb.Get k = none ∨ ts.Get k = none) :
    ∀ (pre : Rules) (h : Heap), h.tabs[b]? = some tb → h.tabs[s]? = some ts →
      applyRules h b s (pre ++ (k, rv) :: post) = applyRules h b s (pre ++ post) := by
  intro pre
  induction pre with
  | nil =>
    intro h htb hts
    simp only [List.nil_append]
    rw [applyRules, applyEntry_absent h b s tb ts k rv htb hts habs]
  | cons e rest ih =>
    intro h htb hts
    simp only [List.cons_append]
    rw [applyRules, applyRules]
    cases h1e : applyEntry h b s e with
    | none => rfl
    | some h1 =>
      simp only
      have hx := applyEntry_ext e h b s h1 h1e
      exact ih h1 (by rw [hx.1]; exact htb) (by rw [hx.1]; exact hts)

/-- Claim C3. Let key `k` resolve to the object `bv` in base and to `sv` in
source, and let `m` be a nested rule map.  When both objects are tables, with
sub-tables `bt` and `st`, the single rule `{k: m}` does exactly what
`applyRules(bt, st, m)` does; that call touches no table object, and for every
closed region holding the two sub-tables it touches no `Value` object outside
the region, so that the entries of base itself are untouched unless they are
shared with the region.  When one of the two objects is not a table the heap
is left as it was. -/
theorem applyRules_single_nested (h : Heap) (b s : TRef) (tb ts : Table) (k : String)
    (m : Rules) (bv sv : VRef)
    (htb : h.tabs[b]? = some tb) (hts : h.tabs[s]? = some ts)
    (hgb : tb.Get k = some bv) (hgs : ts.Get k = some sv) :
    (∀ bt st, Value.Table h bv = Res.ok bt → Value.Table h sv = Res.ok st →
      applyRules h b s [(k, Rule.map m)] = applyRules h bt st m ∧
      ∀ h', applyRules h bt st m = some h' →
        h'.tabs = h.tabs ∧
        ∀ (C : List VRef) (S : List TRef), Closed h C S → bt ∈ S → st ∈ S →
          (∀ r : VRef, r ∉ C → h'.vals[r]? = h.vals[r]?) ∧
          ∀ e ∈ tb.values, e.Value ∉ C → h'.vals[e.Value]? = h.vals[e.Value]?) ∧
    (Value.Table h bv ≠ Res.diverge → Value.Table h sv ≠ Res.diverge →
      (Value.Table h bv = Res.error ∨ Value.Table h sv = Res.error) →
      applyRules h b s [(k, Rule.map m)] = some h) := by
  constructor
  · intro bt st hbt hst
    constructor
    · rw [applyRules_singleton]
      simp only [applyEntry]
      unfold applyRule
      simp only [htb, hts, hgb, hgs, hbt, hst]
    · intro h' hrun
      refine ⟨(applyRules_ext m h bt st h' hrun).1, ?_⟩
      intro C S hcl hbS hsS
      have f := applyRules_frame C S m h bt st h' hcl
        (resolvesInto_of_owns h C S hcl bt hbS _)
        (resolvesInto_of_owns h C S hcl st hsS _) hrun
      exact ⟨f.2.2, fun e _ he => f.2.2 e.Value he⟩
  · intro hnb hns herr
    rw [applyRules_singleton]
    simp only [applyEntry]
    unfold applyRule
    simp only [htb, hts, hgb, hgs]
    cases hbt : Value.Table h bv <;> cases hst : Value.Table h sv <;> simp_all

/-- Witness for claim C3 on the nested example.  The rule `{x: {n: true}}`
does what `applyRules` does on the two sub-tables `x` (tables 1 and 3), it
returns, and the two entries of base (objects 0 and 1) are untouched; the
region holds the entries of the two sub-tables.  The rule `{y: {n: true}}`,
whose key names two strings, leaves the heap as it was. -/
theorem applyRules_single_nested_witness :
    applyRules exNestedHeap 0 2 [("x", Rule.map [("n", Rule.bool true)])]
      = applyRules exNestedHeap 1 3 [("n", Rule.bool true)] ∧
    applyRules exNestedHeap 1 3 [("n", Rule.bool true)]
      = some { vals := exNestedHeap.vals.set 2 (Value.mk LuaType.TypeString (Payload.value 6)),
               tabs := exNestedHeap.tabs } ∧
    (∀ h', applyRules exNestedHeap 1 3 [("n", Rule.bool true)] = some h' →
      h'.tabs = exNestedHeap.tabs ∧
      h'.vals[0]? = exNestedHeap.vals[0]? ∧ h'.vals[1]? = exNestedHeap.vals[1]?) ∧
    applyRules exNestedHeap 0 2 [("y", Rule.map [("n", Rule.bool true)])]
      = some exNestedHeap := by
  have hx := applyRules_single_nested exNestedHeap 0 2 ((NewTable.append "x" 0).append "y" 1)
    ((NewTable.append "x" 4).append "y" 5) "x" [("n", Rule.bool true)] 0 4
    (by decide) (by decide) (by decide) (by decide)
  have hy := applyRules_single_nested exNestedHeap 0 2 ((NewTable.append "x" 0).append "y" 1)
    ((NewTable.append "x" 4).append "y" 5) "y" [("n", Rule.bool true)] 1 5
    (by decide) (by decide) (by decide) (by decide)
  obtain ⟨heq, hfr⟩ := hx.1 1 3 (by decide) (by decide)
  refine ⟨heq, by decide, ?_, hy.2 (by decide) (by decide) (Or.inl (by decide))⟩
  intro h' hrun
  obtain ⟨htabs, hreg⟩ := hfr h' hrun
  obtain ⟨hout, _⟩ := hreg [2, 3, 6, 7] [1, 3] (by decide) (by decide) (by decide)
  exact ⟨htabs, hout 0 (by decide), hout 1 (by decide)⟩

/-- Counterexample to claim C4 as stated. Base and source hold one positional
entry each, named `[1]`; the only rule key is `1`.  `Get` resolves the key `1`
to the entry `[1]`, whose name is not a key of the rules, and the value of that
entry is replaced: it reads `old` before the call and `new` after it. -/
theorem applyRules_changes_entry_not_named :
    "[1]" ∉ [("1", Rule.bool true)].map Prod.fst ∧
    exPositionalHeap.tabs[0]?.map (fun t => t.values.map NamedValue.Name) = some ["[1]"] ∧
    Value.String exPositionalHeap 0 = Res.ok "old" ∧
    ∃ h', applyRules exPositionalHeap 0 1 [("1", Rule.bool true)] = some h' ∧
      h'.tabs = exPositionalHeap.tabs ∧
      h'.vals[0]? ≠ exPositionalHeap.vals[0]? ∧
      Value.String h' 0 = Res.ok "new" :=
  ⟨by decide, by decide, by decide,
   { vals := [{ Typ := LuaType.TypeString, value := Payload.value 1 }, strValue "new"],
     tabs := exPositionalHeap.tabs },
   by decide, by decide, by decide, by decide⟩

/-- Claim C4, amended. A run of `applyRules` leaves every table object as it
was (no entry is added, removed or reordered).  For every closed region `(C, S)` that holds
the `Value` objects to which the keys of `rules` resolve in base and in source,
every `Value` object outside `C` is unchanged: in particular every entry of
base to which no rule key resolves and that is not shared with the region.  A
rule whose key does not resolve in base or in source can be removed from the
rules without changing the result. -/
theorem applyRules_frame_entries (h : Heap) (b s : TRef) (rules : Rules) (h' : Heap)
    (hrun : applyRules h b s rules = some h') :
    h'.tabs = h.tabs ∧
    (∀ (C : List VRef) (S : List TRef), Closed h C S →
      ResolvesInto h b (rules.map Prod.fst) C → ResolvesInto h s (rules.map Prod.fst) C →
      (∀ r : VRef, r ∉ C → h'.vals[r]? = h.vals[r]?) ∧
      ∀ tb, h.tabs[b]? = some tb → ∀ e ∈ tb.values, e.Value ∉ C →
        h'.vals[e.Value]? = h.vals[e.Value]?) ∧
    (∀ pre post k rv tb ts, rules = pre ++ (k, rv) :: post →
      h.tabs[b]? = some tb → h.tabs[s]? = some ts →
      (tb.Get k = none ∨ ts.Get k = none) →
      applyRules h b s (pre ++ post) = some h') := by
  have x := applyRules_ext rules h b s h' hrun
  refine ⟨x.1, ?_, ?_⟩
  · intro C S hcl hb hs
    have f := applyRules_frame C S rules h b s h' hcl hb hs hrun
    exact ⟨f.2.2, fun tb _ e _ he => f.2.2 e.Value he⟩
  · intro pre post k rv tb ts hrules htb hts habs
    rw [← applyRules_skip_absent b s tb ts k rv post habs pre h htb hts, ← hrules]
    exact hrun

/-- Witness for claim C4: the rules `{x: {n: true}, zzz: true}` on the nested
example.  The key `x` resolves to objects 0 and 4 and the key `zzz` to nothing;
the run returns, the entry `y` of base (object 1) is outside the region and
unchanged, and without the rule `zzz` the result is the same. -/
theorem applyRules_frame_entries_witness :
    ∃ h', applyRules exNestedHeap 0 2
        [("x", Rule.map [("n", Rule.bool true)]), ("zzz", Rule.bool true)] = some h' ∧
      h'.tabs = exNestedHeap.tabs ∧
      h'.vals[1]? = exNestedHeap.vals[1]? ∧
      applyRules exNestedHeap 0 2 [("x", Rule.map [("n", Rule.bool true)])] = some h' := by
  have hrun : applyRules exNestedHeap 0 2
      [("x", Rule.map [("n", Rule.bool true)]), ("zzz", Rule.bool true)]
      = some { vals := exNestedHeap.vals.set 2
                (Value.mk LuaType.TypeString (Payload.value 6)),
               tabs := exNestedHeap.tabs } := by decide
  have htb0 : exNestedHeap.tabs[0]? = some ((NewTable.append "x" 0).append "y" 1) := by decide
  have hts0 : exNestedHeap.tabs[2]? = some ((NewTable.append "x" 4).append "y" 5) := by decide
  obtain ⟨htabs, hreg, habs⟩ := applyRules_frame_entries exNestedHeap 0 2 _ _ hrun
  refine ⟨_, hrun, htabs, ?_, ?_⟩
  · refine (hreg [0, 4, 2, 3, 6, 7] [1, 3] (by decide) ?_ ?_).1 1 (by decide)
    · intro k hk tb c htb hget
      rw [htb0] at htb
      cases htb
      simp only [List.map_cons, List.map_nil, List.mem_cons, List.mem_singleton,
        List.not_mem_nil, or_false] at hk
      rcases hk with rfl | rfl
      · have : ((NewTable.append "x" 0).append "y" 1).Get "x" = some 0 := by decide
        rw [this] at hget; cases hget; decide
      · have : ((NewTable.append "x" 0).append "y" 1).Get "zzz" = none := by decide
        rw [this] at hget; cases hget
    · intro k hk tb c htb hget
      rw [hts0] at htb
      cases htb
      simp only [List.map_cons, List.map_nil, List.mem_cons, List.mem_singleton,
        List.not_mem_nil, or_false] at hk
      rcases hk with rfl | rfl
      · have : ((NewTable.append "x" 4).append "y" 5).Get "x" = some 4 := by decide
        rw [this] at hget; cases hget; decide
      · have : ((NewTable.append "x" 4).append "y" 5).Get "zzz" = none := by decide
        rw [this] at hget; cases hget
  · exact habs [("x", Rule.map [("n", Rule.bool true)])] [] "zzz" (Rule.bool true) _ _
      rfl htb0 hts0 (Or.inl (by decide))

/-! ## Top-level merge: `mergeInternal` -/

theorem mergeRules_true_first (h : Heap) (b s : TRef) (k : String) (post : Rules) :
    ∀ pre : Rules, (∀ p ∈ pre, ∀ m, p.2 ≠ Rule.map m) →
      mergeRules h b s (pre ++ (k, Rule.bool true) :: post) = copyAll h b s := by
  intro pre
  induction pre with
  | nil => intro _; simp [mergeRules]
  | cons p rest ih =>
    intro hpre
    have hrest : ∀ q ∈ rest, ∀ m, q.2 ≠ Rule.map m :=
      fun q hq => hpre q (List.mem_cons_of_mem _ hq)
    obtain ⟨pk, pv⟩ := p
    cases pv with
    | bool bv =>
      cases bv
      · simp [mergeRules, ih hrest]
      · simp [mergeRules]
    | map m => exact absurd rfl (hpre (pk, Rule.map m) (List.mem_cons_self _ _) m)
    | other => simp [mergeRules, ih hrest]

/-- Counterexample to claim C5 as stated. Base is `{["1"] = {n = "old"}}`, source
is `{{n = "new"}}`, and the rules hold the nested map `{n: true}` under `a` and
`true` under `b`.  When `a` is processed first, its pass reaches the table under
the base entry `1` (its name resolves in source to `[1]`) and the field `n` of
that table reads `new` afterwards; with empty rules, and also when `b` is
processed first, it reads `old`. -/
theorem mergeInternal_true_rule_depends_on_order :
    (∃ h1 h2,
      mergeInternal exAliasHeap 0 2
        [("a", Rule.map [("n", Rule.bool true)]), ("b", Rule.bool true)] = some h1 ∧
      mergeInternal exAliasHeap 0 2 [] = some h2 ∧
      h1.tabs = h2.tabs ∧
      Value.String h1 1 = Res.ok "new" ∧ Value.String h2 1 = Res.ok "old") ∧
    mergeInternal exAliasHeap 0 2
        [("b", Rule.bool true), ("a", Rule.map [("n", Rule.bool true)])]
      = mergeInternal exAliasHeap 0 2 [] ∧
    mergeInternal exAliasHeap 0 2
        [("a", Rule.map [("n", Rule.bool true)]), ("b", Rule.bool true)]
      ≠ mergeInternal exAliasHeap 0 2 [] :=
  ⟨⟨{ vals := [tableValue 1, { Typ := LuaType.TypeString, value := Payload.value 3 },
               tableValue 3, strValue "new"],
      tabs := [(NewTable.append "1" 0).append "[1]" 2, NewTable.append "n" 1,
               NewTable.append "" 2, NewTable.append "n" 3] },
     { vals := exAliasHeap.vals,
       tabs := [(NewTable.append "1" 0).append "[1]" 2, NewTable.append "n" 1,
                NewTable.append "" 2, NewTable.append "n" 3] },
     by decide, by decide, by decide, by decide, by decide⟩, by decide, by decide⟩

/-- Claim C5, amended. When some rule entry has the value `true` and no nested
rule map is processed before the first such entry, `mergeInternal` does exactly
what it does with empty rules, whatever entries come after. -/
theorem mergeInternal_true_rule (h : Heap) (b s : TRef) (pre post : Rules) (k : String)
    (hpre : ∀ p ∈ pre, ∀ m, p.2 ≠ Rule.map m) :
    mergeInternal h b s (pre ++ (k, Rule.bool true) :: post) = mergeInternal h b s [] := by
  unfold mergeInternal
  simp [mergeRules_true_first h b s k post pre hpre]

/-- Witness for claim C5: a `false` entry and a string entry come before the
`true` entry, a nested map after it. -/
theorem mergeInternal_true_rule_witness :
    (∀ p ∈ [("u", Rule.bool false), ("v", Rule.other)], ∀ m, p.2 ≠ Rule.map m) ∧
    mergeInternal exAliasHeap 0 2
      ([("u", Rule.bool false), ("v", Rule.other)] ++
        ("b", Rule.bool true) :: [("a", Rule.map [("n", Rule.bool true)])])
      = mergeInternal exAliasHeap 0 2 [] :=
  ⟨by simp, mergeInternal_true_rule exAliasHeap 0 2 _ _ "b" (by simp)⟩

/-- Claim C6. `mergeInternal` with the single rule `{k: m}`, `m` a nested rule
map, is the uniform pass of the specification, whatever the label `k`.  A run
leaves every table object as it was (no entry of base is added, removed or
reordered and no entry of source is copied).  For every closed region into
which the top-level entries of base, and the source objects their names resolve
to, point, a run leaves every `Value` object outside the region unchanged:
in particular every top-level entry of base that is not shared with the
region.  An entry that is not a table on both sides is passed over. -/
theorem mergeInternal_single_nested (h : Heap) (b s : TRef) (k : String) (m : Rules) :
    mergeInternal h b s [(k, Rule.map m)] = uniformPass h b s m ∧
    (∀ k', mergeInternal h b s [(k', Rule.map m)] = mergeInternal h b s [(k, Rule.map m)]) ∧
    (∀ h', mergeInternal h b s [(k, Rule.map m)] = some h' →
      h'.tabs = h.tabs ∧
      ∀ (C : List VRef) (S : List TRef), Closed h C S →
        (∀ tb, h.tabs[b]? = some tb → ∀ e ∈ tb.values,
          pointsInto h C S e.Value = true ∧
          ∀ ts sc, h.tabs[s]? = some ts → ts.Get e.Name = some sc →
            pointsInto h C S sc = true) →
        (∀ r : VRef, r ∉ C → h'.vals[r]? = h.vals[r]?) ∧
        ∀ tb, h.tabs[b]? = some tb → ∀ e ∈ tb.values, e.Value ∉ C →
          h'.vals[e.Value]? = h.vals[e.Value]?) ∧
    (∀ (h0 : Heap) (e : NamedValue) (ts : Table), h0.tabs[s]? = some ts →
      (ts.Get e.Name = none ∨
        ∃ sc, ts.Get e.Name = some sc ∧
          Value.Table h0 e.Value ≠ Res.diverge ∧ Value.Table h0 sc ≠ Res.diverge ∧
          (Value.Table h0 e.Value = Res.error ∨ Value.Table h0 sc = Res.error)) →
      passStep s m h0 e = some h0) := by
  have hunfold : ∀ k', mergeInternal h b s [(k', Rule.map m)] = uniformPass h b s m := by
    intro k'
    simp only [mergeInternal, uniformPass, mergeRules, List.length_singleton,
      Nat.one_ne_zero, if_false, Nat.succ_ne_zero]
    cases htb : h.tabs[b]? with
    | none => rfl
    | some tb =>
      simp only [Table.Range, ← mergeEntries_eq_foldlM]
      cases mergeEntries h s m tb.values <;> rfl
  refine ⟨hunfold k, fun k' => (hunfold k').trans (hunfold k).symm, ?_, ?_⟩
  · intro h' hrun
    simp only [mergeInternal, mergeRules, List.length_singleton,
      Nat.one_ne_zero, if_false, Nat.succ_ne_zero] at hrun
    cases htb : h.tabs[b]? with
    | none => simp [htb] at hrun
    | some tb =>
      simp only [htb, Table.Range] at hrun
      cases hme : mergeEntries h s m tb.values with
      | none => simp [hme] at hrun
      | some h1 =>
        simp only [hme, Option.some.injEq] at hrun
        subst hrun
        refine ⟨(mergeEntries_ext s m tb.values h h1 hme).1, ?_⟩
        intro C S hcl htop
        have f := mergeEntries_frame C S s m tb.values h h1 hcl (htop tb rfl) hme
        exact ⟨f.2.2, fun tb' _ e _ he => f.2.2 e.Value he⟩
  · intro h0 e ts hts hcase
    simp only [passStep, hts]
    rcases hcase with hnone | ⟨sc, hsc, hnb, hns, herr⟩
    · simp [hnone]
    · simp only [hsc]
      cases hbt : Value.Table h0 e.Value <;> cases hst : Value.Table h0 sc <;> simp_all

/-- Witness for claim C6: the rules `{a: {n: true}}` and `{zz: {n: true}}` on
the nested example give the same run, which is the uniform pass; it returns,
writes object 2 (the field `n` below `x`) and leaves the top-level entries of
base (objects 0 and 1) untouched.  The region holds the entries of the two
sub-tables `x`. -/
theorem mergeInternal_single_nested_witness :
    mergeInternal exNestedHeap 0 2 [("a", Rule.map [("n", Rule.bool true)])]
      = uniformPass exNestedHeap 0 2 [("n", Rule.bool true)] ∧
    mergeInternal exNestedHeap 0 2 [("zz", Rule.map [("n", Rule.bool true)])]
      = mergeInternal exNestedHeap 0 2 [("a", Rule.map [("n", Rule.bool true)])] ∧
    ∃ h', mergeInternal exNestedHeap 0 2 [("a", Rule.map [("n", Rule.bool true)])] = some h' ∧
      h'.tabs = exNestedHeap.tabs ∧
      h'.vals[0]? = exNestedHeap.vals[0]? ∧ h'.vals[1]? = exNestedHeap.vals[1]? ∧
      h'.vals[2]? = some { Typ := LuaType.TypeString, value := Payload.value 6 } := by
  have hrun : mergeInternal exNestedHeap 0 2 [("a", Rule.map [("n", Rule.bool true)])]
      = some { vals := exNestedHeap.vals.set 2
                (Value.mk LuaType.TypeString (Payload.value 6)),
               tabs := exNestedHeap.tabs } := by decide
  obtain ⟨hpass, hlabel, hframe, _⟩ :=
    mergeInternal_single_nested exNestedHeap 0 2 "a" [("n", Rule.bool true)]
  refine ⟨hpass, hlabel "zz", _, hrun, ?_⟩
  obtain ⟨htabs, hreg⟩ := hframe _ hrun
  have hout := (hreg [2, 3, 6, 7] [1, 3] (by decide) (by
      intro tb htb e he
      have htb0 : exNestedHeap.tabs[0]? = some ((NewTable.append "x" 0).append "y" 1) := by
        decide
      rw [htb0] at htb
      cases htb
      have hvals : ((NewTable.append "x" 0).append "y" 1).values
          = [{ Name := "x", Value := 0 }, { Name := "y", Value := 1 }] := by decide
      rw [hvals] at he
      have hts0 : exNestedHeap.tabs[2]? = some ((NewTable.append "x" 4).append "y" 5) := by
        decide
      simp only [List.mem_cons, List.mem_singleton, List.not_mem_nil, or_false] at he
      rcases he with rfl | rfl
      · refine ⟨by decide, ?_⟩
        intro ts sc hts hget
        rw [hts0] at hts; cases hts
        have : ((NewTable.append "x" 4).append "y" 5).Get "x" = some 4 := by decide
        rw [this] at hget; cases hget; decide
      · refine ⟨by decide, ?_⟩
        intro ts sc hts hget
        rw [hts0] at hts; cases hts
        have : ((NewTable.append "x" 4).append "y" 5).Get "y" = some 5 := by decide
        rw [this] at hget; cases hget; decide)).1
  exact ⟨htabs, hout 0 (by decide), hout 1 (by decide), by decide⟩

/-! ## Runs on which the code and the specification part -/

/-- Claim C10, evaluated on `{a = "old"}` with `AddOrReplace("a", v)` for a
boolean `v = true` (object 1).  The call returns; `Get("a")` still returns
object 0, whose type tag is still `TypeString` while `v` has `TypeBoolean`; its
payload is now the pointer to `v`, and neither `Boolean()` nor `String()`
succeeds on it. -/
theorem AddOrReplace_keeps_old_type_tag :
    ∃ h', Table.AddOrReplace exReplaceHeap 0 "a" 1 = some h' ∧
      h'.tabs = exReplaceHeap.tabs ∧
      (NewTable.append "a" 0).Get "a" = some 0 ∧
      h'.vals[0]? = some { Typ := LuaType.TypeString, value := Payload.value 1 } ∧
      h'.vals[1]? = some (boolValue true) ∧
      Value.Boolean h' 1 = Res.ok true ∧
      Value.Boolean h' 0 = Res.error ∧
      Value.String h' 0 = Res.error :=
  ⟨{ vals := [{ Typ := LuaType.TypeString, value := Payload.value 1 }, boolValue true],
     tabs := exReplaceHeap.tabs },
   by decide, by decide, by decide, by decide, by decide, by decide, by decide, by decide⟩

/-- Claim C1, evaluated on base `{a = "one", b = "two"}`, source
`{b = true, c = "four"}` and empty rules.  The call returns and base holds the
names `a`, `b`, `c` in that order; `a` is unchanged and `c` is the object of
source; but under `b`, where source holds the boolean `true`, base holds an
object whose type tag is still `TypeString` and on which neither `Boolean()`
nor `String()` succeeds. -/
theorem mergeInternal_empty_rules_keeps_old_type_tag :
    ∃ h', mergeInternal exUnionHeap 0 1 [] = some h' ∧
      h'.tabs[0]?.map (fun t => t.values) = some
        [{ Name := "a", Value := 0 }, { Name := "b", Value := 1 }, { Name := "c", Value := 3 }] ∧
      h'.vals[0]? = some (strValue "one") ∧
      h'.vals[3]? = some (strValue "four") ∧
      h'.vals[2]? = some (boolValue true) ∧
      h'.vals[1]? = some { Typ := LuaType.TypeString, value := Payload.value 2 } ∧
      Value.Boolean h' 2 = Res.ok true ∧
      Value.Boolean h' 1 = Res.error ∧
      Value.String h' 1 = Res.error :=
  ⟨{ vals := [strValue "one", { Typ := LuaType.TypeString, value := Payload.value 2 },
              boolValue true, strValue "four"],
     tabs := [((NewTable.append "a" 0).append "b" 1).append "c" 3,
              (NewTable.append "b" 2).append "c" 3] },
   by decide, by decide, by decide, by decide, by decide, by decide, by decide, by decide,
   by decide⟩

/-- Claim C2, evaluated on base `{x = "one", y = "two"}`, source
`{x = true, y = "eight"}` and the single rule `{x: true}`.  The call returns and
only object 0, the value of `x` in base, is written; its type tag is still
`TypeString` while source holds a boolean under `x`, and neither `Boolean()`
nor `String()` succeeds on it. -/
theorem applyRules_true_rule_keeps_old_type_tag :
    ∃ h', applyRules exFieldHeap 0 1 [("x", Rule.bool true)] = some h' ∧
      h'.tabs = exFieldHeap.tabs ∧
      h'.vals[0]? = some { Typ := LuaType.TypeString, value := Payload.value 2 } ∧
      h'.vals[1]? = exFieldHeap.vals[1]? ∧
      h'.vals[2]? = some (boolValue true) ∧
      Value.Boolean h' 2 = Res.ok true ∧
      Value.Boolean h' 0 = Res.error ∧
      Value.String h' 0 = Res.error :=
  ⟨{ vals := [{ Typ := LuaType.TypeString, value := Payload.value 2 }, strValue "two",
              boolValue true, strValue "eight"],
     tabs := exFieldHeap.tabs },
   by decide, by decide, by decide, by decide, by decide, by decide, by decide, by decide⟩

/-- Claim C7, evaluated on base `{x = {n = {p = "base"}}}`, source
`{x = {n = {p = "source"}}}` and the rules `{a: {n: true}, b: {n: {p: true}}}`
processed in that order.  The first pass stores the object of `source.x.n` into
`base.x.n`; the second pass then reaches source's own table through base and
writes object 5, the value of `source.x.n.p`: it held the string `source` before
the call, and after the call it wraps itself, so that `String()` on it recurses
without end, whatever bound is put on the depth.  In the other order source is left as it was. -/
theorem mergeInternal_writes_source :
    Value.String exDeepHeap 5 = Res.ok "source" ∧
    (∃ h', mergeInternal exDeepHeap 0 3
        [("a", Rule.map [("n", Rule.bool true)]),
         ("b", Rule.map [("n", Rule.map [("p", Rule.bool true)])])] = some h' ∧
      h'.tabs = exDeepHeap.tabs ∧
      (NewTable.append "p" 5).Get "p" = some 5 ∧
      h'.vals[5]? = some { Typ := LuaType.TypeString, value := Payload.value 5 } ∧
      h'.vals[5]? ≠ exDeepHeap.vals[5]? ∧
      (∀ fuel, Value.StringAux h' fuel 5 = Res.diverge)) ∧
    (∃ h', mergeInternal exDeepHeap 0 3
        [("b", Rule.map [("n", Rule.map [("p", Rule.bool true)])]),
         ("a", Rule.map [("n", Rule.bool true)])] = some h' ∧
      h'.vals[3]? = exDeepHeap.vals[3]? ∧ h'.vals[4]? = exDeepHeap.vals[4]? ∧
      h'.vals[5]? = exDeepHeap.vals[5]?) :=
  ⟨by decide,
   ⟨{ vals := [tableValue 1, { Typ := LuaType.TypeTable, value := Payload.value 4 },
               strValue "base", tableValue 4, tableValue 5,
               { Typ := LuaType.TypeString, value := Payload.value 5 }],
      tabs := exDeepHeap.tabs },
    by decide, by decide, by decide, by decide, by decide,
    by
      intro fuel
      induction fuel with
      | zero => rfl
      | succ n ih =>
        unfold Value.StringAux
        simpa [strValue, tableValue] using ih⟩,
   ⟨{ vals := [tableValue 1, { Typ := LuaType.TypeTable, value := Payload.value 4 },
               { Typ := LuaType.TypeString, value := Payload.value 5 },
               tableValue 4, tableValue 5, strValue "source"],
      tabs := exDeepHeap.tabs },
    by decide, by decide, by decide, by decide⟩⟩

/-! ## Tables built by `AddOrReplace` calls -/

theorem formatIndex_ne_empty (n : Int) : formatIndex n ≠ "" := by
  intro h
  have := congrArg String.data h
  simp [formatIndex] at this

theorem Get_empty_name (tab : Table) (hidx : ∀ p ∈ tab.index, p.1 ≠ "") :
    tab.Get "" = none := by
  have h1 : tab.lookupIndex "" = none := by
    unfold Table.lookupIndex mapGet
    have : List.lookup "" tab.index = none := by
      rw [List.lookup_eq_none_iff]
      intro p hp
      have := hidx p hp
      first
        | simpa using this
        | simpa using Ne.symm this
    rw [this]
  unfold Table.Get
  rw [h1]
  have h2 : Atoi (TrimPrefix (TrimSuffix "" "]") "[") = none := by decide
  simp [h2]

theorem Built_new (h : Heap) (t : TRef) (ht : h.tabs[t]? = some NewTable) : Built h t 0 :=
  ⟨NewTable, ht, rfl, by simp [NewTable], by simp [NewTable]⟩

theorem tabs_lt_of_getElem? {α : Type} (l : List α) (i : Nat) (a : α) (h : l[i]? = some a) :
    i < l.length := by
  rcases Nat.lt_or_ge i l.length with hlt | hge
  · exact hlt
  · rw [List.getElem?_eq_none hge] at h
    cases h

theorem AddOrReplace_built (h : Heap) (t : TRef) (n : Nat) (name : String) (v : VRef)
    (hb : Built h t n) (hv : v < h.vals.length) :
    ∃ h', Table.AddOrReplace h t name v = some h' ∧
      Built h' t (if name = "" then n + 1 else n) ∧ h'.vals.length = h.vals.length ∧
      (name = "" → ∃ tab tab', h.tabs[t]? = some tab ∧ h'.tabs[t]? = some tab' ∧
        tab'.values = tab.values ++ [{ Name := formatIndex ((n + 1 : Nat) : Int), Value := v }]) := by
  obtain ⟨tab, ht, hn, hidx, hval⟩ := hb
  have htlt := tabs_lt_of_getElem? _ _ _ ht
  cases hget : tab.Get name with
  | some cur =>
    have hne : name ≠ "" := by
      intro he
      rw [he, Get_empty_name tab hidx] at hget
      cases hget
    obtain ⟨e, he, hev⟩ := Get_mem tab name cur hget
    have hcur : cur < h.vals.length := hev ▸ hval e he
    have hc : h.vals[cur]? = some h.vals[cur] := List.getElem?_eq_getElem hcur
    refine ⟨{ h with vals := h.vals.set cur { h.vals[cur] with value := Payload.value v } },
      by simp [Table.AddOrReplace, ht, hget, hc], ?_, by simp, fun he => absurd he hne⟩
    refine ⟨tab, ht, ?_, hidx, ?_⟩
    · simp [hne, hn]
    · intro e he
      simpa using hval e he
  | none =>
    refine ⟨{ h with tabs := h.tabs.set t (tab.append name v) },
      by simp [Table.AddOrReplace, ht, hget], ?_, rfl, ?_⟩
    · refine ⟨tab.append name v, by simp [List.getElem?_set, htlt], ?_, ?_, ?_⟩
      · by_cases he : name = "" <;> simp [Table.append, he, hn]
      · intro p hp
        simp only [Table.append, mapSet, List.mem_cons, List.mem_filter] at hp
        rcases hp with rfl | ⟨hp, _⟩
        · by_cases he : name = ""
          · simpa [he] using formatIndex_ne_empty _
          · simp [he]
        · exact hidx p hp
      · intro e he
        simp only [Table.append, List.mem_append, List.mem_singleton] at he
        rcases he with he | rfl
        · exact hval e he
        · exact hv
    · intro he
      refine ⟨tab, tab.append name v, ht, by simp [List.getElem?_set, htlt], ?_⟩
      simp [Table.append, he, hn]

theorem addAll_built (t : TRef) :
    ∀ (calls : List (String × VRef)) (h : Heap) (n : Nat), Built h t n →
      (∀ c ∈ calls, c.2 < h.vals.length) →
      ∃ h', addAll h t calls = some h' ∧ Built h' t (n + unnamedCalls calls) ∧
        h'.vals.length = h.vals.length := by
  intro calls
  induction calls with
  | nil => intro h n hb _; exact ⟨h, rfl, by simpa [unnamedCalls] using hb, rfl⟩
  | cons c rest ih =>
    intro h n hb hv
    obtain ⟨name, v⟩ := c
    obtain ⟨h1, hrun, hb1, hlen, _⟩ :=
      AddOrReplace_built h t n name v hb (hv (name, v) (List.mem_cons_self _ _))
    obtain ⟨h2, hrun2, hb2, hlen2⟩ := ih h1 _ hb1 (by
      intro c hc
      rw [hlen]
      exact hv c (List.mem_cons_of_mem _ hc))
    refine ⟨h2, by simp [addAll, hrun, hrun2], ?_, hlen2.trans hlen⟩
    by_cases he : name = ""
    · simpa [unnamedCalls, he, Nat.add_assoc, Nat.add_comm 1] using hb2
    · simpa [unnamedCalls, he] using hb2

/-- Claim C11. On a table that starts as `NewTable`, in every sequence of
`AddOrReplace` calls with pointers to `Value` objects of the heap, every call
made with the empty name returns and appends one entry, named `[N]` where `N`
counts the empty-name calls up to and including this one, whatever named calls
come in between.  In particular three unnamed insertions yield the entries
`[1]`, `[2]`, `[3]` in that order. -/
theorem addAll_unnamed_names (h : Heap) (t : TRef) (ht : h.tabs[t]? = some NewTable) :
    (∀ (pre post : List (String × VRef)) (v : VRef),
      (∀ c ∈ pre ++ ("", v) :: post, c.2 < h.vals.length) →
      ∃ h1 h2 tab1 tab2, addAll h t pre = some h1 ∧ h1.tabs[t]? = some tab1 ∧
        Table.AddOrReplace h1 t "" v = some h2 ∧ h2.tabs[t]? = some tab2 ∧
        tab2.values = tab1.values ++
          [{ Name := formatIndex ((unnamedCalls pre + 1 : Nat) : Int), Value := v }] ∧
        (addAll h t (pre ++ ("", v) :: post)).isSome = true) ∧
    (∀ v1 v2 v3 : VRef, v1 < h.vals.length → v2 < h.vals.length → v3 < h.vals.length →
      ∃ h3 tab3, addAll h t [("", v1), ("", v2), ("", v3)] = some h3 ∧
        h3.tabs[t]? = some tab3 ∧
        tab3.values = [{ Name := "[1]", Value := v1 }, { Name := "[2]", Value := v2 },
          { Name := "[3]", Value := v3 }]) := by
  constructor
  · intro pre post v hv
    obtain ⟨h1, hrun1, hb1, hlen1⟩ := addAll_built t pre h 0 (Built_new h t ht)
      (fun c hc => hv c (List.mem_append_left _ hc))
    have hvv : v < h1.vals.length := by
      rw [hlen1]
      exact hv ("", v) (List.mem_append_right _ (List.mem_cons_self _ _))
    obtain ⟨h2, hrun2, _, _, hnames⟩ := AddOrReplace_built h1 t _ "" v hb1 hvv
    obtain ⟨tab1, tab2, ht1, ht2, hvals⟩ := hnames rfl
    obtain ⟨h3, hrun3, _, _⟩ := addAll_built t (pre ++ ("", v) :: post) h 0
      (Built_new h t ht) hv
    refine ⟨h1, h2, tab1, tab2, hrun1, ht1, hrun2, ht2, ?_, by simp [hrun3]⟩
    simpa using hvals
  · intro v1 v2 v3 hv1 hv2 hv3
    obtain ⟨h1, hrun1, hb1, hlen1, hn1⟩ :=
      AddOrReplace_built h t 0 "" v1 (Built_new h t ht) hv1
    have hb1' : Built h1 t 1 := by simpa using hb1
    obtain ⟨h2, hrun2, hb2, hlen2, hn2⟩ :=
      AddOrReplace_built h1 t 1 "" v2 hb1' (by rw [hlen1]; exact hv2)
    have hb2' : Built h2 t 2 := by simpa using hb2
    obtain ⟨h3, hrun3, _, _, hn3⟩ :=
      AddOrReplace_built h2 t 2 "" v3 hb2' (by rw [hlen2, hlen1]; exact hv3)
    obtain ⟨a0, a1, ha0, ha1, hva⟩ := hn1 rfl
    obtain ⟨b1, b2, hb1t, hb2t, hvb⟩ := hn2 rfl
    obtain ⟨c2, c3, hc2, hc3, hvc⟩ := hn3 rfl
    rw [ht] at ha0
    cases ha0
    rw [ha1] at hb1t
    cases hb1t
    rw [hb2t] at hc2
    cases hc2
    refine ⟨h3, c3, by simp [addAll, hrun1, hrun2, hrun3], hc3, ?_⟩
    rw [hvc, hvb, hva]
    have e1 : formatIndex (((0 + 1 : Nat) : Nat) : Int) = "[1]" := by decide
    have e2 : formatIndex (((1 + 1 : Nat) : Nat) : Int) = "[2]" := by decide
    have e3 : formatIndex (((2 + 1 : Nat) : Nat) : Int) = "[3]" := by decide
    rw [e1, e2, e3]
    simp [NewTable]

/-- Witness for claim C11: on an empty table an unnamed call, a call named `k`
and a second unnamed call append `[1]`, `k`, `[2]`: the second unnamed call is
the third call and is named `[2]`. -/
theorem addAll_unnamed_names_witness :
    exEmptyHeap.tabs[0]? = some NewTable ∧
    (∃ h1 h2 tab1 tab2, addAll exEmptyHeap 0 [("", 0), ("k", 1)] = some h1 ∧
      h1.tabs[0]? = some tab1 ∧
      Table.AddOrReplace h1 0 "" 2 = some h2 ∧ h2.tabs[0]? = some tab2 ∧
      tab2.values = tab1.values ++
        [{ Name := formatIndex ((unnamedCalls [("", 0), ("k", 1)] + 1 : Nat) : Int),
           Value := 2 }] ∧
      (addAll exEmptyHeap 0 ([("", 0), ("k", 1)] ++ ("", 2) :: [])).isSome = true) ∧
    formatIndex ((unnamedCalls [("", 0), ("k", 1)] + 1 : Nat) : Int) = "[2]" :=
  ⟨by decide,
   (addAll_unnamed_names exEmptyHeap 0 (by decide)).1 [("", 0), ("k", 1)] [] 2 (by decide),
   by decide⟩

/-- Claim C12, evaluated on an empty table with the calls
`AddOrReplace("[1]", a)` and `AddOrReplace("", b)`, the calls `parseTable` makes
for the literal `{[1] = "a", "b"}`.  Both calls return and append: the table
ends with two entries named `[1]`, and `Get("[1]")` returns the second one. -/
theorem addAll_duplicate_name :
    ∃ h' tab, addAll exEmptyHeap 0 [("[1]", 0), ("", 1)] = some h' ∧
      h'.tabs[0]? = some tab ∧
      tab.values = [{ Name := "[1]", Value := 0 }, { Name := "[1]", Value := 1 }] ∧
      ¬ (tab.values.map NamedValue.Name).Nodup ∧
      tab.Get "[1]" = some 1 :=
  ⟨{ vals := exEmptyHeap.vals, tabs := [(NewTable.append "[1]" 0).append "" 1] },
   (NewTable.append "[1]" 0).append "" 1, by decide, by decide, by decide, by decide,
   by decide⟩

/-! ## Decimal strings

The text `toString k` of a natural number is read back by `Atoi`. -/

theorem digitChar_spec (m : Nat) (hm : m < 10) :
    (Nat.digitChar m).isDigit = true ∧ (Nat.digitChar m).toNat - 48 = m ∧
      Nat.digitChar m ≠ '-' ∧ Nat.digitChar m ≠ '+' ∧ Nat.digitChar m ≠ ']' ∧
      Nat.digitChar m ≠ '[' := by
  interval_cases m <;> decide

theorem digitsValue_append (l : List Char) (c : Char) :
    digitsValue (l ++ [c]) = digitsValue l * 10 + (c.toNat - 48) := by
  simp [digitsValue, List.foldl_append]

theorem toDigitsCore_spec :
    ∀ (fuel n : Nat) (ds : List Char), n < fuel →
      ∃ l, Nat.toDigitsCore 10 fuel n ds = l ++ ds ∧ l ≠ [] ∧ IsDigits l ∧ digitsValue l = n := by
  intro fuel
  induction fuel with
  | zero => intro n ds h; omega
  | succ fuel ih =>
    intro n ds hn
    have hd := digitChar_spec (n % 10) (Nat.mod_lt _ (by decide))
    unfold Nat.toDigitsCore
    simp only
    by_cases h0 : n / 10 = 0
    · rw [if_pos h0]
      refine ⟨[Nat.digitChar (n % 10)], rfl, by simp, ?_, ?_⟩
      · intro c hc
        simp only [List.mem_singleton] at hc
        subst hc
        exact ⟨hd.1, hd.2.2⟩
      · have hlt : n < 10 := by omega
        have h1 := hd.2.1
        simp only [digitsValue, List.foldl_cons, List.foldl_nil, Nat.zero_mul, Nat.zero_add]
        rw [h1, Nat.mod_eq_of_lt hlt]
    · rw [if_neg h0]
      have hlt : n / 10 < fuel := by omega
      obtain ⟨l, hl, _, hdig, hval⟩ := ih (n / 10) (Nat.digitChar (n % 10) :: ds) hlt
      refine ⟨l ++ [Nat.digitChar (n % 10)], by simp [hl], by simp, ?_, ?_⟩
      · intro c hc
        simp only [List.mem_append, List.mem_singleton] at hc
        rcases hc with hc | rfl
        · exact hdig c hc
        · exact ⟨hd.1, hd.2.2⟩
      · rw [digitsValue_append, hval, hd.2.1]
        omega

theorem toString_nat_data (k : Nat) :
    ∃ l, (toString k).data = l ∧ l ≠ [] ∧ IsDigits l ∧ digitsValue l = k := by
  obtain ⟨l, hl, hne, hdig, hval⟩ := toDigitsCore_spec (k + 1) k [] (Nat.lt_succ_self k)
  refine ⟨l, ?_, hne, hdig, hval⟩
  show (Nat.repr k).data = l
  simp [Nat.repr, Nat.toDigits, hl, List.asString]

theorem Atoi_digits (s : String) (l : List Char) (hs : s.data = l) (hne : l ≠ [])
    (hdig : IsDigits l) (hlt : digitsValue l < 2 ^ 63) :
    Atoi s = some (digitsValue l : Int) := by
  cases l with
  | nil => exact absurd rfl hne
  | cons c rest =>
    have hc := hdig c (List.mem_cons_self _ _)
    have hall : (c :: rest).all Char.isDigit = true := by
      rw [List.all_eq_true]
      intro x hx
      exact (hdig x hx).1
    unfold Atoi
    rw [hs]
    have hneg : ((c :: rest).head? == some '-') = false := by
      simp [hc.2.1]
    have hmatch : (match c :: rest with
        | '-' :: r => r
        | '+' :: r => r
        | r => r) = c :: rest := by
      split
      · rename_i heq; cases heq; exact absurd rfl hc.2.1
      · rename_i heq; cases heq; exact absurd rfl hc.2.2.1
      · rfl
    simp only [hneg, hmatch, hall, hlt]
    simp

theorem TrimSuffix_digits (s : String) (hdig : IsDigits s.data) : TrimSuffix s "]" = s := by
  unfold TrimSuffix
  have : ("]" : String).data.isSuffixOf s.data = false := by
    rw [Bool.eq_false_iff]
    intro h
    rw [List.isSuffixOf_iff_suffix] at h
    obtain ⟨t, ht⟩ := h
    have hmem : ']' ∈ s.data := by
      rw [← ht]
      simp
    exact (hdig ']' hmem).2.2.2.1 rfl
  rw [this]
  simp

theorem TrimPrefix_digits (s : String) (hdig : IsDigits s.data) : TrimPrefix s "[" = s := by
  unfold TrimPrefix
  have : ("[" : String).data.isPrefixOf s.data = false := by
    rw [Bool.eq_false_iff]
    intro h
    rw [List.isPrefixOf_iff_prefix] at h
    obtain ⟨t, ht⟩ := h
    have hmem : '[' ∈ s.data := by
      rw [← ht]
      simp
    exact (hdig '[' hmem).2.2.2.2 rfl
  rw [this]
  simp

theorem Trim_bracketed (s : String) : TrimPrefix (TrimSuffix ("[" ++ s ++ "]") "]") "[" = s := by
  have h1 : TrimSuffix ("[" ++ s ++ "]") "]" = "[" ++ s := by
    unfold TrimSuffix
    have : ("]" : String).data.isSuffixOf ("[" ++ s ++ "]").data = true := by
      rw [List.isSuffixOf_iff_suffix]
      exact ⟨("[" ++ s).data, by simp⟩
    rw [this]
    apply String.ext
    simp
  rw [h1]
  unfold TrimPrefix
  have : ("[" : String).data.isPrefixOf ("[" ++ s).data = true := by
    rw [List.isPrefixOf_iff_prefix]
    exact ⟨s.data, by simp⟩
  rw [this]
  apply String.ext
  simp

theorem Atoi_toString (k : Nat) (hk : k < 2 ^ 63) : Atoi (toString k) = some (k : Int) := by
  obtain ⟨l, hl, hne, hdig, hval⟩ := toString_nat_data k
  have := Atoi_digits (toString k) l hl hne hdig (by rw [hval]; exact hk)
  rw [hval] at this
  exact this

theorem formatIndex_nat (k : Nat) : formatIndex (k : Int) = "[" ++ toString k ++ "]" := rfl

/-- Counterexample to claim C13 as stated. After the one call
`AddOrReplace("1", v)` on an empty table, `Get("1")` finds the entry by its
exact name while `Get("[1]")` fails.  And on a table whose only entry is named
`[9223372036854775808]`, a number outside the range of `int`, the bracketed
key finds the entry by its exact name while the bare key fails. -/
theorem Get_bare_differs_from_bracketed :
    (∃ h' tab, addAll exEmptyHeap 0 [("1", 0)] = some h' ∧ h'.tabs[0]? = some tab ∧
      tab.Get "1" = some 0 ∧ tab.Get "[1]" = none) ∧
    (∃ h' tab, addAll exEmptyHeap 0 [("[9223372036854775808]", 0)] = some h' ∧
      h'.tabs[0]? = some tab ∧
      tab.Get "[9223372036854775808]" = some 0 ∧ tab.Get "9223372036854775808" = none) :=
  ⟨⟨{ vals := exEmptyHeap.vals, tabs := [NewTable.append "1" 0] }, NewTable.append "1" 0,
     by decide, by decide, by decide, by decide⟩,
   ⟨{ vals := exEmptyHeap.vals, tabs := [NewTable.append "[9223372036854775808]" 0] },
     NewTable.append "[9223372036854775808]" 0, by decide, by decide, by decide, by decide⟩⟩

/-- Claim C13, amended. For every table and every integer `k` from 0 up to
the largest `int`, when the bare decimal string of `k` is not itself the name
of an entry, `Get` gives the same result on the bare string and on the
bracketed string `[k]`: both fail, or both return the value of the entry named
`[k]`. -/
theorem Get_bare_eq_bracketed (tab : Table) (k : Nat) (hk : k < 2 ^ 63)
    (hbare : tab.lookupIndex (toString k) = none) :
    tab.Get (toString k) = tab.Get ("[" ++ toString k ++ "]") ∧
    tab.Get (toString k) = tab.lookupIndex ("[" ++ toString k ++ "]") := by
  obtain ⟨l, hl, _, hdig, _⟩ := toString_nat_data k
  have hdig' : IsDigits (toString k).data := hl ▸ hdig
  have h1 : tab.Get (toString k) = tab.lookupIndex ("[" ++ toString k ++ "]") := by
    unfold Table.Get
    rw [hbare]
    simp only
    rw [TrimSuffix_digits _ hdig', TrimPrefix_digits _ hdig', Atoi_toString k hk]
    simp only [formatIndex_nat]
  refine ⟨?_, h1⟩
  rw [h1]
  unfold Table.Get
  cases hb : tab.lookupIndex ("[" ++ toString k ++ "]") with
  | some v => rfl
  | none =>
    simp only
    rw [Trim_bracketed, Atoi_toString k hk]
    simp only [formatIndex_nat]
    exact hb.symm

/-- Witness for claim C13: on the table with the one positional entry `[1]`
the keys `1` and `[1]` both return that entry. -/
theorem Get_bare_eq_bracketed_witness :
    (1 : Nat) < 2 ^ 63 ∧ (NewTable.append "" 0).lookupIndex (toString (1 : Nat)) = none ∧
    (NewTable.append "" 0).Get "1" = some 0 ∧ (NewTable.append "" 0).Get "[1]" = some 0 := by
  have h := Get_bare_eq_bracketed (NewTable.append "" 0) 1 (by decide) (by decide)
  refine ⟨by decide, by decide, by decide, ?_⟩
  have e : ("[" ++ toString (1 : Nat) ++ "]" : String) = "[1]" := by decide
  rw [← e, ← h.1]
  decide
/-- Claim C19, evaluated on the payloads `a\` (the Lua literal `"a\\"`) and
`x\\"y`.  `String()` returns both as they are: the first ends with one
backslash, which between two double quotes escapes the closing quote; in the
second the double quote at position 3 is preceded by two backslashes, an even
number, so it is not escaped. -/
theorem String_unpaired_backslash :
    Value.String { vals := [strValue "a\\"], tabs := [] } 0 = Res.ok "a\\" ∧
    trailingBackslashes ("a\\" : String).data = 1 ∧
    Value.String { vals := [strValue "x\\\\\"y"], tabs := [] } 0 = Res.ok "x\\\\\"y" ∧
    ("x\\\\\"y" : String).data[3]? = some '"' ∧
    backslashesBefore ("x\\\\\"y" : String).data 3 = 2 :=
  ⟨by decide, by decide, by decide, by decide, by decide⟩


/-! ## The converter: which literals convert -/

theorem valueOf_isSome (e : Expr) : (valueOf e).isSome = partOk e := by
  cases e <;> rfl

theorem parseKey_isSome (e : Expr) : (parseKey e).isSome = keyKindOk e := by
  cases e with
  | AttrGetExpr o k =>
    simp only [parseKey, keyKindOk, ← valueOf_isSome]
    cases valueOf o <;> cases valueOf k <;> rfl
  | StringExpr v =>
    simp only [parseKey, keyKindOk]
    split <;> rfl
  | _ => rfl

theorem growAt_refl (nv nt : Nat) (h : Heap) : GrowAt nv nt h h :=
  ⟨fun _ _ => rfl, fun _ _ => rfl, Nat.le_refl _, Nat.le_refl _⟩

theorem growAt_trans {nv nt : Nat} {h h1 h2 : Heap} (a : GrowAt nv nt h h1)
    (b : GrowAt nv nt h1 h2) : GrowAt nv nt h h2 :=
  ⟨fun i hi => (b.1 i hi).trans (a.1 i hi), fun i hi => (b.2.1 i hi).trans (a.2.1 i hi),
   Nat.le_trans a.2.2.1 b.2.2.1, Nat.le_trans a.2.2.2 b.2.2.2⟩

theorem growAt_mono {nv nt nv' nt' : Nat} {h h' : Heap} (a : GrowAt nv' nt' h h')
    (hv : nv ≤ nv') (ht : nt ≤ nt') : GrowAt nv nt h h' :=
  ⟨fun i hi => a.1 i (Nat.lt_of_lt_of_le hi hv), fun i hi => a.2.1 i (Nat.lt_of_lt_of_le hi ht),
   a.2.2.1, a.2.2.2⟩

theorem growAt_newValue (h : Heap) (v : Value) :
    GrowAt h.vals.length h.tabs.length h (newValue h v).1 ∧
      h.vals.length ≤ (newValue h v).2 ∧ (newValue h v).2 < (newValue h v).1.vals.length ∧
      (newValue h v).1.vals.length = h.vals.length + 1 ∧
      (newValue h v).1.vals[h.vals.length]? = some v := by
  refine ⟨⟨?_, fun _ _ => rfl, by simp [newValue], Nat.le_refl _⟩, Nat.le_refl _,
    by simp [newValue], by simp [newValue], ?_⟩
  · intro i hi
    simp [newValue, List.getElem?_append_left hi]
  · simp [newValue]

/-- The effect of one `AddOrReplace` of the converter on the table at `t`. -/
theorem addField_inv (h : Heap) (t : TRef) (nv : Nat) (name : String) (v : VRef)
    (hinv : TableInv h t nv) (hv1 : nv ≤ v) (hv2 : v < h.vals.length) :
    ∃ h', addField h t name v = Res.ok h' ∧ GrowAt nv t h h' ∧ TableInv h' t nv ∧
      h'.vals.length = h.vals.length ∧ h'.tabs.length = h.tabs.length := by
  obtain ⟨hnv, tab, ht, hval⟩ := hinv
  have htlt := tabs_lt_of_getElem? _ _ _ ht
  unfold addField
  cases hget : tab.Get name with
  | some cur =>
    obtain ⟨e, he, hev⟩ := Get_mem tab name cur hget
    have hcur := hval e he
    rw [hev] at hcur
    have hlt : cur < h.vals.length := hcur.2
    have hge : nv ≤ cur := hcur.1
    have hc : h.vals[cur]? = some h.vals[cur] := List.getElem?_eq_getElem hlt
    refine ⟨{ h with vals := h.vals.set cur { h.vals[cur] with value := Payload.value v } },
      by simp [Table.AddOrReplace, ht, hget, hc], ⟨?_, fun _ _ => rfl, by simp, Nat.le_refl _⟩,
      ⟨by simpa using hnv, tab, ht, by simpa using hval⟩, by simp, rfl⟩
    intro i hi
    have : cur ≠ i := Nat.ne_of_gt (Nat.lt_of_lt_of_le hi hge)
    simp [List.getElem?_set, this]
  | none =>
    refine ⟨{ h with tabs := h.tabs.set t (tab.append name v) },
      by simp [Table.AddOrReplace, ht, hget], ⟨fun _ _ => rfl, ?_, Nat.le_refl _, by simp⟩,
      ⟨hnv, tab.append name v, by simp [List.getElem?_set, htlt], ?_⟩, rfl, by simp⟩
    · intro i hi
      have : t ≠ i := Nat.ne_of_gt hi
      simp [List.getElem?_set, this]
    · intro e he
      simp only [Table.append, List.mem_append, List.mem_singleton] at he
      rcases he with he | rfl
      · exact hval e he
      · exact ⟨hv1, hv2⟩

theorem tableInv_grow {h h1 : Heap} {t : TRef} {nv : Nat} (hinv : TableInv h t nv)
    (g : GrowAt h.vals.length h.tabs.length h h1) : TableInv h1 t nv := by
  obtain ⟨hnv, tab, ht, hval⟩ := hinv
  have htlt := tabs_lt_of_getElem? _ _ _ ht
  refine ⟨Nat.le_trans hnv g.2.2.1, tab, (g.2.1 t htlt).trans ht, ?_⟩
  intro e he
  exact ⟨(hval e he).1, Nat.lt_of_lt_of_le (hval e he).2 g.2.2.1⟩

mutual
theorem parseValue_spec (pf : String → Option Float64) :
    ∀ (e : Expr) (h : Heap),
      (kindsOk e = true → numbersOk pf e = true →
        ∃ h' v, parseValue pf h e = Res.ok (h', v) ∧
          GrowAt h.vals.length h.tabs.length h h' ∧ h.vals.length ≤ v ∧ v < h'.vals.length) ∧
      ((kindsOk e = false ∨ numbersOk pf e = false) → parseValue pf h e = Res.error)
  | Expr.NilExpr, h => by
    have g := growAt_newValue h { Typ := LuaType.TypeNil, value := Payload.nil }
    refine ⟨fun _ _ => ⟨_, _, by rw [parseValue], g.1, ?_, ?_⟩, ?_⟩
    · exact g.2.1
    · exact g.2.2.1
    · simp [kindsOk, numbersOk]
  | Expr.TrueExpr, h => by
    have g := growAt_newValue h { Typ := LuaType.TypeBoolean, value := Payload.bool true }
    refine ⟨fun _ _ => ⟨_, _, by rw [parseValue], g.1, ?_, ?_⟩, ?_⟩
    · exact g.2.1
    · exact g.2.2.1
    · simp [kindsOk, numbersOk]
  | Expr.FalseExpr, h => by
    have g := growAt_newValue h { Typ := LuaType.TypeBoolean, value := Payload.bool false }
    refine ⟨fun _ _ => ⟨_, _, by rw [parseValue], g.1, ?_, ?_⟩, ?_⟩
    · exact g.2.1
    · exact g.2.2.1
    · simp [kindsOk, numbersOk]
  | Expr.StringExpr s, h => by
    have g := growAt_newValue h { Typ := LuaType.TypeString, value := Payload.string s }
    refine ⟨fun _ _ => ⟨_, _, by rw [parseValue], g.1, ?_, ?_⟩, ?_⟩
    · exact g.2.1
    · exact g.2.2.1
    · simp [kindsOk, numbersOk]
  | Expr.FunctionExpr, h => by
    have g := growAt_newValue h
      { Typ := LuaType.TypeFunction, value := Payload.string "<function>" }
    refine ⟨fun _ _ => ⟨_, _, by rw [parseValue], g.1, ?_, ?_⟩, ?_⟩
    · exact g.2.1
    · exact g.2.2.1
    · simp [kindsOk, numbersOk]
  | Expr.IdentExpr s, h => by
    have g := growAt_newValue h { Typ := LuaType.TypeVariable, value := Payload.string s }
    refine ⟨fun _ _ => ⟨_, _, by rw [parseValue], g.1, ?_, ?_⟩, ?_⟩
    · exact g.2.1
    · exact g.2.2.1
    · simp [kindsOk, numbersOk]
  | Expr.OtherExpr, h => by
    refine ⟨fun hk _ => ?_, fun _ => by rw [parseValue]⟩
    simp [kindsOk] at hk
  | Expr.NumberExpr s, h => by
    cases hp : pf s with
    | none =>
      refine ⟨fun _ hn => ?_, fun _ => by rw [parseValue]; simp [hp]⟩
      simp [numbersOk, hp] at hn
    | some num =>
      have g := growAt_newValue h { Typ := LuaType.TypeNumber, value := Payload.float64 num }
      refine ⟨fun _ _ => ⟨_, _, by rw [parseValue]; simp only [hp]; rfl, g.1, ?_, ?_⟩, ?_⟩
      · exact g.2.1
      · exact g.2.2.1
      · simp [kindsOk, numbersOk, hp]
  | Expr.AttrGetExpr o k, h => by
    cases ho : valueOf o with
    | none =>
      refine ⟨fun hk _ => ?_, fun _ => by rw [parseValue]; simp [ho]⟩
      simp [kindsOk, ← valueOf_isSome, ho] at hk
    | some obj =>
      cases hkk : valueOf k with
      | none =>
        refine ⟨fun hk _ => ?_, fun _ => by rw [parseValue]; simp [ho, hkk]⟩
        simp [kindsOk, ← valueOf_isSome, hkk] at hk
      | some key =>
        have g := growAt_newValue h
          { Typ := LuaType.TypeVariable, value := Payload.string (obj ++ "." ++ key) }
        refine ⟨fun _ _ => ⟨_, _, by rw [parseValue]; simp only [ho, hkk]; rfl, g.1, ?_, ?_⟩, ?_⟩
        · exact g.2.1
        · exact g.2.2.1
        · simp [kindsOk, numbersOk, ← valueOf_isSome, ho, hkk]
  | Expr.TableExpr fields, h => by
    have hinv : TableInv { h with tabs := h.tabs ++ [NewTable] } h.tabs.length h.vals.length :=
      ⟨Nat.le_refl _, NewTable, by simp, by simp [NewTable]⟩
    have ih := parseFields_spec pf fields { h with tabs := h.tabs ++ [NewTable] }
      h.tabs.length h.vals.length hinv
    constructor
    · intro hk hn
      rw [kindsOk] at hk
      rw [numbersOk] at hn
      obtain ⟨h1, hrun, g1, hinv1⟩ := ih.1 hk hn
      have g := growAt_newValue h1
        { Typ := LuaType.TypeTable, value := Payload.table h.tabs.length }
      refine ⟨_, _, by rw [parseValue]; simp only [hrun]; rfl, ?_, ?_, ?_⟩
      · refine ⟨?_, ?_, ?_, ?_⟩
        · intro i hi
          exact (g.1.1 i (Nat.lt_of_lt_of_le hi g1.2.2.1)).trans (g1.1 i hi)
        · intro i hi
          have h0 : ({ h with tabs := h.tabs ++ [NewTable] } : Heap).tabs[i]? = h.tabs[i]? := by
            simp [List.getElem?_append_left hi]
          exact ((g.1.2.1 i (Nat.lt_of_lt_of_le
            (Nat.lt_of_lt_of_le hi (by simp)) g1.2.2.2)).trans (g1.2.1 i hi)).trans h0
        · exact Nat.le_trans g1.2.2.1 g.1.2.2.1
        · exact Nat.le_trans (Nat.le_trans (by simp) g1.2.2.2) g.1.2.2.2
      · exact Nat.le_trans g1.2.2.1 g.2.1
      · exact g.2.2.1
    · intro hbad
      rw [kindsOk, numbersOk] at hbad
      rw [parseValue]
      simp only [ih.2 hbad]
theorem parseFields_spec (pf : String → Option Float64) :
    ∀ (fields : List Field) (h : Heap) (t : TRef) (nv : Nat), TableInv h t nv →
      (fieldsKindsOk fields = true → fieldsNumbersOk pf fields = true →
        ∃ h', parseFields pf h t fields = Res.ok h' ∧ GrowAt nv t h h' ∧ TableInv h' t nv) ∧
      ((fieldsKindsOk fields = false ∨ fieldsNumbersOk pf fields = false) →
        parseFields pf h t fields = Res.error)
  | [], h, t, nv, hinv => by
    refine ⟨fun _ _ => ⟨h, by rw [parseFields], growAt_refl _ _ _, hinv⟩, ?_⟩
    simp [fieldsKindsOk, fieldsNumbersOk]
  | field :: rest, h, t, nv, hinv => by
    have ih1 := parseField_spec pf field h t nv hinv
    constructor
    · intro hk hn
      rw [fieldsKindsOk, Bool.and_eq_true] at hk
      rw [fieldsNumbersOk, Bool.and_eq_true] at hn
      obtain ⟨h1, hrun1, g1, hinv1⟩ := ih1.1 hk.1 hn.1
      obtain ⟨h2, hrun2, g2, hinv2⟩ := (parseFields_spec pf rest h1 t nv hinv1).1 hk.2 hn.2
      exact ⟨h2, by rw [parseFields]; simp only [hrun1, hrun2], growAt_trans g1 g2, hinv2⟩
    · intro hbad
      rw [parseFields]
      cases hk1 : fieldKindsOk field with
      | false => simp only [ih1.2 (Or.inl hk1)]
      | true =>
        cases hn1 : fieldNumbersOk pf field with
        | false => simp only [ih1.2 (Or.inr hn1)]
        | true =>
          obtain ⟨h1, hrun1, _, hinv1⟩ := ih1.1 hk1 hn1
          simp only [hrun1]
          apply (parseFields_spec pf rest h1 t nv hinv1).2
          rw [fieldsKindsOk, fieldsNumbersOk, hk1, hn1] at hbad
          simpa using hbad
theorem parseField_spec (pf : String → Option Float64) :
    ∀ (field : Field) (h : Heap) (t : TRef) (nv : Nat), TableInv h t nv →
      (fieldKindsOk field = true → fieldNumbersOk pf field = true →
        ∃ h', parseField pf h t field = Res.ok h' ∧ GrowAt nv t h h' ∧ TableInv h' t nv) ∧
      ((fieldKindsOk field = false ∨ fieldNumbersOk pf field = false) →
        parseField pf h t field = Res.error)
  | Field.mk key value, h, t, nv, hinv => by
    have ihv := parseValue_spec pf value h
    have htlt : t < h.tabs.length := by
      obtain ⟨_, tab, ht, _⟩ := hinv
      exact tabs_lt_of_getElem? _ _ _ ht
    cases hkv : kindsOk value with
    | false =>
      refine ⟨fun hk _ => ?_, fun _ => ?_⟩
      · simp [fieldKindsOk, hkv] at hk
      · rw [parseField]; simp only [ihv.2 (Or.inl hkv)]
    | true =>
      cases hnv : numbersOk pf value with
      | false =>
        refine ⟨fun _ hn => ?_, fun _ => ?_⟩
        · simp [fieldNumbersOk, hnv] at hn
        · rw [parseField]; simp only [ihv.2 (Or.inr hnv)]
      | true =>
        obtain ⟨h1, v, hrun, g, hv1, hv2⟩ := ihv.1 hkv hnv
        have hinv1 : TableInv h1 t nv := tableInv_grow hinv g
        have g' : GrowAt nv t h h1 := growAt_mono g hinv.1 (Nat.le_of_lt htlt)
        have hnvv : nv ≤ v := Nat.le_trans hinv.1 hv1
        cases key with
        | none =>
          obtain ⟨h2, hadd, g2, hinv2, _⟩ := addField_inv h1 t nv "" v hinv1 hnvv hv2
          refine ⟨fun _ _ => ⟨h2, ?_, growAt_trans g' g2, hinv2⟩, fun hbad => ?_⟩
          · rw [parseField]; simp only [hrun, hadd]
          · simp [fieldKindsOk, fieldNumbersOk, hkv, hnv] at hbad
        | some k =>
          cases hpk : parseKey k with
          | none =>
            have hkk : keyKindOk k = false := by rw [← parseKey_isSome, hpk]; rfl
            refine ⟨fun hk _ => ?_, fun _ => ?_⟩
            · simp [fieldKindsOk, hkv, hkk] at hk
            · rw [parseField]; simp only [hrun, hpk]
          | some ks =>
            have hkk : keyKindOk k = true := by rw [← parseKey_isSome, hpk]; rfl
            obtain ⟨h2, hadd, g2, hinv2, _⟩ := addField_inv h1 t nv ks v hinv1 hnvv hv2
            refine ⟨fun _ _ => ⟨h2, ?_, growAt_trans g' g2, hinv2⟩, fun hbad => ?_⟩
            · rw [parseField]; simp only [hrun, hpk, hadd]
            · simp [fieldKindsOk, fieldNumbersOk, hkv, hnv, hkk] at hbad
end

/-! ## The converter: the names of the entries -/

theorem lookup_filter_ne (m : List (String × Nat)) (k key : String) (hne : key ≠ k) :
    List.lookup key (m.filter (fun p => p.1 != k)) = List.lookup key m := by
  induction m with
  | nil => rfl
  | cons p rest ih =>
    obtain ⟨a, b⟩ := p
    by_cases hak : a = k
    · subst hak
      have h1 : (key == a) = false := by simpa using hne
      simp [List.filter, List.lookup, h1, ih]
    · have h2 : (a != k) = true := by simpa using hak
      simp only [List.filter, h2, List.lookup]
      cases hka : key == a
      · simpa using ih
      · rfl

theorem mapGet_mapSet (m : List (String × Nat)) (k key : String) (v : Nat) :
    mapGet (mapSet m k v) key = if key = k then some v else mapGet m key := by
  unfold mapGet mapSet
  by_cases h : key = k
  · subst h
    simp [List.lookup]
  · have h1 : (key == k) = false := by simpa using h
    simp only [List.lookup, h1, h, if_false]
    exact lookup_filter_ne m k key h

theorem lookupIndex_none_iff (tab : Table) (hok : IndexOK tab) (key : String) :
    tab.lookupIndex key = none ↔ key ∉ tab.values.map NamedValue.Name := by
  rw [← hok.2 key]
  unfold Table.lookupIndex
  cases hg : mapGet tab.index key with
  | none => simp
  | some i =>
    have hlt := hok.1 key i hg
    simp [hlt, List.getElem?_eq_getElem hlt]

theorem Get_none_of_not_resolves (tab : Table) (hok : IndexOK tab) (key : String)
    (hres : resolvesIn (tab.values.map NamedValue.Name) key = false) : tab.Get key = none := by
  unfold resolvesIn at hres
  rw [Bool.or_eq_false_iff] at hres
  have h1 : tab.lookupIndex key = none := by
    rw [lookupIndex_none_iff tab hok]
    simpa using hres.1
  unfold Table.Get
  rw [h1]
  simp only
  cases ha : Atoi (TrimPrefix (TrimSuffix key "]") "[") with
  | none => rfl
  | some k =>
    simp only
    rw [lookupIndex_none_iff tab hok]
    have := hres.2
    rw [ha] at this
    simpa using this

theorem indexOK_append (tab : Table) (hok : IndexOK tab) (name : String) (v : VRef)
    (hne : name ≠ "") : IndexOK (tab.append name v) ∧
      (tab.append name v).values.map NamedValue.Name
        = tab.values.map NamedValue.Name ++ [name] ∧
      (tab.append name v).currentIndex = tab.currentIndex := by
  refine ⟨⟨?_, ?_⟩, by simp [Table.append, hne], by simp [Table.append, hne]⟩
  · intro key i hg
    simp only [Table.append, hne, if_false, mapGet_mapSet] at hg ⊢
    by_cases hk : key = name
    · simp only [hk, if_true, Option.some.injEq] at hg
      subst hg
      simp
    · simp only [hk, if_false] at hg
      have := hok.1 key i hg
      simp
      omega
  · intro key
    simp only [Table.append, hne, if_false, mapGet_mapSet]
    by_cases hk : key = name
    · simp [hk]
    · simp only [hk, if_false, hok.2 key]
      simp [hk]

theorem indexOK_append_unnamed (tab : Table) (hok : IndexOK tab) (v : VRef) :
    IndexOK (tab.append "" v) ∧
      (tab.append "" v).values.map NamedValue.Name
        = tab.values.map NamedValue.Name ++ [formatIndex ((tab.currentIndex + 1 : Nat) : Int)] ∧
      (tab.append "" v).currentIndex = tab.currentIndex + 1 := by
  refine ⟨⟨?_, ?_⟩, by simp [Table.append], by simp [Table.append]⟩
  · intro key i hg
    simp only [Table.append, if_true, mapGet_mapSet] at hg ⊢
    by_cases hk : key = formatIndex ((tab.currentIndex + 1 : Nat) : Int)
    · simp only [hk, if_true, Option.some.injEq] at hg
      subst hg
      simp
    · simp only [hk, if_false] at hg
      have := hok.1 key i hg
      simp
      omega
  · intro key
    simp only [Table.append, if_true, mapGet_mapSet]
    by_cases hk : key = formatIndex ((tab.currentIndex + 1 : Nat) : Int)
    · simp [hk]
    · simp only [hk, if_false, hok.2 key]
      push_cast at hk
      simp [hk]

theorem parseValue_ok_grow (pf : String → Option Float64) (e : Expr) (h h1 : Heap) (v : VRef)
    (hrun : parseValue pf h e = Res.ok (h1, v)) :
    GrowAt h.vals.length h.tabs.length h h1 ∧ h.vals.length ≤ v ∧ v < h1.vals.length := by
  have hs := parseValue_spec pf e h
  cases hk : kindsOk e with
  | false =>
    rw [hs.2 (Or.inl hk)] at hrun
    cases hrun
  | true =>
    cases hn : numbersOk pf e with
    | false =>
      rw [hs.2 (Or.inr hn)] at hrun
      cases hrun
    | true =>
      obtain ⟨h2, v2, hrun2, g, hv1, hv2⟩ := hs.1 hk hn
      rw [hrun2] at hrun
      cases hrun
      exact ⟨g, hv1, hv2⟩

theorem addField_append (h : Heap) (t : TRef) (tab : Table) (name : String) (v : VRef)
    (ht : h.tabs[t]? = some tab) (hget : tab.Get name = none) :
    addField h t name v = Res.ok { h with tabs := h.tabs.set t (tab.append name v) } ∧
      ({ h with tabs := h.tabs.set t (tab.append name v) } : Heap).tabs[t]?
        = some (tab.append name v) := by
  have htlt := tabs_lt_of_getElem? _ _ _ ht
  constructor
  · simp [addField, Table.AddOrReplace, ht, hget]
  · simp [List.getElem?_set, htlt]

theorem parseFields_names (pf : String → Option Float64) (t : TRef) (nv : Nat) :
    ∀ (fields : List Field) (h h' : Heap) (tab : Table), TableInv h t nv →
      h.tabs[t]? = some tab → IndexOK tab → "" ∉ tab.values.map NamedValue.Name →
      parseFields pf h t fields = Res.ok h' →
      NoClash (tab.values.map NamedValue.Name) tab.currentIndex fields = true →
      ∃ tab', h'.tabs[t]? = some tab' ∧
        tab'.values.map NamedValue.Name
          = tab.values.map NamedValue.Name ++ expectedNames tab.currentIndex fields ∧
        tab'.currentIndex = tab.currentIndex + unkeyedFields fields := by
  intro fields
  induction fields with
  | nil =>
    intro h h' tab _ ht _ _ hrun _
    rw [parseFields] at hrun
    cases hrun
    exact ⟨tab, ht, by simp [expectedNames], by simp [unkeyedFields]⟩
  | cons field rest ih =>
    intro h h' tab hinv ht hok hemp hrun hnc
    have htlt := tabs_lt_of_getElem? _ _ _ ht
    obtain ⟨key, value⟩ := field
    rw [parseFields] at hrun
    cases hpf : parseField pf h t (Field.mk key value) with
    | error => simp [hpf] at hrun
    | diverge => simp [hpf] at hrun
    | ok h2 =>
      simp only [hpf] at hrun
      rw [parseField] at hpf
      cases hpv : parseValue pf h value with
      | error => simp [hpv] at hpf
      | diverge => simp [hpv] at hpf
      | ok r =>
        obtain ⟨h1, v⟩ := r
        simp only [hpv] at hpf
        obtain ⟨g, hv1, hv2⟩ := parseValue_ok_grow pf value h h1 v hpv
        have hinv1 : TableInv h1 t nv := tableInv_grow hinv g
        have ht1 : h1.tabs[t]? = some tab := (g.2.1 t htlt).trans ht
        have hnvv : nv ≤ v := Nat.le_trans hinv.1 hv1
        cases key with
        | none =>
          simp only at hpf
          have hget : tab.Get "" = none := by
            apply Get_none_of_not_resolves tab hok
            have hA : Atoi (TrimPrefix (TrimSuffix "" "]") "[") = none := by decide
            simp only [resolvesIn, hA, Bool.or_false]
            simpa using hemp
          obtain ⟨hadd, ht2⟩ := addField_append h1 t tab "" v ht1 hget
          rw [hadd] at hpf
          cases hpf
          obtain ⟨hok2, hnames2, hci2⟩ := indexOK_append_unnamed tab hok v
          obtain ⟨h2', hadd', _, hinv2, _⟩ := addField_inv h1 t nv "" v hinv1 hnvv hv2
          rw [hadd] at hadd'
          cases hadd'
          simp only [NoClash] at hnc
          rw [← hnames2, ← hci2] at hnc
          have hemp2 : "" ∉ (tab.append "" v).values.map NamedValue.Name := by
            rw [hnames2]
            simp only [List.mem_append, List.mem_singleton, not_or]
            exact ⟨hemp, fun e => formatIndex_ne_empty _ e.symm⟩
          obtain ⟨tab', ht', hn', hc'⟩ := ih _ h' _ hinv2 ht2 hok2 hemp2 hrun hnc
          refine ⟨tab', ht', ?_, ?_⟩
          · rw [hn', hnames2, hci2]
            simp [expectedNames]
          · rw [hc', hci2]
            simp [unkeyedFields, Field.Key]
            omega
        | some k =>
          simp only [NoClash] at hnc
          cases hpk : parseKey k with
          | none => simp [hpk] at hnc
          | some ks =>
            simp only [hpk, Bool.and_eq_true, bne_iff_ne, ne_eq, Bool.not_eq_true'] at hnc hpf
            obtain ⟨⟨hne, hres⟩, hnc'⟩ := hnc
            have hget : tab.Get ks = none := Get_none_of_not_resolves tab hok ks hres
            obtain ⟨hadd, ht2⟩ := addField_append h1 t tab ks v ht1 hget
            rw [hadd] at hpf
            cases hpf
            obtain ⟨hok2, hnames2, hci2⟩ := indexOK_append tab hok ks v hne
            obtain ⟨h2', hadd', _, hinv2, _⟩ := addField_inv h1 t nv ks v hinv1 hnvv hv2
            rw [hadd] at hadd'
            cases hadd'
            rw [← hnames2, ← hci2] at hnc'
            have hemp2 : "" ∉ (tab.append ks v).values.map NamedValue.Name := by
              rw [hnames2]
              simp only [List.mem_append, List.mem_singleton, not_or]
              exact ⟨hemp, fun e => hne e.symm⟩
            obtain ⟨tab', ht', hn', hc'⟩ := ih _ h' _ hinv2 ht2 hok2 hemp2 hrun hnc'
            refine ⟨tab', ht', ?_, ?_⟩
            · rw [hn', hnames2, hci2]
              simp [expectedNames, hpk]
            · rw [hc', hci2]
              simp [unkeyedFields, Field.Key]

/-! ## The converter: claims -/

theorem findTable_skip (stmt : Stmt) (rest : List Stmt) (n : String)
    (hwf : ∀ lhs rhs, stmt = Stmt.AssignStmt lhs rhs → lhs ≠ [] ∧ rhs ≠ [])
    (hno : ∀ f, ¬ IsTableAssign n stmt f) :
    findTable (stmt :: rest) n = findTable rest n := by
  cases stmt with
  | OtherStmt => simp [findTable]
  | AssignStmt lhs rhs =>
    obtain ⟨hl, hr⟩ := hwf lhs rhs rfl
    cases lhs with
    | nil => exact absurd rfl hl
    | cons lhs0 lt =>
      cases rhs with
      | nil => exact absurd rfl hr
      | cons rhs0 rt =>
        cases lhs0 with
        | IdentExpr value =>
          by_cases hv : value = n
          · subst hv
            cases rhs0 with
            | TableExpr fields => exact absurd ⟨lt, rt, rfl⟩ (hno fields)
            | _ => simp [findTable]
          · simp [findTable, hv]
        | _ => simp [findTable]

theorem findTable_hit (stmt : Stmt) (rest : List Stmt) (n : String) (fields : List Field)
    (h : IsTableAssign n stmt fields) : findTable (stmt :: rest) n = Res.ok fields := by
  obtain ⟨lhs, rhs, rfl⟩ := h
  simp [findTable]

theorem isTableAssign_unique (n : String) (stmt : Stmt) (f g : List Field)
    (hf : IsTableAssign n stmt f) (hg : IsTableAssign n stmt g) : f = g := by
  obtain ⟨l1, r1, e1⟩ := hf
  obtain ⟨l2, r2, e2⟩ := hg
  rw [e1] at e2
  injection e2 with _ hr
  injection hr with hh _
  injection hh

theorem findTable_spec (n : String) :
    ∀ chunk : List Stmt, WellFormedChunk chunk →
      ((∀ s ∈ chunk, ∀ f, ¬ IsTableAssign n s f) ∧ findTable chunk n = Res.error) ∨
      (∃ pre stmt post fields, chunk = pre ++ stmt :: post ∧ IsTableAssign n stmt fields ∧
        (∀ s ∈ pre, ∀ f, ¬ IsTableAssign n s f) ∧ findTable chunk n = Res.ok fields) := by
  intro chunk
  induction chunk with
  | nil => intro _; exact Or.inl ⟨by simp, by rw [findTable]⟩
  | cons stmt rest ih =>
    intro hwf
    have hwfr : WellFormedChunk rest := fun l r hm => hwf l r (List.mem_cons_of_mem _ hm)
    have hwfs : ∀ lhs rhs, stmt = Stmt.AssignStmt lhs rhs → lhs ≠ [] ∧ rhs ≠ [] :=
      fun l r e => hwf l r (e ▸ List.mem_cons_self _ _)
    by_cases hm : ∃ f, IsTableAssign n stmt f
    · obtain ⟨f, hf⟩ := hm
      exact Or.inr ⟨[], stmt, rest, f, rfl, hf, by simp, findTable_hit stmt rest n f hf⟩
    · have hno : ∀ f, ¬ IsTableAssign n stmt f := fun f hf => hm ⟨f, hf⟩
      rw [findTable_skip stmt rest n hwfs hno]
      rcases ih hwfr with ⟨hall, herr⟩ | ⟨pre, s, post, f, hc, hf, hpre, hok⟩
      · refine Or.inl ⟨?_, herr⟩
        intro s hs
        rcases List.mem_cons.mp hs with rfl | hs
        · exact hno
        · exact hall s hs
      · refine Or.inr ⟨stmt :: pre, s, post, f, by simp [hc], hf, ?_, hok⟩
        intro s' hs'
        rcases List.mem_cons.mp hs' with rfl | hs'
        · exact hno
        · exact hpre s' hs'

theorem findTable_of_first (n : String) (stmt : Stmt) (post : List Stmt) (fields : List Field)
    (hf : IsTableAssign n stmt fields) :
    ∀ pre : List Stmt, WellFormedChunk (pre ++ stmt :: post) →
      (∀ s ∈ pre, ∀ f, ¬ IsTableAssign n s f) →
      findTable (pre ++ stmt :: post) n = Res.ok fields := by
  intro pre
  induction pre with
  | nil => intro _ _; exact findTable_hit stmt post n fields hf
  | cons s rest ih =>
    intro hwf hpre
    rw [List.cons_append, findTable_skip s _ n
      (fun l r e => hwf l r (e ▸ List.mem_cons_self _ _)) (hpre s (List.mem_cons_self _ _))]
    exact ih (fun l r hm => hwf l r (List.mem_cons_of_mem _ hm))
      (fun s' hs' => hpre s' (List.mem_cons_of_mem _ hs'))

/-- Claim C16. For a chunk in which every assignment has a left-hand side and
a right-hand side, `findTable` returns the fields of a table literal exactly
when that literal is the first right-hand side of the first statement, in file
order, that assigns a table literal to the identifier `n` (statements before
it, among them assignments of something else to `n`, are passed over); it
returns the not-found error exactly when no statement is such an assignment;
and it always returns. -/
theorem findTable_first_match (chunk : List Stmt) (n : String) (hwf : WellFormedChunk chunk) :
    (∀ fields, findTable chunk n = Res.ok fields ↔
      ∃ pre stmt post, chunk = pre ++ stmt :: post ∧ IsTableAssign n stmt fields ∧
        ∀ s ∈ pre, ∀ f, ¬ IsTableAssign n s f) ∧
    (findTable chunk n = Res.error ↔ ∀ s ∈ chunk, ∀ f, ¬ IsTableAssign n s f) ∧
    findTable chunk n ≠ Res.diverge := by
  refine ⟨?_, ?_, ?_⟩
  · intro fields
    constructor
    · intro hrun
      rcases findTable_spec n chunk hwf with ⟨_, herr⟩ | ⟨pre, s, post, f, hc, hf, hpre, hok⟩
      · rw [herr] at hrun
        cases hrun
      · rw [hok] at hrun
        cases hrun
        exact ⟨pre, s, post, hc, hf, hpre⟩
    · rintro ⟨pre, s, post, hc, hf, hpre⟩
      subst hc
      exact findTable_of_first n s post fields hf pre hwf hpre
  · constructor
    · intro hrun
      rcases findTable_spec n chunk hwf with ⟨hall, _⟩ | ⟨_, _, _, _, _, _, _, hok⟩
      · exact hall
      · rw [hok] at hrun
        cases hrun
    · intro hall
      rcases findTable_spec n chunk hwf with ⟨_, herr⟩ | ⟨pre, s, post, f, hc, hf, _, _⟩
      · exact herr
      · exact absurd hf (hall s (by rw [hc]; simp) f)
  · rcases findTable_spec n chunk hwf with ⟨_, herr⟩ | ⟨_, _, _, _, _, _, _, hok⟩
    · rw [herr]
      exact fun e => by cases e
    · rw [hok]
      exact fun e => by cases e

/-- Witness for claim C16: in `local x = 1; T = "no"; U = {}; T = {nil}; T = {}`
the table found for `T` is `{nil}`, the fourth statement, and no table is found
for `V`. -/
theorem findTable_first_match_witness :
    WellFormedChunk exChunk ∧
    findTable exChunk "T" = Res.ok [Field.mk none Expr.NilExpr] ∧
    findTable exChunk "V" = Res.error := by
  have hwf : WellFormedChunk exChunk := by
    intro lhs rhs hm
    simp only [exChunk, List.mem_cons, List.mem_singleton, List.not_mem_nil, or_false] at hm
    rcases hm with hm | hm | hm | hm | hm <;> cases hm <;> simp
  have hT := findTable_first_match exChunk "T" hwf
  have hV := findTable_first_match exChunk "V" hwf
  refine ⟨hwf, ?_, ?_⟩
  · apply (hT.1 _).2
    refine ⟨[Stmt.OtherStmt, Stmt.AssignStmt [Expr.IdentExpr "T"] [Expr.StringExpr "no"],
      Stmt.AssignStmt [Expr.IdentExpr "U"] [Expr.TableExpr []]], _,
      [Stmt.AssignStmt [Expr.IdentExpr "T"] [Expr.TableExpr []]], rfl, ⟨[], [], rfl⟩, ?_⟩
    intro s hs f hf
    obtain ⟨l, r, e⟩ := hf
    simp only [List.mem_cons, List.mem_singleton, List.not_mem_nil, or_false] at hs
    rcases hs with rfl | rfl | rfl
    · cases e
    · cases e
    · injection e with e1 _
      injection e1 with e2 _
      injection e2 with e3
      exact absurd e3 (by decide)
  · apply hV.2.1.2
    intro s hs f hf
    obtain ⟨l, r, e⟩ := hf
    simp only [exChunk, List.mem_cons, List.mem_singleton, List.not_mem_nil, or_false] at hs
    rcases hs with rfl | rfl | rfl | rfl | rfl
    · cases e
    · injection e with e1 _
      injection e1 with e2 _
      injection e2 with e3
      exact absurd e3 (by decide)
    · injection e with e1 _
      injection e1 with e2 _
      injection e2 with e3
      exact absurd e3 (by decide)
    · injection e with e1 _
      injection e1 with e2 _
      injection e2 with e3
      exact absurd e3 (by decide)
    · injection e with e1 _
      injection e1 with e2 _
      injection e2 with e3
      exact absurd e3 (by decide)

theorem expectedNames_length :
    ∀ (fields : List Field) (c : Nat), (expectedNames c fields).length = fields.length := by
  intro fields
  induction fields with
  | nil => intro c; rfl
  | cons f rest ih =>
    intro c
    obtain ⟨key, value⟩ := f
    cases key <;> simp [expectedNames, ih]

theorem indexOK_new : IndexOK NewTable :=
  ⟨by intro key i h; simp [NewTable, mapGet] at h, by intro key; simp [NewTable, mapGet]⟩

/-- The literal `{ "a", [1] = "b" }` writes the key `1` twice.  The unkeyed
field is entered as `[1]`; the number key of the second field has the string
form `[1]`, which resolves to that entry, so the second field replaces its
value: the table has one entry for two fields. -/
theorem parseTable_fewer_entries_than_fields :
    exLiteralClash.length = 2 ∧
    ∃ h' tab, parseTable exParseFloat exNoHeap exLiteralClash = Res.ok (h', 0) ∧
      h'.tabs[0]? = some tab ∧
      tab.values = [{ Name := "[1]", Value := 0 }] ∧
      h'.vals[0]? = some { Typ := LuaType.TypeString, value := Payload.value 1 } :=
  ⟨by decide,
   { vals := [{ Typ := LuaType.TypeString, value := Payload.value 1 }, strValue "b"],
     tabs := [NewTable.append "" 0] },
   NewTable.append "" 0, by decide, by decide, by decide, by decide⟩

/-- Where the entries follow the fields one-to-one.  When all fields convert
and no keyed field has an empty key string or a key string that resolves, when
the field is inserted, to an entry inserted before it, `parseTable` returns a
new table whose entries are named, in field order, by the string form of the
key for a keyed field and by `[i]` for the `i`-th unkeyed field, and the
positional counter is the number of unkeyed fields. -/
theorem parseTable_names (pf : String → Option Float64) (h : Heap) (fields : List Field)
    (hk : fieldsKindsOk fields = true) (hn : fieldsNumbersOk pf fields = true)
    (hnc : NoClash [] 0 fields = true) :
    ∃ h' t tab, parseTable pf h fields = Res.ok (h', t) ∧ h'.tabs[t]? = some tab ∧
      tab.values.map NamedValue.Name = expectedNames 0 fields ∧
      tab.values.length = fields.length ∧
      tab.currentIndex = unkeyedFields fields := by
  have hinv : TableInv { h with tabs := h.tabs ++ [NewTable] } h.tabs.length h.vals.length :=
    ⟨Nat.le_refl _, NewTable, by simp, by simp [NewTable]⟩
  have ht0 : ({ h with tabs := h.tabs ++ [NewTable] } : Heap).tabs[h.tabs.length]?
      = some NewTable := by simp
  obtain ⟨h1, hrun, _, _⟩ :=
    (parseFields_spec pf fields _ h.tabs.length h.vals.length hinv).1 hk hn
  obtain ⟨tab, ht, hnames, hci⟩ := parseFields_names pf h.tabs.length h.vals.length fields
    _ h1 NewTable hinv ht0 indexOK_new (by simp [NewTable]) hrun (by simpa [NewTable] using hnc)
  refine ⟨h1, h.tabs.length, tab, by simp only [parseTable, hrun], ht, ?_, ?_, ?_⟩
  · simpa [NewTable] using hnames
  · have := congrArg List.length hnames
    simpa [NewTable, expectedNames_length] using this
  · simpa [NewTable] using hci

/-- The literal `{ name = "x", true, [7] = { 1 }, ["a.b"] = y, z }` yields the
entries `name`, `[1]`, `[7]`, `["a.b"]`, `[2]`. -/
theorem parseTable_names_witness :
    fieldsKindsOk exLiteral = true ∧ fieldsNumbersOk exParseFloat exLiteral = true ∧
    NoClash [] 0 exLiteral = true ∧
    expectedNames 0 exLiteral = ["name", "[1]", "[7]", "[\"a.b\"]", "[2]"] ∧
    ∃ h' t tab, parseTable exParseFloat exNoHeap exLiteral = Res.ok (h', t) ∧
      h'.tabs[t]? = some tab ∧
      tab.values.map NamedValue.Name = expectedNames 0 exLiteral ∧
      tab.values.length = exLiteral.length ∧
      tab.currentIndex = unkeyedFields exLiteral :=
  ⟨by decide, by decide, by decide, by decide,
   parseTable_names exParseFloat exNoHeap exLiteral (by decide) (by decide) (by decide)⟩

/-- Claim C17: the claim fails on the code.  In `{ [""] = "e", "p" }` the keyed
field has the key string `""`, which `AddOrReplace` takes for the mark of an
unkeyed field: its entry is auto-named `[1]` and the unkeyed field becomes
`[2]`, where the claim names them `""` and `[1]`.  In `{ "a", ["1"] = "b" }` the
string key `1` is resolved by `Get` to the positional entry `[1]`, whose value
is replaced: one entry for two fields with different keys, reading `b`.  The
same two fields in the other order, `{ ["1"] = "b", "a" }`, give the two
entries `1` and `[1]`. -/
theorem parseTable_keyed_field_auto_named_or_lost :
    (fieldsKindsOk exLiteralEmptyKey = true ∧
      expectedNames 0 exLiteralEmptyKey = ["", "[1]"] ∧
      ∃ h' tab, parseTable exParseFloat exNoHeap exLiteralEmptyKey = Res.ok (h', 0) ∧
        h'.tabs[0]? = some tab ∧
        tab.values.map NamedValue.Name = ["[1]", "[2]"] ∧
        (tab.Get "[1]").map (Value.String h') = some (Res.ok "e")) ∧
    (fieldsKindsOk exLiteralStringKey = true ∧
      expectedNames 0 exLiteralStringKey = ["[1]", "1"] ∧
      ∃ h' tab, parseTable exParseFloat exNoHeap exLiteralStringKey = Res.ok (h', 0) ∧
        h'.tabs[0]? = some tab ∧
        tab.values.map NamedValue.Name = ["[1]"] ∧
        (tab.Get "[1]").map (Value.String h') = some (Res.ok "b")) ∧
    (∃ h' tab, parseTable exParseFloat exNoHeap exLiteralStringKeyFirst = Res.ok (h', 0) ∧
        h'.tabs[0]? = some tab ∧
        tab.values.map NamedValue.Name = ["1", "[1]"]) :=
  ⟨⟨by decide, by decide,
    { vals := [strValue "e", strValue "p"],
      tabs := [(NewTable.append "" 0).append "" 1] },
    (NewTable.append "" 0).append "" 1, by decide, by decide, by decide, by decide⟩,
   ⟨by decide, by decide,
    { vals := [{ Typ := LuaType.TypeString, value := Payload.value 1 }, strValue "b"],
      tabs := [NewTable.append "" 0] },
    NewTable.append "" 0, by decide, by decide, by decide, by decide⟩,
   ⟨{ vals := [strValue "b", strValue "a"],
      tabs := [(NewTable.append "1" 0).append "" 1] },
    (NewTable.append "1" 0).append "" 1, by decide, by decide, by decide⟩⟩

/-- Claim C18. `parseTable` returns an error, and no table, whenever some
field, at any depth of table-valued fields, has a value or a key of an
unsupported kind; it also returns an error when all kinds are supported and
some number that is a field value has a text that `ParseFloat` rejects; and
when all kinds are supported and all such numbers are accepted it returns a
new table, leaving the objects that were in the heap as they were. -/
theorem parseTable_converts (pf : String → Option Float64) (h : Heap) (fields : List Field) :
    (fieldsKindsOk fields = false → parseTable pf h fields = Res.error) ∧
    (fieldsKindsOk fields = true → fieldsNumbersOk pf fields = false →
      parseTable pf h fields = Res.error) ∧
    (fieldsKindsOk fields = true → fieldsNumbersOk pf fields = true →
      ∃ h' tab, parseTable pf h fields = Res.ok (h', h.tabs.length) ∧
        h'.tabs[h.tabs.length]? = some tab ∧
        GrowAt h.vals.length h.tabs.length h h') := by
  have hinv : TableInv { h with tabs := h.tabs ++ [NewTable] } h.tabs.length h.vals.length :=
    ⟨Nat.le_refl _, NewTable, by simp, by simp [NewTable]⟩
  have hs := parseFields_spec pf fields _ h.tabs.length h.vals.length hinv
  refine ⟨fun hk => ?_, fun _ hn => ?_, fun hk hn => ?_⟩
  · simp only [parseTable, hs.2 (Or.inl hk)]
  · simp only [parseTable, hs.2 (Or.inr hn)]
  · obtain ⟨h1, hrun, g, hinv1⟩ := hs.1 hk hn
    obtain ⟨_, tab, ht, _⟩ := hinv1
    refine ⟨h1, tab, by simp only [parseTable, hrun], ht, g.1, ?_, g.2.2.1, ?_⟩
    · intro i hi
      have h0 : ({ h with tabs := h.tabs ++ [NewTable] } : Heap).tabs[i]? = h.tabs[i]? := by
        simp [List.getElem?_append_left hi]
      exact (g.2.1 i hi).trans h0
    · exact Nat.le_trans (by simp) g.2.2.2

/-- Witness for claim C18: `{ a = { f() } }` holds a function call one level
down and does not convert; `{ a = 2 }` holds a number that `exParseFloat`
rejects and does not convert; `{ name = "x", true, [7] = { 1 }, ["a.b"] = y, z }`
converts. -/
theorem parseTable_converts_witness :
    fieldsKindsOk exLiteralCall = false ∧
    parseTable exParseFloat exNoHeap exLiteralCall = Res.error ∧
    fieldsKindsOk exLiteralNumber = true ∧ fieldsNumbersOk exParseFloat exLiteralNumber = false ∧
    parseTable exParseFloat exNoHeap exLiteralNumber = Res.error ∧
    fieldsKindsOk exLiteral = true ∧ fieldsNumbersOk exParseFloat exLiteral = true ∧
    ∃ h' tab, parseTable exParseFloat exNoHeap exLiteral = Res.ok (h', exNoHeap.tabs.length) ∧
      h'.tabs[exNoHeap.tabs.length]? = some tab ∧
      GrowAt exNoHeap.vals.length exNoHeap.tabs.length exNoHeap h' :=
  ⟨by decide, (parseTable_converts exParseFloat exNoHeap exLiteralCall).1 (by decide),
   by decide, by decide,
   (parseTable_converts exParseFloat exNoHeap exLiteralNumber).2.1 (by decide) (by decide),
   by decide, by decide,
   (parseTable_converts exParseFloat exNoHeap exLiteral).2.2 (by decide) (by decide)⟩

/-! ## The text splicer: located spans -/

theorem lineEnd_bounds (i : Nat) :
    ∀ (s : Text) (j : Nat), i + 1 ≤ j → i + 1 ≤ lineEnd i j s ∧ lineEnd i j s ≤ j + s.length := by
  intro s
  induction s with
  | nil => intro j hj; simp only [lineEnd, List.length_nil]; omega
  | cons c rest ih =>
    intro j hj
    simp only [lineEnd, List.length_cons]
    split
    · omega
    · have := ih (j + 1) (by omega)
      omega

theorem scanEnd_bounds :
    ∀ (s : Text) (depth : Int) (inString escapeNext : Bool) (i e : Nat),
      scanEnd depth inString escapeNext i s = some e → i < e ∧ e ≤ i + s.length := by
  intro s
  induction s with
  | nil => intro depth inString escapeNext i e h; simp [scanEnd] at h
  | cons c rest ih =>
    intro depth inString escapeNext i e h
    have step : ∀ d a b, scanEnd d a b (i + 1) rest = some e →
        i < e ∧ e ≤ i + (c :: rest).length := by
      intro d a b h1
      have := ih d a b (i + 1) e h1
      simp only [List.length_cons]
      omega
    rw [scanEnd] at h
    split at h
    · exact step _ _ _ h
    · split at h
      · exact step _ _ _ h
      · split at h
        · exact step _ _ _ h
        · split at h
          · exact step _ _ _ h
          · split at h
            · exact step _ _ _ h
            · split at h
              · split at h
                · have hb := lineEnd_bounds i rest (i + 1) (Nat.le_refl _)
                  simp only [Option.some.injEq] at h
                  subst h
                  simp only [List.length_cons]
                  omega
                · exact step _ _ _ h
              · exact step _ _ _ h

theorem matchHere_bounds (name s : Text) (k : Nat) (h : matchHere name s = some k) :
    1 ≤ k ∧ k ≤ s.length := by
  unfold matchHere at h
  split at h
  · simp only at h
    split at h
    · split at h
      · rename_i hb
        simp only [Option.some.injEq] at h
        subst h
        have := (List.getElem?_eq_some_iff.1 hb).1
        omega
      · exact absurd h (by simp)
    · exact absurd h (by simp)
  · exact absurd h (by simp)

theorem FindStringIndex_bounds (name : Text) :
    ∀ (s : Text) (lineStart : Bool) (pos a b : Nat),
      FindStringIndex name lineStart pos s = some (a, b) →
      pos ≤ a ∧ a < b ∧ b ≤ pos + s.length := by
  intro s
  induction s with
  | nil =>
    intro lineStart pos a b h
    rw [FindStringIndex] at h
    split at h
    · rename_i k hk
      cases lineStart
      · simp at hk
      · simp only [if_true] at hk
        have := matchHere_bounds name [] k hk
        simp at this
        omega
    · exact absurd h (by simp)
  | cons c rest ih =>
    intro lineStart pos a b h
    rw [FindStringIndex] at h
    split at h
    · rename_i k hk
      cases lineStart
      · simp at hk
      · simp only [if_true] at hk
        have := matchHere_bounds name (c :: rest) k hk
        simp only [Option.some.injEq, Prod.mk.injEq] at h
        obtain ⟨h1, h2⟩ := h
        subst h1; subst h2
        omega
    · have := ih _ _ _ _ h
      simp only [List.length_cons]
      omega

theorem locate_spec (content : Text) (tableName : String) (p : TablePosition)
    (h : locate content tableName = some p) :
    p.Name = tableName ∧ p.StartPos < p.EndPos ∧ p.EndPos ≤ content.length := by
  unfold locate at h
  split at h
  · exact absurd h (by simp)
  · rename_i found hf
    obtain ⟨a, b⟩ := found
    have hb := FindStringIndex_bounds tableName.data content true 0 a b hf
    split at h
    · exact absurd h (by simp)
    · rename_i endPos he
      simp only [Option.some.injEq] at h
      subst h
      unfold findTableEndInContent at he
      have hs := scanEnd_bounds _ _ _ _ _ _ he
      simp only [List.length_drop] at hs
      simp only at hs ⊢
      refine ⟨trivial, ?_, ?_⟩ <;> omega

theorem mem_assocSet {α : Type} (m : List (String × α)) (k : String) (v : α) (x : String × α)
    (h : x ∈ assocSet m k v) : x = (k, v) ∨ x ∈ m := by
  unfold assocSet at h
  rcases List.mem_cons.1 h with h | h
  · exact Or.inl h
  · exact Or.inr (List.mem_filter.1 h).1

theorem lookup_filter_key {α : Type} (m : List (String × α)) (k key : String) (hne : key ≠ k) :
    List.lookup key (m.filter (fun p => p.1 != k)) = List.lookup key m := by
  induction m with
  | nil => rfl
  | cons p rest ih =>
    obtain ⟨a, b⟩ := p
    by_cases hak : a = k
    · subst hak
      have h2 : (key == a) = false := by simpa using hne
      simp [List.filter, List.lookup, h2, ih]
    · have h3 : (a != k) = true := by simpa using hak
      simp only [List.filter, h3, List.lookup]
      cases hka : key == a
      · exact ih
      · rfl

theorem assocGet_assocSet {α : Type} (m : List (String × α)) (k key : String) (v : α) :
    assocGet (assocSet m k v) key = if key = k then some v else assocGet m key := by
  unfold assocGet assocSet
  by_cases h : key = k
  · subst h
    simp [List.lookup]
  · have h1 : (key == k) = false := by simpa using h
    rw [if_neg h, List.lookup, h1]
    exact lookup_filter_key m k key h

/-- The fold of `FindTablePositions` from a map `m0`. -/
theorem positions_fold_mem (content : Text) :
    ∀ (names : List String) (m0 : List (String × TablePosition)) (x : String × TablePosition),
      x ∈ names.foldl
        (fun positions tableName =>
          match locate content tableName with
          | none => positions
          | some p => assocSet positions tableName p) m0 →
      x ∈ m0 ∨ (x.1 ∈ names ∧ locate content x.1 = some x.2) := by
  intro names
  induction names with
  | nil => intro m0 x h; exact Or.inl h
  | cons n rest ih =>
    intro m0 x h
    simp only [List.foldl_cons] at h
    rcases ih _ x h with h1 | h1
    · cases hl : locate content n with
      | none =>
        rw [hl] at h1
        exact Or.inl h1
      | some p =>
        rw [hl] at h1
        rcases mem_assocSet _ _ _ _ h1 with h2 | h2
        · subst h2
          exact Or.inr ⟨List.mem_cons_self _ _, hl⟩
        · exact Or.inl h2
    · exact Or.inr ⟨List.mem_cons_of_mem _ h1.1, h1.2⟩

theorem FindTablePositions_mem (content : Text) (names : List String)
    (x : String × TablePosition) (h : x ∈ FindTablePositions content names) :
    x.1 ∈ names ∧ locate content x.1 = some x.2 := by
  rcases positions_fold_mem content names [] x h with h1 | h1
  · simp at h1
  · exact h1

/-- The fold of `resultMap` from a map `m0`. -/
theorem resultMap_fold_get :
    ∀ (results : List Result) (m0 : List (String × Result)) (n : String),
      n ∈ results.map (fun r => r.TableName) →
      ∃ r, assocGet (results.foldl (fun m result => assocSet m result.TableName result) m0) n
          = some r ∧ r ∈ results ∧ r.TableName = n := by
  intro results
  induction results using List.reverseRecOn with
  | nil => intro m0 n h; simp at h
  | append_singleton rest last ih =>
    intro m0 n h
    simp only [List.foldl_append, List.foldl_cons, List.foldl_nil, assocGet_assocSet]
    by_cases hn : n = last.TableName
    · rw [if_pos hn]
      exact ⟨last, rfl, by simp, hn.symm⟩
    · rw [if_neg hn]
      have hmem : n ∈ rest.map (fun r => r.TableName) := by
        simp only [List.map_append, List.map_cons, List.map_nil, List.mem_append,
          List.mem_singleton] at h
        rcases h with h | h
        · exact h
        · exact absurd h hn
      obtain ⟨r, h1, h2, h3⟩ := ih m0 n hmem
      exact ⟨r, h1, by simp [h2], h3⟩

theorem resultMap_get (results : List Result) (n : String)
    (h : n ∈ results.map (fun r => r.TableName)) :
    ∃ r, assocGet (resultMap results) n = some r ∧ r ∈ results ∧ r.TableName = n :=
  resultMap_fold_get results [] n h

/-! ## The text splicer: the sort -/

theorem bubblePass_perm : ∀ (k : Nat) (l : List TablePosition), (bubblePass k l).Perm l := by
  intro k
  induction k with
  | zero => intro l; cases l <;> simp [bubblePass]
  | succ k ih =>
    intro l
    match l with
    | [] => simp [bubblePass]
    | [a] => simp [bubblePass]
    | a :: b :: rest =>
      simp only [bubblePass]
      split
      · exact ((ih (a :: rest)).cons b).trans (List.Perm.swap a b rest)
      · exact (ih (b :: rest)).cons a

theorem bubblePass_zero (l : List TablePosition) : bubblePass 0 l = l := by
  cases l <;> rfl

theorem bubblePass_append :
    ∀ (k : Nat) (pre suf : List TablePosition), k < pre.length →
      bubblePass k (pre ++ suf) = bubblePass k pre ++ suf := by
  intro k
  induction k with
  | zero => intro pre suf _; rw [bubblePass_zero, bubblePass_zero]
  | succ k ih =>
    intro pre suf hk
    match pre, hk with
    | [], hk => simp at hk
    | [a], hk => simp at hk
    | a :: b :: rest, hk =>
      have h1 : k < (a :: rest).length := by simp only [List.length_cons] at hk ⊢; omega
      have h2 : k < (b :: rest).length := by simp only [List.length_cons] at hk ⊢; omega
      have e1 := ih (a :: rest) suf h1
      have e2 := ih (b :: rest) suf h2
      simp only [List.cons_append] at e1 e2
      show bubblePass (k + 1) (a :: b :: (rest ++ suf)) = bubblePass (k + 1) (a :: b :: rest) ++ suf
      rw [bubblePass, bubblePass]
      split
      · rw [e1]; rfl
      · rw [e2]; rfl

theorem bubblePass_last :
    ∀ (rest : List TablePosition) (a : TablePosition),
      ∃ init m, bubblePass rest.length (a :: rest) = init ++ [m] ∧
        m.StartPos ≤ a.StartPos ∧ (∀ x ∈ rest, m.StartPos ≤ x.StartPos) ∧
        init.length = rest.length := by
  intro rest
  induction rest with
  | nil => intro a; exact ⟨[], a, by simp [bubblePass], Nat.le_refl _, by simp, rfl⟩
  | cons b rest ih =>
    intro a
    simp only [List.length_cons, bubblePass]
    split
    · rename_i hlt
      obtain ⟨init, m, e, h1, h2, h3⟩ := ih a
      refine ⟨b :: init, m, by rw [e]; rfl, h1, ?_, by simp [h3]⟩
      intro x hx
      rcases List.mem_cons.1 hx with hx | hx
      · subst hx; omega
      · exact h2 x hx
    · rename_i hge
      obtain ⟨init, m, e, h1, h2, h3⟩ := ih b
      refine ⟨a :: init, m, by rw [e]; rfl, by omega, ?_, by simp [h3]⟩
      intro x hx
      rcases List.mem_cons.1 hx with hx | hx
      · subst hx; exact h1
      · exact h2 x hx

theorem bubble_loop_inv (l : List TablePosition) :
    ∀ t, t ≤ l.length - 1 →
      ∃ pre suf, (List.range t).foldl (fun s i => bubblePass (l.length - i - 1) s) l = pre ++ suf ∧
        suf.length = t ∧
        List.Pairwise (fun p q : TablePosition => q.StartPos ≤ p.StartPos) suf ∧
        (∀ x ∈ pre, ∀ y ∈ suf, y.StartPos ≤ x.StartPos) ∧ (pre ++ suf).Perm l := by
  intro t
  induction t with
  | zero =>
    intro _
    exact ⟨l, [], by simp, rfl, List.Pairwise.nil, by simp, by simp⟩
  | succ t ih =>
    intro ht
    obtain ⟨pre, suf, e, hlen, hsorted, hle, hperm⟩ := ih (by omega)
    have hl : pre.length + suf.length = l.length := by
      have := hperm.length_eq
      simpa using this
    rw [List.range_succ, List.foldl_append]
    simp only [List.foldl_cons, List.foldl_nil]
    rw [e]
    match pre, e, hle, hperm, hl with
    | [], _, _, _, hl => simp only [List.length_nil] at hl; omega
    | a :: rest, e, hle, hperm, hl =>
      have hk : l.length - t - 1 = rest.length := by
        simp only [List.length_cons] at hl; omega
      rw [hk, bubblePass_append _ _ _ (by simp)]
      obtain ⟨init, m, e2, h1, h2, h3⟩ := bubblePass_last rest a
      have hp : (init ++ [m]).Perm (a :: rest) := e2 ▸ bubblePass_perm rest.length (a :: rest)
      have hm : m ∈ a :: rest := hp.subset (by simp)
      refine ⟨init, m :: suf, by rw [e2]; simp, by simp [hlen], ?_, ?_, ?_⟩
      · exact List.Pairwise.cons (fun y hy => hle m hm y hy) hsorted
      · intro x hx y hy
        have hxin : x ∈ a :: rest := hp.subset (by simp [hx])
        rcases List.mem_cons.1 hy with hy | hy
        · subst hy
          rcases List.mem_cons.1 hxin with hxa | hxr
          · subst hxa; exact h1
          · exact h2 x hxr
        · exact hle x hxin y hy
      · have : (init ++ m :: suf).Perm ((a :: rest) ++ suf) := by
          have := hp.append_right suf
          simpa using this
        exact this.trans hperm

theorem bubbleSort_perm (l : List TablePosition) : (bubbleSort l).Perm l := by
  obtain ⟨pre, suf, e, _, _, _, hperm⟩ := bubble_loop_inv l (l.length - 1) (Nat.le_refl _)
  unfold bubbleSort
  rw [e]
  exact hperm

theorem bubbleSort_sorted (l : List TablePosition) :
    List.Pairwise (fun p q : TablePosition => q.StartPos ≤ p.StartPos) (bubbleSort l) := by
  obtain ⟨pre, suf, e, hlen, hsorted, hle, hperm⟩ :=
    bubble_loop_inv l (l.length - 1) (Nat.le_refl _)
  unfold bubbleSort
  rw [e]
  have hl : pre.length + suf.length = l.length := by
    have := hperm.length_eq
    simpa using this
  refine List.pairwise_append.2 ⟨?_, hsorted, hle⟩
  match pre, hl with
  | [], _ => exact List.Pairwise.nil
  | [a], _ => exact List.pairwise_singleton _ _
  | a :: b :: rest, hl => simp only [List.length_cons] at hl; omega

/-! ## The text splicer: the replacement loop -/

theorem spliceLoop_append (render : Result → Option Text) (rm : List (String × Result)) :
    ∀ (l1 l2 : List TablePosition) (result : Text),
      spliceLoop render rm result (l1 ++ l2) =
        match spliceLoop render rm result l1 with
        | Res.ok r => spliceLoop render rm r l2
        | Res.error => Res.error
        | Res.diverge => Res.diverge := by
  intro l1
  induction l1 with
  | nil => intro l2 result; rfl
  | cons p rest ih =>
    intro l2 result
    simp only [List.cons_append, spliceLoop]
    cases spliceStep render rm result p with
    | ok next => exact ih l2 next
    | error => rfl
    | diverge => rfl

theorem spansFrom_le (len : Nat) :
    ∀ (spans : List TablePosition) (o : Nat), SpansFrom len o spans → o ≤ len := by
  intro spans
  induction spans with
  | nil => intro o h; exact h
  | cons p rest ih =>
    intro o h
    obtain ⟨h1, h2, h3⟩ := h
    have := ih p.EndPos h3
    omega

/-- The loop of `ReplaceTablesInText` on spans that follow one another,
processed from the last to the first. -/
theorem spliceLoop_spans (render : Result → Option Text) (rm : List (String × Result))
    (content : Text) (out : TablePosition → Text) :
    ∀ (asc : List TablePosition) (o : Nat), SpansFrom content.length o asc →
      (∀ p ∈ asc, ∃ r, assocGet rm p.Name = some r ∧ render r = some (out p)) →
      spliceLoop render rm content asc.reverse =
        Res.ok (content.take o ++ replaceSpans out content o asc) := by
  intro asc
  induction asc with
  | nil =>
    intro o _ _
    simp [spliceLoop, replaceSpans]
  | cons p rest ih =>
    intro o hs hr
    obtain ⟨h1, h2, h3⟩ := hs
    have hlen := spansFrom_le _ _ _ h3
    obtain ⟨r, hget, hrend⟩ := hr p (List.mem_cons_self _ _)
    rw [List.reverse_cons, spliceLoop_append,
      ih p.EndPos h3 (fun q hq => hr q (List.mem_cons_of_mem _ hq))]
    have hl : (content.take p.EndPos).length = p.EndPos := by
      rw [List.length_take]; omega
    have hb : p.StartPos ≤ (content.take p.EndPos ++ replaceSpans out content p.EndPos rest).length
        ∧ p.EndPos ≤ (content.take p.EndPos ++ replaceSpans out content p.EndPos rest).length := by
      rw [List.length_append, hl]; omega
    have ht : (content.take p.EndPos ++ replaceSpans out content p.EndPos rest).take p.StartPos
        = content.take p.StartPos := by
      rw [List.take_append_of_le_length (by omega), List.take_take, Nat.min_eq_left h2]
    have hd : (content.take p.EndPos ++ replaceSpans out content p.EndPos rest).drop p.EndPos
        = replaceSpans out content p.EndPos rest := by
      have := List.drop_left (content.take p.EndPos) (replaceSpans out content p.EndPos rest)
      rwa [hl] at this
    have hsplit : content.take p.StartPos
        = content.take o ++ (content.drop o).take (p.StartPos - o) := by
      have := List.take_add content o (p.StartPos - o)
      rwa [Nat.add_sub_cancel' h1] at this
    simp only [spliceLoop, spliceStep, hget, hrend, if_pos hb, ht, hd, replaceSpans, hsplit,
      List.append_assoc]

theorem spansFrom_of_sorted (len : Nat) :
    ∀ (asc : List TablePosition) (o : Nat), (∀ p ∈ asc, o ≤ p.StartPos) → o ≤ len →
      (∀ p ∈ asc, p.StartPos < p.EndPos ∧ p.EndPos ≤ len) →
      List.Pairwise (fun p q : TablePosition => p.StartPos ≤ q.StartPos) asc →
      List.Pairwise Disjoint2 asc → SpansFrom len o asc := by
  intro asc
  induction asc with
  | nil => intro o _ ho _ _ _; exact ho
  | cons p rest ih =>
    intro o hstart _ hb hsorted hdisj
    have hp := hb p (List.mem_cons_self _ _)
    rw [List.pairwise_cons] at hsorted hdisj
    refine ⟨hstart p (List.mem_cons_self _ _), Nat.le_of_lt hp.1, ?_⟩
    refine ih p.EndPos ?_ hp.2 (fun q hq => hb q (List.mem_cons_of_mem _ hq)) hsorted.2 hdisj.2
    intro q hq
    have hq1 := hb q (List.mem_cons_of_mem _ hq)
    have hq2 := hsorted.1 q hq
    rcases hdisj.1 q hq with h | h
    · exact h
    · omega

theorem replaceSpans_two (out : TablePosition → Text) (content : Text) (p q : TablePosition) :
    replaceSpans out content 0 [p, q] =
      content.take p.StartPos ++ out p ++ (content.drop p.EndPos).take (q.StartPos - p.EndPos)
        ++ out q ++ content.drop q.EndPos := by
  simp [replaceSpans]

theorem positions_value_spec (content : Text) (names : List String) (p : TablePosition)
    (h : p ∈ (FindTablePositions content names).map Prod.snd) :
    p.Name ∈ names ∧ locate content p.Name = some p := by
  obtain ⟨x, hx, rfl⟩ := List.mem_map.1 h
  obtain ⟨h1, h2⟩ := FindTablePositions_mem content names x hx
  have := (locate_spec content x.1 x.2 h2).1
  rw [this]
  exact ⟨h1, h2⟩

/-- Claim C14. For every text, every list of merge results whose located
spans are pairwise non-overlapping, every renderer and every order in which
the positions are delivered, `ReplaceTablesInText` returns the original text
with each located span, taken in ascending order, replaced by the rendered
text of its table and every character outside the spans kept in place:
`text[:start_1] + r_1 + text[end_1:start_2] + r_2 + ... + text[end_k:]`. -/
theorem ReplaceTablesInText_spans (range : List TablePosition → List TablePosition)
    (rend : Result → Text) (content : Text) (results : List Result)
    (hrange : ∀ l, (range l).Perm l)
    (hdisj : List.Pairwise Disjoint2
      ((FindTablePositions content (results.map (fun r => r.TableName))).map Prod.snd)) :
    ∃ asc : List TablePosition,
      asc.Perm ((FindTablePositions content (results.map (fun r => r.TableName))).map Prod.snd) ∧
      SpansFrom content.length 0 asc ∧
      ReplaceTablesInText range (fun r => some (rend r)) content results =
        Res.ok (replaceSpans (renderedFor rend results) content 0 asc) := by
  have hperm : (bubbleSort (range ((FindTablePositions content
      (results.map (fun r => r.TableName))).map Prod.snd))).reverse.Perm
      ((FindTablePositions content (results.map (fun r => r.TableName))).map Prod.snd) :=
    (List.reverse_perm _).trans ((bubbleSort_perm _).trans (hrange _))
  have hsym : ∀ {x y : TablePosition}, Disjoint2 x y → Disjoint2 y x := fun h => h.symm
  have hspec := positions_value_spec content (results.map (fun r => r.TableName))
  have hspans : SpansFrom content.length 0 (bubbleSort (range ((FindTablePositions content
      (results.map (fun r => r.TableName))).map Prod.snd))).reverse := by
    refine spansFrom_of_sorted _ _ 0 (fun _ _ => Nat.zero_le _) (Nat.zero_le _) ?_ ?_ ?_
    · intro p hp
      have := locate_spec content p.Name p (hspec p (hperm.subset hp)).2
      exact this.2
    · exact List.pairwise_reverse.2 (bubbleSort_sorted _)
    · exact (hperm.pairwise_iff hsym).2 hdisj
  refine ⟨_, hperm, hspans, ?_⟩
  have := spliceLoop_spans (fun r => some (rend r)) (resultMap results) content
    (renderedFor rend results) _ 0 hspans (by
      intro p hp
      obtain ⟨r, hr, _, _⟩ := resultMap_get results p.Name (hspec p (hperm.subset hp)).1
      exact ⟨r, hr, by simp [renderedFor, hr]⟩)
  rw [List.reverse_reverse] at this
  simpa [ReplaceTablesInText] using this

/-- Witness for claim C14: `A = { 1 }` and the three lines of `B` are
replaced, the lines between and after them are kept, with the results
given in the order B, A, C and the positions delivered in reverse. -/
theorem ReplaceTablesInText_spans_witness :
    List.Pairwise Disjoint2
      ((FindTablePositions exText (exResults.map (fun r => r.TableName))).map Prod.snd) ∧
    ReplaceTablesInText List.reverse (fun r => some (exRend r)) exText exResults =
      Res.ok "A = \x7b\x7d\nx = 1\nB = \x7b n = 1, m = 2, k = 3 \x7d\ny = 2".data ∧
    ∃ asc : List TablePosition,
      asc.Perm
        ((FindTablePositions exText (exResults.map (fun r => r.TableName))).map Prod.snd) ∧
      SpansFrom exText.length 0 asc ∧
      ReplaceTablesInText List.reverse (fun r => some (exRend r)) exText exResults =
        Res.ok (replaceSpans (renderedFor exRend exResults) exText 0 asc) :=
  ⟨by decide, by decide,
   ReplaceTablesInText_spans List.reverse exRend exText exResults
     (fun l => List.reverse_perm l) (by decide)⟩

/-! ## The text splicer: tables that are not located -/

theorem positions_fold_filter (content : Text) :
    ∀ (results : List Result) (m0 : List (String × TablePosition)),
      ((results.filter (fun r => located content r.TableName)).map
          (fun r => r.TableName)).foldl
        (fun positions tableName =>
          match locate content tableName with
          | none => positions
          | some p => assocSet positions tableName p) m0
      = (results.map (fun r => r.TableName)).foldl
        (fun positions tableName =>
          match locate content tableName with
          | none => positions
          | some p => assocSet positions tableName p) m0 := by
  intro results
  induction results with
  | nil => intro m0; rfl
  | cons r rest ih =>
    intro m0
    cases hl : locate content r.TableName with
    | none =>
      have : located content r.TableName = false := by simp [located, hl]
      simp only [List.filter, this, List.map_cons, List.foldl_cons, hl]
      exact ih m0
    | some p =>
      have : located content r.TableName = true := by simp [located, hl]
      simp only [List.filter, this, List.map_cons, List.foldl_cons, hl]
      exact ih _

theorem FindTablePositions_filter (content : Text) (results : List Result) :
    FindTablePositions content
        ((results.filter (fun r => located content r.TableName)).map (fun r => r.TableName))
      = FindTablePositions content (results.map (fun r => r.TableName)) :=
  positions_fold_filter content results []

theorem resultMap_fold_filter (content : Text) (n : String) (hn : located content n = true) :
    ∀ (results : List Result) (m0 m1 : List (String × Result)),
      assocGet m0 n = assocGet m1 n →
      assocGet ((results.filter (fun r => located content r.TableName)).foldl
          (fun m result => assocSet m result.TableName result) m0) n
        = assocGet (results.foldl (fun m result => assocSet m result.TableName result) m1) n := by
  intro results
  induction results with
  | nil => intro m0 m1 h; exact h
  | cons r rest ih =>
    intro m0 m1 h
    cases hl : located content r.TableName with
    | false =>
      simp only [List.filter, hl, List.foldl_cons]
      refine ih _ _ ?_
      have hne : n ≠ r.TableName := by
        intro e
        rw [e, hl] at hn
        exact absurd hn (by simp)
      rw [assocGet_assocSet, if_neg hne]
      exact h
    | true =>
      simp only [List.filter, hl, List.foldl_cons]
      refine ih _ _ ?_
      rw [assocGet_assocSet, assocGet_assocSet, h]

theorem resultMap_fold_mem :
    ∀ (results : List Result) (m0 : List (String × Result)) (n : String) (r : Result),
      assocGet (results.foldl (fun m result => assocSet m result.TableName result) m0) n
          = some r →
      assocGet m0 n = some r ∨ (r ∈ results ∧ r.TableName = n) := by
  intro results
  induction results with
  | nil => intro m0 n r h; exact Or.inl h
  | cons x rest ih =>
    intro m0 n r h
    simp only [List.foldl_cons] at h
    rcases ih _ n r h with h1 | h1
    · rw [assocGet_assocSet] at h1
      by_cases hn : n = x.TableName
      · rw [if_pos hn] at h1
        simp only [Option.some.injEq] at h1
        subst h1
        exact Or.inr ⟨List.mem_cons_self _ _, hn.symm⟩
      · rw [if_neg hn] at h1
        exact Or.inl h1
    · exact Or.inr ⟨List.mem_cons_of_mem _ h1.1, h1.2⟩

theorem spliceLoop_congr (render render1 : Result → Option Text)
    (rm rm1 : List (String × Result)) :
    ∀ (l : List TablePosition) (result : Text),
      (∀ p ∈ l, ∀ t, spliceStep render rm t p = spliceStep render1 rm1 t p) →
      spliceLoop render rm result l = spliceLoop render1 rm1 result l := by
  intro l
  induction l with
  | nil => intro result _; rfl
  | cons p rest ih =>
    intro result h
    simp only [spliceLoop]
    rw [h p (List.mem_cons_self _ _) result]
    cases spliceStep render1 rm1 result p with
    | ok next => exact ih next (fun q hq => h q (List.mem_cons_of_mem _ hq))
    | error => rfl
    | diverge => rfl

/-- Claim C15. A table of the result list whose span is not located takes no
part in `ReplaceTablesInText`: the outcome is the outcome for the list with
the unlocated tables removed, also when the renderer would fail on them; when
no table of the list is located the function returns the original text. -/
theorem ReplaceTablesInText_skips (range : List TablePosition → List TablePosition)
    (render render1 : Result → Option Text) (content : Text) (results : List Result)
    (hrange : ∀ l, (range l).Perm l)
    (hrender : ∀ r ∈ results, located content r.TableName = true → render1 r = render r) :
    ReplaceTablesInText range render content results =
      ReplaceTablesInText range render1 content
        (results.filter (fun r => located content r.TableName)) ∧
    ((∀ r ∈ results, located content r.TableName = false) →
      ReplaceTablesInText range render content results = Res.ok content) := by
  have hmain : ReplaceTablesInText range render content results =
      ReplaceTablesInText range render1 content
        (results.filter (fun r => located content r.TableName)) := by
    simp only [ReplaceTablesInText, FindTablePositions_filter]
    refine spliceLoop_congr _ _ _ _ _ _ ?_
    intro p hp t
    have hp1 : p ∈ (FindTablePositions content (results.map (fun r => r.TableName))).map
        Prod.snd := (hrange _).subset ((bubbleSort_perm _).subset hp)
    obtain ⟨_, hloc⟩ := positions_value_spec content _ p hp1
    have hl : located content p.Name = true := by simp [located, hloc]
    have hget : assocGet (resultMap (results.filter (fun r => located content r.TableName)))
        p.Name = assocGet (resultMap results) p.Name :=
      resultMap_fold_filter content p.Name hl results [] [] rfl
    simp only [spliceStep, hget]
    cases hr : assocGet (resultMap results) p.Name with
    | none => rfl
    | some r =>
      rcases resultMap_fold_mem results [] p.Name r hr with h0 | ⟨hmem, hname⟩
      · simp [assocGet] at h0
      · have e := hrender r hmem (by rw [hname]; exact hl)
        simp only [e]
  refine ⟨hmain, ?_⟩
  intro hnone
  have hf : results.filter (fun r => located content r.TableName) = [] := by
    rw [List.filter_eq_nil_iff]
    intro r hr
    simp [hnone r hr]
  rw [hmain, hf]
  have hr0 : range [] = [] := List.Perm.eq_nil (hrange [])
  simp [ReplaceTablesInText, FindTablePositions, hr0, bubbleSort, spliceLoop]

/-- Witness for claim C15: the table `C` is not in the text; with a renderer
that fails on `C` the tables `A` and `B` are replaced as without `C`, and a
list holding `C` only leaves the text as it is. -/
theorem ReplaceTablesInText_skips_witness :
    (located exText "C" = false ∧
     ReplaceTablesInText id (fun r => some (exRend r)) exText exResults =
      ReplaceTablesInText id exRendFailing exText
        (exResults.filter (fun r => located exText r.TableName)) ∧
     ReplaceTablesInText id exRendFailing exText
        (exResults.filter (fun r => located exText r.TableName)) =
      Res.ok "A = \x7b\x7d\nx = 1\nB = \x7b n = 1, m = 2, k = 3 \x7d\ny = 2".data) ∧
    ReplaceTablesInText id exRendFailing exText [{ TableName := "C", Table := 2 }] =
      Res.ok exText :=
  ⟨⟨by decide,
    (ReplaceTablesInText_skips id (fun r => some (exRend r)) exRendFailing exText exResults
      (fun l => List.Perm.refl l) (by decide)).1, by decide⟩,
   (ReplaceTablesInText_skips id exRendFailing exRendFailing exText
      [{ TableName := "C", Table := 2 }] (fun l => List.Perm.refl l) (by decide)).2 (by decide)⟩

/-- Claim C20: the claim fails on the code.  In the text
`A = {`, `B = {`, `1, 2, 3, 4, 5, 6, 7,`, `},`, `}`, `B = {}` (six lines) the
first line-anchored `B = {` is the field `B` of the table `A`, so
`FindTablePositions` locates `B` at [6, 36) inside the span [0, 38) of `A`:
the two spans overlap.  `ReplaceTablesInText` replaces `B` first, which leaves
a text of 22 bytes, and then slices it at offset 38: the run ends in a
run-time panic, in either order of delivery of the positions. -/
theorem ReplaceTablesInText_overlapping_spans :
    FindTablePositions exNestedText ["A", "B"] =
      [("B", { Name := "B", StartLine := 0, EndLine := 0, StartPos := 6, EndPos := 36 }),
       ("A", { Name := "A", StartLine := 0, EndLine := 0, StartPos := 0, EndPos := 38 })] ∧
    ¬ List.Pairwise Disjoint2 ((FindTablePositions exNestedText ["A", "B"]).map Prod.snd) ∧
    spliceLoop (fun r => some (exNestedRend r)) (resultMap exNestedResults) exNestedText
      [{ Name := "B", StartLine := 0, EndLine := 0, StartPos := 6, EndPos := 36 }] =
      Res.ok "A = \x7b\nB = \x7b\x7d\n\x7d\nB = \x7b\x7d\n".data ∧
    ReplaceTablesInText id (fun r => some (exNestedRend r)) exNestedText exNestedResults =
      Res.diverge ∧
    ReplaceTablesInText List.reverse (fun r => some (exNestedRend r)) exNestedText
      exNestedResults = Res.diverge := by
  refine ⟨by decide, by decide, by decide, by decide, by decide⟩

/-! ## The normalisation of `Value.String` applied twice -/

theorem replaceAux_mem (old new : List Char) :
    ∀ (l : List Char) (k : Nat) (x : Char), x ∈ replaceAux old new k l → x ∈ new ∨ x ∈ l := by
  intro l
  induction l with
  | nil => intro k x h; cases k <;> simp [replaceAux] at h
  | cons c cs ih =>
    intro k x h
    cases k with
    | succ k =>
      rw [replaceAux] at h
      rcases ih k x h with h1 | h1
      · exact Or.inl h1
      · exact Or.inr (List.mem_cons_of_mem _ h1)
    | zero =>
      rw [replaceAux] at h
      split at h
      · rcases List.mem_append.1 h with h1 | h1
        · exact Or.inl h1
        · rcases ih _ x h1 with h2 | h2
          · exact Or.inl h2
          · exact Or.inr (List.mem_cons_of_mem _ h2)
      · rcases List.mem_cons.1 h with h1 | h1
        · exact Or.inr (h1 ▸ List.mem_cons_self _ _)
        · rcases ih _ x h1 with h2 | h2
          · exact Or.inl h2
          · exact Or.inr (List.mem_cons_of_mem _ h2)

theorem replaceAux_single_absent (c : Char) (new : List Char) :
    ∀ (l : List Char), c ∉ l → replaceAux [c] new 0 l = l := by
  intro l
  induction l with
  | nil => intro _; rfl
  | cons x xs ih =>
    intro h
    have hx : c ≠ x := fun e => h (e ▸ List.mem_cons_self _ _)
    have hxs : c ∉ xs := fun e => h (List.mem_cons_of_mem _ e)
    rw [replaceAux]
    have hp : List.isPrefixOf [c] (x :: xs) = false := by simp [List.isPrefixOf, hx]
    rw [hp]
    simp [ih hxs]

theorem replaceAux_single_cons (c : Char) (new : List Char) (x : Char) (xs : List Char) :
    replaceAux [c] new 0 (x :: xs) =
      (if x = c then new else [x]) ++ replaceAux [c] new 0 xs := by
  rw [replaceAux]
  by_cases h : x = c
  · subst h
    simp [List.isPrefixOf]
  · have hp : List.isPrefixOf [c] (x :: xs) = false := by
      simp [List.isPrefixOf, Ne.symm h]
    rw [hp, if_neg h]
    simp

theorem replaceAux_single_append (c : Char) (new : List Char) :
    ∀ (l m : List Char),
      replaceAux [c] new 0 (l ++ m) = replaceAux [c] new 0 l ++ replaceAux [c] new 0 m := by
  intro l
  induction l with
  | nil => intro m; simp [replaceAux]
  | cons x xs ih =>
    intro m
    rw [List.cons_append, replaceAux_single_cons, replaceAux_single_cons, ih, List.append_assoc]

/-- The text in which every double quote got a backslash never starts with a
double quote. -/
theorem escapeQuotes_head (l : List Char) (rest : List Char) :
    replaceAux [Char.ofNat 34] [Char.ofNat 92, Char.ofNat 34] 0 l ≠ Char.ofNat 34 :: rest := by
  cases l with
  | nil => simp [replaceAux]
  | cons x xs =>
    rw [replaceAux_single_cons]
    by_cases h : x = Char.ofNat 34
    · rw [if_pos h]
      intro e
      simp only [List.cons_append, List.cons.injEq] at e
      exact absurd e.1 (by decide)
    · rw [if_neg h]
      intro e
      simp only [List.cons_append, List.cons.injEq, List.nil_append] at e
      exact h e.1

/-- Removing the backslash of every escaped double quote undoes the escaping
of every double quote. -/
theorem unescape_escape :
    ∀ (u : List Char),
      replaceAux [Char.ofNat 92, Char.ofNat 34] [Char.ofNat 34] 0
        (replaceAux [Char.ofNat 34] [Char.ofNat 92, Char.ofNat 34] 0 u) = u := by
  intro u
  induction u with
  | nil => rfl
  | cons x xs ih =>
    rw [replaceAux_single_cons]
    by_cases h : x = Char.ofNat 34
    · subst h
      simp only [if_true, List.cons_append, List.nil_append]
      rw [replaceAux]
      have hp : List.isPrefixOf [Char.ofNat 92, Char.ofNat 34]
          (Char.ofNat 92 :: Char.ofNat 34 ::
            replaceAux [Char.ofNat 34] [Char.ofNat 92, Char.ofNat 34] 0 xs) = true := by
        simp [List.isPrefixOf]
      rw [hp]
      simp only [if_true, List.length_cons, List.length_nil]
      rw [replaceAux, ih]
      rfl
    · rw [if_neg h]
      simp only [List.cons_append, List.nil_append]
      rw [replaceAux]
      have hp : List.isPrefixOf [Char.ofNat 92, Char.ofNat 34]
          (x :: replaceAux [Char.ofNat 34] [Char.ofNat 92, Char.ofNat 34] 0 xs) = false := by
        cases hr : replaceAux [Char.ofNat 34] [Char.ofNat 92, Char.ofNat 34] 0 xs with
        | nil => simp [List.isPrefixOf]
        | cons y ys =>
          have hy : y ≠ Char.ofNat 34 := by
            intro e
            subst e
            exact escapeQuotes_head xs ys hr
          simp [List.isPrefixOf, Ne.symm hy]
      rw [hp, ih]
      simp

/-- A last character that is not a double quote passes through the removal of
the backslashes of escaped double quotes. -/
theorem unescape_append (c : Char) (hc : c ≠ Char.ofNat 34) :
    ∀ (l : List Char) (k : Nat), k ≤ l.length →
      replaceAux [Char.ofNat 92, Char.ofNat 34] [Char.ofNat 34] k (l ++ [c]) =
        replaceAux [Char.ofNat 92, Char.ofNat 34] [Char.ofNat 34] k l ++ [c] := by
  intro l
  induction l with
  | nil =>
    intro k hk
    have : k = 0 := by simpa using hk
    subst this
    simp [replaceAux, List.isPrefixOf]
  | cons x xs ih =>
    intro k hk
    cases k with
    | succ k =>
      rw [List.cons_append, replaceAux, replaceAux]
      exact ih k (by simpa using hk)
    | zero =>
      rw [List.cons_append, replaceAux, replaceAux]
      cases xs with
      | nil =>
        have h1 : List.isPrefixOf [Char.ofNat 92, Char.ofNat 34] (x :: ([] ++ [c])) = false := by
          simp [List.isPrefixOf, Ne.symm hc]
        have h2 : List.isPrefixOf [Char.ofNat 92, Char.ofNat 34] [x] = false := by
          simp [List.isPrefixOf]
        rw [h1, h2]
        simp [replaceAux, List.isPrefixOf]
      | cons y ys =>
        have h1 : List.isPrefixOf [Char.ofNat 92, Char.ofNat 34] (x :: (y :: ys ++ [c]))
            = List.isPrefixOf [Char.ofNat 92, Char.ofNat 34] (x :: y :: ys) := by
          simp [List.isPrefixOf]
        rw [h1]
        split
        · rw [ih _ (by simp)]
          simp
        · rw [ih 0 (Nat.zero_le _)]
          simp

theorem dropWhile_head (p : Char → Bool) :
    ∀ (l : List Char) (x : Char) (rest : List Char), l.dropWhile p = x :: rest → p x = false := by
  intro l
  induction l with
  | nil => intro x rest h; simp at h
  | cons y ys ih =>
    intro x rest h
    rw [List.dropWhile_cons] at h
    split at h
    · exact ih x rest h
    · rename_i hy
      simp only [List.cons.injEq] at h
      rw [← h.1]
      simpa using hy

theorem dropWhile_mem (p : Char → Bool) :
    ∀ (l : List Char) (x : Char), x ∈ l.dropWhile p → x ∈ l := by
  intro l
  induction l with
  | nil => intro x h; simp at h
  | cons y ys ih =>
    intro x h
    rw [List.dropWhile_cons] at h
    split at h
    · exact List.mem_cons_of_mem _ (ih x h)
    · exact h

/-- The list `Trim` returns: empty, or with a first and a last character
outside the cutset. -/
theorem trim_shape (p : Char → Bool) (l : List Char) :
    ((l.dropWhile p).reverse.dropWhile p).reverse = [] ∨
    ∃ t0 c, ((l.dropWhile p).reverse.dropWhile p).reverse = t0 ++ [c] ∧ p c = false ∧
      ∀ y ys, t0 ++ [c] = y :: ys → p y = false := by
  cases hr : (l.dropWhile p).reverse.dropWhile p with
  | nil => exact Or.inl rfl
  | cons x rest =>
    right
    refine ⟨rest.reverse, x, by simp, dropWhile_head p _ x rest hr, ?_⟩
    intro y ys hy
    have hsuf : ((l.dropWhile p).reverse.dropWhile p) <:+ (l.dropWhile p).reverse :=
      List.dropWhile_suffix p
    rw [hr] at hsuf
    obtain ⟨pre, hpre⟩ := hsuf
    have hm : l.dropWhile p = (rest.reverse ++ [x]) ++ pre.reverse := by
      have := congrArg List.reverse hpre
      simpa using this.symm
    rw [hy] at hm
    exact dropWhile_head p l y _ hm

/-- The function `Trim` returns a list of this shape as it is. -/
theorem trim_fixed (p : Char → Bool) (t0 : List Char) (c : Char) (hc : p c = false)
    (hhead : ∀ y ys, t0 ++ [c] = y :: ys → p y = false) :
    (((t0 ++ [c]).dropWhile p).reverse.dropWhile p).reverse = t0 ++ [c] := by
  have h1 : (t0 ++ [c]).dropWhile p = t0 ++ [c] := by
    cases h : t0 ++ [c] with
    | nil => rfl
    | cons y ys =>
      rw [List.dropWhile_cons, hhead y ys h]
      simp
  rw [h1]
  simp [List.dropWhile_cons, hc]

theorem trim_mem (p : Char → Bool) (l : List Char) (x : Char)
    (h : x ∈ ((l.dropWhile p).reverse.dropWhile p).reverse) : x ∈ l := by
  rw [List.mem_reverse] at h
  have := dropWhile_mem p _ x h
  rw [List.mem_reverse] at this
  exact dropWhile_mem p l x this

theorem replaceAux_single_removes (c : Char) (new : List Char) (hc : c ∉ new) :
    ∀ (l : List Char), c ∉ replaceAux [c] new 0 l := by
  intro l
  induction l with
  | nil => simp [replaceAux]
  | cons x xs ih =>
    rw [replaceAux_single_cons]
    intro h
    rcases List.mem_append.1 h with h1 | h1
    · by_cases hx : x = c
      · rw [if_pos hx] at h1
        exact hc h1
      · rw [if_neg hx] at h1
        exact hx (List.mem_singleton.1 h1).symm
    · exact ih h1

/-- The normalisation of `Value.String` on the characters of the payload. -/
theorem normalizeString_data (s : String) :
    (normalizeString s).data =
      replaceAux [Char.ofNat 34] [Char.ofNat 92, Char.ofNat 34] 0
        (replaceAux [Char.ofNat 92, Char.ofNat 34] [Char.ofNat 34] 0
          ((((replaceAux [Char.ofNat 9] [Char.ofNat 92, Char.ofNat 116] 0
            (replaceAux [Char.ofNat 10] [Char.ofNat 92, Char.ofNat 110] 0 s.data)).dropWhile
              (fun c => c == Char.ofNat 34)).reverse.dropWhile
              (fun c => c == Char.ofNat 34)).reverse)) := by
  have d1 : "\n".data = [Char.ofNat 10] := by decide
  have d2 : "\\n".data = [Char.ofNat 92, Char.ofNat 110] := by decide
  have d3 : "\t".data = [Char.ofNat 9] := by decide
  have d4 : "\\t".data = [Char.ofNat 92, Char.ofNat 116] := by decide
  have d5 : "\\\"".data = [Char.ofNat 92, Char.ofNat 34] := by decide
  have d6 : "\"".data = [Char.ofNat 34] := by decide
  have hp : (fun c : Char => [Char.ofNat 34].contains c) = (fun c => c == Char.ofNat 34) := by
    funext c
    simp only [List.contains, List.elem]
    cases c == Char.ofNat 34 <;> rfl
  simp only [normalizeString, ReplaceAll, Trim, d1, d2, d3, d4, d5, d6, hp]

/-- The normalisation of `Value.String` on lists of characters gives a list
that the normalisation leaves as it is. -/
theorem normalize_data_idempotent (l : List Char) (n : List Char)
    (hn : n = replaceAux [Char.ofNat 34] [Char.ofNat 92, Char.ofNat 34] 0
        (replaceAux [Char.ofNat 92, Char.ofNat 34] [Char.ofNat 34] 0
          ((((replaceAux [Char.ofNat 9] [Char.ofNat 92, Char.ofNat 116] 0
            (replaceAux [Char.ofNat 10] [Char.ofNat 92, Char.ofNat 110] 0 l)).dropWhile
              (fun c => c == Char.ofNat 34)).reverse.dropWhile
              (fun c => c == Char.ofNat 34)).reverse))) :
    replaceAux [Char.ofNat 34] [Char.ofNat 92, Char.ofNat 34] 0
        (replaceAux [Char.ofNat 92, Char.ofNat 34] [Char.ofNat 34] 0
          ((((replaceAux [Char.ofNat 9] [Char.ofNat 92, Char.ofNat 116] 0
            (replaceAux [Char.ofNat 10] [Char.ofNat 92, Char.ofNat 110] 0 n)).dropWhile
              (fun c => c == Char.ofNat 34)).reverse.dropWhile
              (fun c => c == Char.ofNat 34)).reverse)) = n := by
  generalize hl2 : replaceAux [Char.ofNat 9] [Char.ofNat 92, Char.ofNat 116] 0
    (replaceAux [Char.ofNat 10] [Char.ofNat 92, Char.ofNat 110] 0 l) = l2 at hn
  have hn1 : Char.ofNat 10 ∉ l2 := by
    intro h
    rw [← hl2] at h
    rcases replaceAux_mem _ _ _ _ _ h with h1 | h1
    · exact absurd h1 (by decide)
    · exact replaceAux_single_removes _ _ (by decide) _ h1
  have hn2 : Char.ofNat 9 ∉ l2 := by
    rw [← hl2]
    exact replaceAux_single_removes _ _ (by decide) _
  generalize ht : ((l2.dropWhile (fun c => c == Char.ofNat 34)).reverse.dropWhile
    (fun c => c == Char.ofNat 34)).reverse = t at hn
  have htmem : ∀ x, x ∈ t → x ∈ l2 := fun x hx => trim_mem _ l2 x (ht ▸ hx)
  have hnmem : ∀ x, x ∈ n → x = Char.ofNat 92 ∨ x = Char.ofNat 34 ∨ x ∈ l2 := by
    intro x hx
    rw [hn] at hx
    rcases replaceAux_mem _ _ _ _ _ hx with h1 | h1
    · simp only [List.mem_cons, List.mem_singleton, List.not_mem_nil, or_false] at h1
      rcases h1 with h1 | h1
      · exact Or.inl h1
      · exact Or.inr (Or.inl h1)
    · rcases replaceAux_mem _ _ _ _ _ h1 with h2 | h2
      · exact Or.inr (Or.inl (List.mem_singleton.1 h2))
      · exact Or.inr (Or.inr (htmem x h2))
  have e1 : replaceAux [Char.ofNat 10] [Char.ofNat 92, Char.ofNat 110] 0 n = n := by
    refine replaceAux_single_absent _ _ n ?_
    intro h
    rcases hnmem _ h with h1 | h1 | h1
    · exact absurd h1 (by decide)
    · exact absurd h1 (by decide)
    · exact hn1 h1
  have e2 : replaceAux [Char.ofNat 9] [Char.ofNat 92, Char.ofNat 116] 0 n = n := by
    refine replaceAux_single_absent _ _ n ?_
    intro h
    rcases hnmem _ h with h1 | h1 | h1
    · exact absurd h1 (by decide)
    · exact absurd h1 (by decide)
    · exact hn2 h1
  rw [e1, e2]
  rcases trim_shape (fun c => c == Char.ofNat 34) l2 with h0 | ⟨t0, c, hshape, hc, hhead⟩
  · rw [ht] at h0
    subst h0
    subst hn
    rfl
  · rw [ht] at hshape
    have hc1 : c ≠ Char.ofNat 34 := by simpa using hc
    have hu : replaceAux [Char.ofNat 92, Char.ofNat 34] [Char.ofNat 34] 0 t =
        replaceAux [Char.ofNat 92, Char.ofNat 34] [Char.ofNat 34] 0 t0 ++ [c] := by
      rw [hshape]
      exact unescape_append c hc1 t0 0 (Nat.zero_le _)
    have hn3 : n = replaceAux [Char.ofNat 34] [Char.ofNat 92, Char.ofNat 34] 0
        (replaceAux [Char.ofNat 92, Char.ofNat 34] [Char.ofNat 34] 0 t0) ++ [c] := by
      rw [hn, hu, replaceAux_single_append, replaceAux_single_cons, if_neg hc1]
      simp [replaceAux]
    have htrim : ((n.dropWhile (fun c => c == Char.ofNat 34)).reverse.dropWhile
        (fun c => c == Char.ofNat 34)).reverse = n := by
      rw [hn3]
      refine trim_fixed _ _ c hc ?_
      intro y ys hy
      rw [← hn3] at hy
      have : y ≠ Char.ofNat 34 := by
        intro e
        subst e
        rw [hn] at hy
        exact escapeQuotes_head _ ys hy
      simpa using this
    rw [htrim]
    conv_lhs => rw [hn, unescape_escape]
    exact hn.symm

/-- Claim C24. The normalisation performed by `Value.String` is idempotent:
for every string payload, normalising the normalised text again gives the
normalised text. -/
theorem normalizeString_idempotent (s : String) :
    normalizeString (normalizeString s) = normalizeString s := by
  have h := normalize_data_idempotent s.data (normalizeString s).data (normalizeString_data s)
  have h2 := normalizeString_data (normalizeString s)
  rw [h] at h2
  exact String.ext h2

/-! ## The end of a table in a text -/

theorem drop_succ_of_drop_cons (content : Text) (i : Nat) (c : Char) (rest : Text)
    (h : content.drop i = c :: rest) : content.drop (i + 1) = rest ∧ content[i]? = some c := by
  have h1 : content.drop (i + 1) = (content.drop i).drop 1 := by
    rw [List.drop_drop, Nat.add_comm]
  refine ⟨by rw [h1, h]; rfl, ?_⟩
  have h2 : content[i]? = (content.drop i)[0]? := by
    rw [List.getElem?_drop]; rfl
  rw [h2, h]
  simp

/-- The loop of `findTableEndInContent` is the search for the closing brace
followed by the search for the end of its line. -/
theorem scanEnd_eq_scanClose (content : Text) :
    ∀ (s : Text) (depth : Int) (inString escapeNext : Bool) (i : Nat), content.drop i = s →
      scanEnd depth inString escapeNext i s =
        (scanClose depth inString escapeNext i s).map
          (fun k => lineEnd k (k + 1) (content.drop (k + 1))) := by
  intro s
  induction s with
  | nil => intro depth inString escapeNext i _; rfl
  | cons c rest ih =>
    intro depth inString escapeNext i hs
    obtain ⟨hrest, _⟩ := drop_succ_of_drop_cons content i c rest hs
    have step : ∀ d a b, scanEnd d a b (i + 1) rest =
        (scanClose d a b (i + 1) rest).map
          (fun k => lineEnd k (k + 1) (content.drop (k + 1))) :=
      fun d a b => ih d a b (i + 1) hrest
    rw [scanEnd, scanClose]
    split
    · exact step _ _ _
    · split
      · exact step _ _ _
      · split
        · exact step _ _ _
        · split
          · exact step _ _ _
          · split
            · exact step _ _ _
            · split
              · split
                · simp only [Option.map_some', hrest]
                · exact step _ _ _
              · exact step _ _ _

theorem scanClose_spec (content : Text) :
    ∀ (s : Text) (depth : Int) (inString escapeNext : Bool) (i k : Nat), content.drop i = s →
      scanClose depth inString escapeNext i s = some k →
      i ≤ k ∧ content[k]? = some (Char.ofNat 125) := by
  intro s
  induction s with
  | nil => intro depth inString escapeNext i k _ h; simp [scanClose] at h
  | cons c rest ih =>
    intro depth inString escapeNext i k hs h
    obtain ⟨hrest, hget⟩ := drop_succ_of_drop_cons content i c rest hs
    have step : ∀ d a b, scanClose d a b (i + 1) rest = some k →
        i ≤ k ∧ content[k]? = some (Char.ofNat 125) := by
      intro d a b h1
      have := ih d a b (i + 1) k hrest h1
      exact ⟨by omega, this.2⟩
    rw [scanClose] at h
    split at h
    · exact step _ _ _ h
    · split at h
      · exact step _ _ _ h
      · split at h
        · exact step _ _ _ h
        · split at h
          · exact step _ _ _ h
          · split at h
            · exact step _ _ _ h
            · split at h
              · rename_i hc
                split at h
                · simp only [Option.some.injEq] at h
                  subst h
                  exact ⟨Nat.le_refl _, by rw [hget, hc]⟩
                · exact step _ _ _ h
              · exact step _ _ _ h

/-- The inner loop of `findTableEndInContent`: the offset after the first
newline at or after `j`, and `i + 1` when no newline follows. -/
theorem lineEnd_spec (content : Text) (i : Nat) :
    ∀ (s : Text) (j : Nat), content.drop j = s →
      (∃ n, j ≤ n ∧ content[n]? = some (Char.ofNat 10) ∧
        (∀ k, j ≤ k → k < n → content[k]? ≠ some (Char.ofNat 10)) ∧
        lineEnd i j s = n + 1) ∨
      ((∀ k, j ≤ k → content[k]? ≠ some (Char.ofNat 10)) ∧ lineEnd i j s = i + 1) := by
  intro s
  induction s with
  | nil =>
    intro j hs
    right
    refine ⟨?_, rfl⟩
    intro k hk
    have hlen : content.length ≤ j := List.drop_eq_nil_iff.1 hs
    rw [List.getElem?_eq_none (by omega)]
    simp
  | cons c rest ih =>
    intro j hs
    obtain ⟨hrest, hget⟩ := drop_succ_of_drop_cons content j c rest hs
    rw [lineEnd]
    split
    · rename_i hc
      left
      exact ⟨j, Nat.le_refl _, by rw [hget, hc], fun k h1 h2 => by omega, rfl⟩
    · rename_i hc
      have hj : content[j]? ≠ some (Char.ofNat 10) := by
        rw [hget]
        intro e
        exact hc (Option.some.inj e)
      rcases ih (j + 1) hrest with ⟨n, h1, h2, h3, h4⟩ | ⟨h1, h2⟩
      · left
        refine ⟨n, by omega, h2, ?_, h4⟩
        intro k hk1 hk2
        rcases Nat.eq_or_lt_of_le hk1 with e | e
        · subst e; exact hj
        · exact h3 k e hk2
      · right
        refine ⟨?_, h2⟩
        intro k hk
        rcases Nat.eq_or_lt_of_le hk with e | e
        · subst e; exact hj
        · exact h1 k e

theorem findTableEndInContent_eq (content : Text) (startPos : Nat) :
    findTableEndInContent content startPos =
      (closingBrace content startPos).map
        (fun k => lineEnd k (k + 1) (content.drop (k + 1))) :=
  scanEnd_eq_scanClose content _ 0 false false startPos rfl

/-- Counterexample to claim C21 as stated. In the text `A = {} x`, which has
no newline, the scan from the opening brace at offset 4 finds the closing
brace at offset 5 and returns 6, the offset after the brace; the length of the
text is 8. -/
theorem findTableEndInContent_not_end_of_text :
    exNoNewline[4]? = some (Char.ofNat 123) ∧
    closingBrace exNoNewline 4 = some 5 ∧
    Char.ofNat 10 ∉ exNoNewline ∧
    findTableEndInContent exNoNewline 4 = some 6 ∧
    exNoNewline.length = 8 := by
  refine ⟨by decide, by decide, by decide, by decide, by decide⟩

/-- Claim C21, amended. For every text and start index, when
`findTableEndInContent` finds the closing brace that returns the depth to zero
at offset `i`, the end it returns is `j + 1` for the first newline at an
offset `j > i` if there is such a newline, and otherwise `i + 1`, the offset
after the closing brace. -/
theorem findTableEndInContent_line_end (content : Text) (startPos i : Nat)
    (hclose : closingBrace content startPos = some i) :
    startPos ≤ i ∧ content[i]? = some (Char.ofNat 125) ∧
    ((∃ j, i < j ∧ content[j]? = some (Char.ofNat 10) ∧
        (∀ k, i < k → k < j → content[k]? ≠ some (Char.ofNat 10)) ∧
        findTableEndInContent content startPos = some (j + 1)) ∨
     ((∀ k, i < k → content[k]? ≠ some (Char.ofNat 10)) ∧
        findTableEndInContent content startPos = some (i + 1))) := by
  obtain ⟨h1, h2⟩ := scanClose_spec content _ 0 false false startPos i rfl hclose
  refine ⟨h1, h2, ?_⟩
  rw [findTableEndInContent_eq, hclose]
  simp only [Option.map_some', Option.some.injEq]
  rcases lineEnd_spec content i _ (i + 1) rfl with ⟨n, a, b, c, d⟩ | ⟨a, b⟩
  · exact Or.inl ⟨n, a, b, fun k hk => c k hk, d⟩
  · exact Or.inr ⟨fun k hk => a k hk, b⟩

/-- Witness for claim C21: in the text of `exText` the table `B` opens at
offset 20 and closes at offset 33; the newline after the brace is at offset
34 and the end returned is 35. -/
theorem findTableEndInContent_line_end_witness :
    closingBrace exText 20 = some 33 ∧ findTableEndInContent exText 20 = some 35 ∧
    (20 ≤ 33 ∧ exText[33]? = some (Char.ofNat 125) ∧
    ((∃ j, 33 < j ∧ exText[j]? = some (Char.ofNat 10) ∧
        (∀ k, 33 < k → k < j → exText[k]? ≠ some (Char.ofNat 10)) ∧
        findTableEndInContent exText 20 = some (j + 1)) ∨
     ((∀ k, 33 < k → exText[k]? ≠ some (Char.ofNat 10)) ∧
        findTableEndInContent exText 20 = some (33 + 1)))) :=
  ⟨by decide, by decide, findTableEndInContent_line_end exText 20 33 (by decide)⟩

/-! ## Braces inside double-quoted strings -/

theorem lineEnd_replace (c letter : Char) (hc : c ≠ Char.ofNat 10)
    (hl : letter ≠ Char.ofNat 10) (post : Text) (i : Nat) :
    ∀ (pre : Text) (j : Nat),
      lineEnd i j (pre ++ letter :: post) = lineEnd i j (pre ++ c :: post) := by
  intro pre
  induction pre with
  | nil =>
    intro j
    simp only [List.nil_append, lineEnd, if_neg hc, if_neg hl]
  | cons x xs ih =>
    intro j
    simp only [List.cons_append, lineEnd]
    split
    · rfl
    · exact ih (j + 1)

/-- The loop of `findTableEndInContent` does not tell a brace from a letter at
a place that lies inside a double-quoted string. -/
theorem scanEnd_replace (c letter : Char)
    (hc : c ≠ Char.ofNat 10 ∧ c ≠ Char.ofNat 92 ∧ c ≠ Char.ofNat 34)
    (hl : letter ≠ Char.ofNat 10 ∧ letter ≠ Char.ofNat 92 ∧ letter ≠ Char.ofNat 34)
    (post : Text) :
    ∀ (pre : Text) (depth : Int) (inString escapeNext : Bool) (i : Nat),
      quoteState inString escapeNext pre = true →
      scanEnd depth inString escapeNext i (pre ++ letter :: post) =
        scanEnd depth inString escapeNext i (pre ++ c :: post) := by
  intro pre
  induction pre with
  | nil =>
    intro depth inString escapeNext i hq
    simp only [quoteState] at hq
    subst hq
    simp only [List.nil_append]
    rw [scanEnd, scanEnd]
    cases escapeNext with
    | true => rfl
    | false => simp only [if_neg hc.2.1, if_neg hc.2.2, if_neg hl.2.1, if_neg hl.2.2, if_true,
        Bool.false_eq_true, if_false]
  | cons x xs ih =>
    intro depth inString escapeNext i hq
    rw [quoteState] at hq
    simp only [List.cons_append]
    rw [scanEnd, scanEnd]
    split
    · rename_i h1
      rw [if_pos h1] at hq
      exact ih _ _ _ _ hq
    · rename_i h1
      rw [if_neg h1] at hq
      have he : escapeNext = false := by simpa using h1
      split
      · rename_i h2
        rw [if_pos h2] at hq
        exact ih _ _ _ _ hq
      · rename_i h2
        rw [if_neg h2] at hq
        split
        · rename_i h3
          rw [if_pos h3] at hq
          rw [he]
          exact ih _ _ _ _ hq
        · rename_i h3
          rw [if_neg h3] at hq
          rw [he]
          split
          · exact ih _ _ _ _ hq
          · split
            · exact ih _ _ _ _ hq
            · split
              · split
                · rw [lineEnd_replace c letter hc.1 hl.1 post i xs (i + 1)]
                · exact ih _ _ _ _ hq
              · exact ih _ _ _ _ hq

theorem isAlpha_ne (letter : Char) (h : letter.isAlpha = true) :
    letter ≠ Char.ofNat 10 ∧ letter ≠ Char.ofNat 92 ∧ letter ≠ Char.ofNat 34 := by
  refine ⟨?_, ?_, ?_⟩ <;> intro e <;> subst e <;> exact absurd h (by decide)

/-- Claim C22. A `{` or `}` that lies inside a double-quoted string, for a
reader that starts at the start index, is not structural: replacing it with a
letter does not change what `findTableEndInContent` returns. -/
theorem findTableEndInContent_brace_in_string (pre post : Text) (c letter : Char)
    (startPos : Nat) (hc : c = Char.ofNat 123 ∨ c = Char.ofNat 125)
    (hl : letter.isAlpha = true) (hs : startPos ≤ pre.length)
    (hin : InsideString (pre ++ c :: post) startPos pre.length = true) :
    findTableEndInContent (pre ++ letter :: post) startPos =
      findTableEndInContent (pre ++ c :: post) startPos := by
  have hc1 : c ≠ Char.ofNat 10 ∧ c ≠ Char.ofNat 92 ∧ c ≠ Char.ofNat 34 := by
    rcases hc with e | e <;> subst e <;> decide
  have hq : quoteState false false (pre.drop startPos) = true := by
    simpa [InsideString] using hin
  have hd : ∀ x : Char, (pre ++ x :: post).drop startPos = pre.drop startPos ++ x :: post :=
    fun x => List.drop_append_of_le_length hs
  simp only [findTableEndInContent, hd]
  exact scanEnd_replace c letter hc1 (isAlpha_ne letter hl) post _ _ _ _ _ hq

/-- Witness for claim C22: the table `T = { note = "a { b" }` ends at the
same offset as `T = { note = "a x b" }`, after the newline that follows the
closing brace. -/
theorem findTableEndInContent_brace_in_string_witness :
    InsideString (exNoteBefore ++ Char.ofNat 123 :: exNoteAfter) 4 exNoteBefore.length = true ∧
    findTableEndInContent (exNoteBefore ++ Char.ofNat 123 :: exNoteAfter) 4 = some 23 ∧
    findTableEndInContent (exNoteBefore ++ Char.ofNat 120 :: exNoteAfter) 4 =
      findTableEndInContent (exNoteBefore ++ Char.ofNat 123 :: exNoteAfter) 4 :=
  ⟨by decide, by decide,
   findTableEndInContent_brace_in_string exNoteBefore exNoteAfter (Char.ofNat 123)
     (Char.ofNat 120) 4 (Or.inl rfl) (by decide) (by decide) (by decide)⟩

/-! ## The order of the rule entries -/

/-- Claim C23, evaluated on base `{ {a = "x"} }`, source `{ {a = "p"} }` and the
rule map `{"1": true, "[1]": {"a": true}}`, whose two keys both resolve to the
entry `[1]`.  With `1` processed first, `AddOrReplace` stores the pointer to
source's value in base's entry, the nested rule then reaches source's own table
through base and object 3, the value of `a` in source, ends up wrapping
itself: `String()` on it recurses without end.  With `[1]` processed first
source is left as it was and `a` reads `p`.  The two orders leave different
states. -/
theorem applyRules_depends_on_order :
    (∃ h1, applyRules exOrderHeap 0 2
        [("1", Rule.bool true), ("[1]", Rule.map [("a", Rule.bool true)])] = some h1 ∧
      h1.vals = [{ Typ := LuaType.TypeTable, value := Payload.value 2 }, strValue "x",
                 tableValue 3, { Typ := LuaType.TypeString, value := Payload.value 3 }] ∧
      h1.vals[3]? ≠ exOrderHeap.vals[3]? ∧
      (∀ fuel, Value.StringAux h1 fuel 3 = Res.diverge)) ∧
    (∃ h2, applyRules exOrderHeap 0 2
        [("[1]", Rule.map [("a", Rule.bool true)]), ("1", Rule.bool true)] = some h2 ∧
      h2.vals = [{ Typ := LuaType.TypeTable, value := Payload.value 2 },
                 { Typ := LuaType.TypeString, value := Payload.value 3 },
                 tableValue 3, strValue "p"] ∧
      h2.vals[2]? = exOrderHeap.vals[2]? ∧ h2.vals[3]? = exOrderHeap.vals[3]? ∧
      Value.String h2 3 = Res.ok "p") ∧
    applyRules exOrderHeap 0 2
        [("1", Rule.bool true), ("[1]", Rule.map [("a", Rule.bool true)])] ≠
      applyRules exOrderHeap 0 2
        [("[1]", Rule.map [("a", Rule.bool true)]), ("1", Rule.bool true)] :=
  ⟨⟨{ vals := [{ Typ := LuaType.TypeTable, value := Payload.value 2 }, strValue "x",
               tableValue 3, { Typ := LuaType.TypeString, value := Payload.value 3 }],
      tabs := exOrderHeap.tabs },
    by decide, by decide, by decide,
    by
      intro fuel
      induction fuel with
      | zero => rfl
      | succ n ih =>
        rw [Value.StringAux]
        exact ih⟩,
   ⟨{ vals := [{ Typ := LuaType.TypeTable, value := Payload.value 2 },
               { Typ := LuaType.TypeString, value := Payload.value 3 },
               tableValue 3, strValue "p"],
      tabs := exOrderHeap.tabs },
    by decide, by decide, by decide, by decide, by decide⟩,
   by decide⟩

end Luamerge
